import Mathlib

/-!
Verification development for the `@fxfn/cmd` command-line toolkit.

The TypeScript sources are shallowly embedded here:
* strings are `List Char` (`Str`), so every character-level operation of the
  source (`indexOf`, `split`, `trim`, `replace`, ...) has a direct recursive model;
* JavaScript runtime values flowing through the parser are the inductive `Value`
  (numbers are modelled as exact rationals: every numeric literal the claims
  exercise is far below 2^53, where IEEE doubles are exact; the `Number(...)`
  finiteness test is modelled by the 2^1024 overflow bound);
* zod schemas are the inductive `Schema` (the tagged-union "Schema Node" of the
  spec), and `zodParse` models `schema.safeParse` for the schema kinds the
  commands of this repository use (type checking with full error collection).
-/

set_option maxHeartbeats 1000000

/-- Characters of a JavaScript string. -/
abbrev Str := List Char

/-- Shorthand to write embedded strings with string-literal syntax. -/
def str (s : String) : Str := s.toList

/-- Whitespace for `String.prototype.trim` / `Number` (space, tab, newlines, form feed,
vertical tab); the exotic Unicode space classes never occur in the inputs modelled here. -/
def isWsChar (c : Char) : Bool :=
  c = ' ' || c = '\t' || c = '\n' || c = '\r' || c = '\x0b' || c = '\x0c'

/-- Drop leading whitespace. -/
def trimLeft : Str → Str
  | [] => []
  | c :: cs => if isWsChar c then trimLeft cs else c :: cs

/-- `s.trim()`: drop leading and trailing whitespace. -/
def trimStr (s : Str) : Str :=
  (trimLeft (trimLeft s).reverse).reverse

/-- `s.split(sep)` for a single-character separator. -/
def splitOnChar (sep : Char) : Str → List Str
  | [] => [[]]
  | c :: cs =>
    if c = sep then [] :: splitOnChar sep cs
    else match splitOnChar sep cs with
      | [] => [[c]]
      | p :: ps => (c :: p) :: ps

/-- Split at the first occurrence of `sep`: models
`indexOf(sep)` + the two `substring` calls; `none` models `indexOf = -1`. -/
def splitFirst (sep : Char) : Str → Option (Str × Str)
  | [] => none
  | c :: cs =>
    if c = sep then some ([], cs)
    else (splitFirst sep cs).map (fun p => (c :: p.1, p.2))

/-- `s.replace(pat, '')` for a plain (non-regex) pattern: removes the
first occurrence of `pat` anywhere in the string, if any. -/
def replaceFirst (pat : Str) : Str → Str
  | [] => []
  | c :: cs =>
    if pat.isPrefixOf (c :: cs) then (c :: cs).drop pat.length
    else c :: replaceFirst pat cs

/-- Join strings with a single-character separator. -/
def joinWith (sep : Char) : List Str → Str
  | [] => []
  | [x] => x
  | x :: y :: ys => x ++ sep :: joinWith sep (y :: ys)

/-- JavaScript runtime values produced by the argument parsers. -/
inductive Value : Type where
  | vBool (b : Bool)
  | vNum (q : ℚ)
  | vNull
  | vUndef
  | vStr (s : Str)
  | vArr (elems : List Value)
  | vObj (fields : List (Str × Value))

instance : Inhabited Value := ⟨Value.vUndef⟩

/-- Object property read: `obj[k]` (`none` models an absent property). -/
def objGet : List (Str × Value) → Str → Option Value
  | [], _ => none
  | (k', v') :: rest, k => if k' = k then some v' else objGet rest k

/-- Object property write: `obj[k] = v`. An existing key keeps its position
(JavaScript insertion order), a new key is appended. -/
def objSet : List (Str × Value) → Str → Value → List (Str × Value)
  | [], k, v => [(k, v)]
  | (k', v') :: rest, k, v =>
    if k' = k then (k, v) :: rest else (k', v') :: objSet rest k v

/-- Read a value along a path of object keys (used only to state theorems). -/
def getPath : Value → List Str → Option Value
  | v, [] => some v
  | Value.vObj fields, k :: rest =>
    match objGet fields k with
    | some v' => getPath v' rest
    | none => none
  | _, _ :: _ => none

/-! ### `Number(string)`: the ECMAScript string-to-number conversion

`jsStrToNumber s = some q` models `Number(s)` evaluating to the finite number `q`
(exactly, as a rational); `none` models `NaN` and the infinities, i.e. exactly the
strings rejected by the source's `!isNaN(num) && isFinite(num)` test. -/

/-- Decimal digit value. -/
def digitVal (c : Char) : Option ℕ :=
  if '0' ≤ c ∧ c ≤ '9' then some (c.toNat - '0'.toNat) else none

/-- Hexadecimal digit value. -/
def hexVal (c : Char) : Option ℕ :=
  if '0' ≤ c ∧ c ≤ '9' then some (c.toNat - '0'.toNat)
  else if 'a' ≤ c ∧ c ≤ 'f' then some (c.toNat - 'a'.toNat + 10)
  else if 'A' ≤ c ∧ c ≤ 'F' then some (c.toNat - 'A'.toNat + 10)
  else none

/-- Octal digit value. -/
def octVal (c : Char) : Option ℕ :=
  if '0' ≤ c ∧ c ≤ '7' then some (c.toNat - '0'.toNat) else none

/-- Binary digit value. -/
def binVal (c : Char) : Option ℕ :=
  if c = '0' then some 0 else if c = '1' then some 1 else none

/-- Longest decimal-digit run at the front of the string, and the rest. -/
def takeDigits : Str → Str × Str
  | [] => ([], [])
  | c :: cs =>
    if (digitVal c).isSome then
      let (d, r) := takeDigits cs
      (c :: d, r)
    else ([], c :: cs)

/-- Numeric value of a digit string (most significant digit first). -/
def natOfDigits (ds : Str) : ℕ :=
  ds.foldl (fun a c => a * 10 + (digitVal c).getD 0) 0

/-- Radix-prefixed integer body (`0x...`, `0o...`, `0b...`): every remaining
character must be a digit of the radix, and at least one digit is required. -/
def parseRadixAux (digOf : Char → Option ℕ) (radix : ℕ) : Str → ℕ → Option ℕ
  | [], acc => some acc
  | c :: cs, acc =>
    match digOf c with
    | some d => parseRadixAux digOf radix cs (acc * radix + d)
    | none => none

/-- Radix-prefixed integer body; `none` on an empty body or a bad digit. -/
def parseRadix (digOf : Char → Option ℕ) (radix : ℕ) : Str → Option ℚ
  | [] => none
  | c :: cs => (parseRadixAux digOf radix (c :: cs) 0).map (fun n => (n : ℚ))

/-- Exponent digits of a decimal literal: at least one digit, consuming the
whole rest of the string. The mantissa arrives as the fraction `num / den`
(with `den` a power of ten), so the result is assembled with natural-number
arithmetic only. -/
def expDigitsPart (num den : ℕ) (neg : Bool) (body : Str) : Option ℚ :=
  let (d, r) := takeDigits body
  if d = [] ∨ r ≠ [] then none
  else if neg then some (mkRat num (den * 10 ^ natOfDigits d))
  else some (mkRat (num * 10 ^ natOfDigits d) den)

/-- The exponent suffix proper: `e`/`E`, optional sign, digits to the end. -/
def finishExp (num den : ℕ) : Str → Option ℚ
  | [] => some (mkRat num den)
  | c :: cs =>
    if c = 'e' ∨ c = 'E' then
      match cs with
      | '+' :: ds => expDigitsPart num den false ds
      | '-' :: ds => expDigitsPart num den true ds
      | ds => expDigitsPart num den false ds
    else none

/-- Unsigned decimal literal `digits [. digits] [exponent]` consuming the whole
string; at least one digit must be present before or after the point. -/
def parseDecimal (s : Str) : Option ℚ :=
  let (ip, r1) := takeDigits s
  match r1 with
  | '.' :: rest =>
    let (fp, r2) := takeDigits rest
    if ip = [] ∧ fp = [] then none
    else finishExp (natOfDigits ip * 10 ^ fp.length + natOfDigits fp) (10 ^ fp.length) r2
  | _ =>
    if ip = [] then none
    else finishExp (natOfDigits ip) 1 r1

/-- Optionally signed decimal literal. -/
def signedDec : Str → Option ℚ
  | '+' :: r => parseDecimal r
  | '-' :: r => (parseDecimal r).map Rat.neg
  | r => parseDecimal r

/-- IEEE-754 double overflow: magnitudes `≥ 2^1024` round to an infinity, which the
source's `isFinite` test rejects. The bound `|q| < 2^1024` is phrased over the
numerator and denominator so that it evaluates by fast natural-number arithmetic. -/
def jsFinite (q : ℚ) : Option ℚ :=
  if q.num.natAbs < (1 <<< 1024) * q.den then some q else none

/-- The trimmed, nonempty body of a numeric string: a `0x`/`0o`/`0b` head
selects a radix literal (no sign allowed there); otherwise an optionally signed
decimal literal. -/
def numBody : Str → Option ℚ
  | '0' :: c :: rest =>
    if c = 'x' ∨ c = 'X' then parseRadix hexVal 16 rest
    else if c = 'o' ∨ c = 'O' then parseRadix octVal 8 rest
    else if c = 'b' ∨ c = 'B' then parseRadix binVal 2 rest
    else signedDec ('0' :: c :: rest)
  | t => signedDec t

/-- `Number(s)` restricted to finite outcomes: trimmed-empty is `0`; otherwise
the trimmed body, with overflow to an infinity rejected. `Infinity` and every
other unparsable string yield `none` (`NaN` or an infinity). -/
def jsStrToNumber (s : Str) : Option ℚ :=
  let t := trimStr s
  if t = [] then some 0
  else (numBody t).bind jsFinite

/-! ### `JSON.parse`

A faithful executable model of `JSON.parse` over `Str`, used by the sources'
bracket-delimited-value rule and by `parse-options.ts`'s primitive coercion.
Mutual recursion is fueled; the top-level wrapper supplies more fuel than the
input has characters, which is always enough since every recursive step
consumes at least one character. -/

/-- JSON insignificant whitespace. -/
def jsonWsChar (c : Char) : Bool :=
  c = ' ' || c = '\t' || c = '\n' || c = '\r'

/-- Skip JSON whitespace. -/
def skipJsonWs : Str → Str
  | [] => []
  | c :: cs => if jsonWsChar c then skipJsonWs cs else c :: cs

/-- Four hexadecimal digits of a `\u` escape. -/
def jpQuad : Str → Option (ℕ × Str)
  | a :: b :: c :: d :: r =>
    match hexVal a, hexVal b, hexVal c, hexVal d with
    | some x, some y, some z, some w => some (((x * 16 + y) * 16 + z) * 16 + w, r)
    | _, _, _, _ => none
  | _ => none

/-- A Unicode code point as a `Char`. JavaScript strings may hold lone UTF-16
surrogates, which a Lean `Char` cannot; those are mapped to U+FFFD (the claims
never exercise them). -/
def charOfCode (n : ℕ) : Char :=
  if n < 0xd800 ∨ (0xdfff < n ∧ n < 0x110000) then Char.ofNat n else '�'

/-- Body of a JSON string after the opening quote: content and the rest after
the closing quote. Handles every escape, including `\u` surrogate pairs. -/
def jpStringBody (fuel : ℕ) : Str → Option (Str × Str) :=
  match fuel with
  | 0 => fun _ => none
  | fuel + 1 => fun s =>
    match s with
    | [] => none
    | '"' :: r => some ([], r)
    | '\\' :: e :: r =>
      let simple : Char → Str → Option (Str × Str) := fun c rest =>
        (jpStringBody fuel rest).map (fun p => (c :: p.1, p.2))
      (match e with
        | '"' => simple '"' r
        | '\\' => simple '\\' r
        | '/' => simple '/' r
        | 'b' => simple '\x08' r
        | 'f' => simple '\x0c' r
        | 'n' => simple '\n' r
        | 'r' => simple '\r' r
        | 't' => simple '\t' r
        | 'u' =>
          match jpQuad r with
          | none => none
          | some (n1, r1) =>
            if 0xd800 ≤ n1 ∧ n1 ≤ 0xdbff then
              match r1 with
              | '\\' :: 'u' :: r2 =>
                match jpQuad r2 with
                | some (n2, r3) =>
                  if 0xdc00 ≤ n2 ∧ n2 ≤ 0xdfff then
                    simple (charOfCode (0x10000 + (n1 - 0xd800) * 0x400 + (n2 - 0xdc00))) r3
                  else simple (charOfCode n1) r1
                | none => simple (charOfCode n1) r1
              | _ => simple (charOfCode n1) r1
            else simple (charOfCode n1) r1
        | _ => none)
    | c :: r => if c.toNat < 0x20 then none else
        (jpStringBody fuel r).map (fun p => (c :: p.1, p.2))

/-- A JSON number at the head of the string (strict JSON grammar: optional `-`,
no leading zeros, mandatory digits around `.`); returns the rest. -/
def jsonNumber (s : Str) : Option (ℚ × Str) :=
  let (neg, s1) : Bool × Str :=
    match s with
    | '-' :: r => (true, r)
    | r => (false, r)
  let ipR : Option (Str × Str) :=
    match s1 with
    | '0' :: r => some (['0'], r)
    | c :: r =>
      if (digitVal c).isSome ∧ c ≠ '0' then
        let (d, r') := takeDigits r
        some (c :: d, r')
      else none
    | [] => none
  match ipR with
  | none => none
  | some (ip, r1) =>
    let fpR : Option (Str × Str) :=
      match r1 with
      | '.' :: r2 =>
        match takeDigits r2 with
        | ([], _) => none
        | (fp, r3) => some (fp, r3)
      | _ => some ([], r1)
    match fpR with
    | none => none
    | some (fp, r4) =>
      let num := natOfDigits ip * 10 ^ fp.length + natOfDigits fp
      let den := 10 ^ fp.length
      match r4 with
      | e :: r5 =>
        if e = 'e' ∨ e = 'E' then
          let (negE, r6) : Bool × Str :=
            match r5 with
            | '+' :: r' => (false, r')
            | '-' :: r' => (true, r')
            | r' => (false, r')
          match takeDigits r6 with
          | ([], _) => none
          | (ed, r7) =>
            let q :=
              if negE then mkRat num (den * 10 ^ natOfDigits ed)
              else mkRat (num * 10 ^ natOfDigits ed) den
            some (if neg then Rat.neg q else q, r7)
        else some (if neg then Rat.neg (mkRat num den) else mkRat num den, r4)
      | [] => some (if neg then Rat.neg (mkRat num den) else mkRat num den, [])

mutual

/-- A JSON value at the head of the string (leading whitespace allowed). -/
def jpValue (fuel : ℕ) (s : Str) : Option (Value × Str) :=
  match fuel with
  | 0 => none
  | fuel + 1 =>
    let s := skipJsonWs s
    match s with
    | '{' :: rest =>
      match skipJsonWs rest with
      | '}' :: r => some (Value.vObj [], r)
      | r => (jpMembers fuel r []).map (fun p => (Value.vObj p.1, p.2))
    | '[' :: rest =>
      match skipJsonWs rest with
      | ']' :: r => some (Value.vArr [], r)
      | r => (jpItems fuel r).map (fun p => (Value.vArr p.1, p.2))
    | '"' :: rest => (jpStringBody (rest.length + 1) rest).map (fun p => (Value.vStr p.1, p.2))
    | 't' :: rest =>
      if (str "rue").isPrefixOf rest then some (Value.vBool true, rest.drop 3) else none
    | 'f' :: rest =>
      if (str "alse").isPrefixOf rest then some (Value.vBool false, rest.drop 4) else none
    | 'n' :: rest =>
      if (str "ull").isPrefixOf rest then some (Value.vNull, rest.drop 3) else none
    | s' => (jsonNumber s').map (fun p => (Value.vNum p.1, p.2))

/-- Members of a JSON object after the opening brace (at least one); a repeated
key overwrites the earlier value in place, as `JSON.parse` does. -/
def jpMembers (fuel : ℕ) (s : Str) (acc : List (Str × Value)) :
    Option (List (Str × Value) × Str) :=
  match fuel with
  | 0 => none
  | fuel + 1 =>
    match s with
    | '"' :: rest =>
      match jpStringBody (rest.length + 1) rest with
      | none => none
      | some (k, r1) =>
        match skipJsonWs r1 with
        | ':' :: r2 =>
          match jpValue fuel r2 with
          | none => none
          | some (v, r3) =>
            match skipJsonWs r3 with
            | ',' :: r4 => jpMembers fuel (skipJsonWs r4) (objSet acc k v)
            | '}' :: r4 => some (objSet acc k v, r4)
            | _ => none
        | _ => none
    | _ => none

/-- Items of a JSON array after the opening bracket (at least one). -/
def jpItems (fuel : ℕ) (s : Str) : Option (List Value × Str) :=
  match fuel with
  | 0 => none
  | fuel + 1 =>
    match jpValue fuel s with
    | none => none
    | some (v, r1) =>
      match skipJsonWs r1 with
      | ',' :: r2 => (jpItems fuel r2).map (fun p => (v :: p.1, p.2))
      | ']' :: r2 => some ([v], r2)
      | _ => none

end

/-- `JSON.parse(s)`: `none` models a thrown `SyntaxError`. -/
def jsonParse (s : Str) : Option Value :=
  match jpValue (s.length + 1) s with
  | some (v, rest) => if skipJsonWs rest = [] then some v else none
  | none => none

/-- Decimal digit character. -/
def digitToChar (d : ℕ) : Char :=
  match d with
  | 0 => '0' | 1 => '1' | 2 => '2' | 3 => '3' | 4 => '4'
  | 5 => '5' | 6 => '6' | 7 => '7' | 8 => '8' | _ => '9'

/-- Decimal rendering of a natural number (fueled so that it reduces in the kernel). -/
def renderNatAux : ℕ → ℕ → Str
  | 0, _ => []
  | fuel + 1, n =>
    if n < 10 then [digitToChar n]
    else renderNatAux fuel (n / 10) ++ [digitToChar (n % 10)]

/-- Decimal rendering of a natural number. -/
def renderNat (n : ℕ) : Str := renderNatAux (n + 1) n

/-! ### The zod schema adapter

`Schema` is the spec's tagged-union "Schema Node"; `zodParse` models
`schema.safeParse` on the schema kinds the repository's commands use: type
checking that collects every violation (each with its field path and a message),
strips unknown object keys and otherwise returns values unchanged, as zod does
for schemas without transforms. -/

/-- Schema nodes (`z.string()`, `z.number()`, `z.boolean()`, `z.array`,
`z.object`, `z.union`/`.or`, `.optional()`, `z.any()`). -/
inductive Schema : Type where
  | sString
  | sNumber
  | sBoolean
  | sArray (elem : Schema)
  | sObject (shape : List (Str × Schema))
  | sUnion (opts : List Schema)
  | sOptional (inner : Schema)
  | sAny

/-- One reported violation: the field path and a human-readable message. -/
structure Issue where
  path : List Str
  message : Str
deriving DecidableEq

/-- The message attached to a type mismatch at the given schema node. -/
def expectedMsg : Schema → Str
  | Schema.sString => str "expected string"
  | Schema.sNumber => str "expected number"
  | Schema.sBoolean => str "expected boolean"
  | Schema.sArray _ => str "expected array"
  | Schema.sObject _ => str "expected object"
  | Schema.sUnion _ => str "invalid union"
  | Schema.sOptional s => expectedMsg s
  | Schema.sAny => str "any"

mutual

/-- Whether the schema accepts an absent (`undefined`) field, i.e. whether zod's
`isOptional()` holds. -/
def acceptsUndefined : Schema → Bool
  | Schema.sOptional _ => true
  | Schema.sAny => true
  | Schema.sUnion opts => acceptsUndefinedAny opts
  | _ => false

/-- `acceptsUndefined` over a union's members. -/
def acceptsUndefinedAny : List Schema → Bool
  | [] => false
  | s :: rest => acceptsUndefined s || acceptsUndefinedAny rest

end

mutual

/-- `schema.safeParse(v)`: `Except.ok` with the (unknown-keys-stripped) value, or
`Except.error` with every violation. -/
def zodParse (s : Schema) (path : List Str) (v : Value) : Except (List Issue) Value :=
  match s with
  | Schema.sString =>
    match v with
    | Value.vStr x => Except.ok (Value.vStr x)
    | _ => Except.error [⟨path, expectedMsg Schema.sString⟩]
  | Schema.sNumber =>
    match v with
    | Value.vNum x => Except.ok (Value.vNum x)
    | _ => Except.error [⟨path, expectedMsg Schema.sNumber⟩]
  | Schema.sBoolean =>
    match v with
    | Value.vBool x => Except.ok (Value.vBool x)
    | _ => Except.error [⟨path, expectedMsg Schema.sBoolean⟩]
  | Schema.sArray elem =>
    match v with
    | Value.vArr xs =>
      match zodItems elem path 0 xs with
      | (issues, xs') =>
        if issues = [] then Except.ok (Value.vArr xs') else Except.error issues
    | _ => Except.error [⟨path, expectedMsg (Schema.sArray elem)⟩]
  | Schema.sObject shape =>
    match v with
    | Value.vObj fields =>
      match zodFields shape path fields with
      | (issues, fields') =>
        if issues = [] then Except.ok (Value.vObj fields') else Except.error issues
    | _ => Except.error [⟨path, expectedMsg (Schema.sObject shape)⟩]
  | Schema.sUnion opts =>
    match zodUnion opts path v with
    | some v' => Except.ok v'
    | none => Except.error [⟨path, expectedMsg (Schema.sUnion opts)⟩]
  | Schema.sOptional inner =>
    match v with
    | Value.vUndef => Except.ok Value.vUndef
    | _ => zodParse inner path v
  | Schema.sAny => Except.ok v

/-- Parse every element of an array, collecting all issues (indices as path segments). -/
def zodItems (elem : Schema) (path : List Str) (i : ℕ) :
    List Value → List Issue × List Value
  | [] => ([], [])
  | x :: xs =>
    let hd := zodParse elem (path ++ [renderNat i]) x
    let (issues, rest) := zodItems elem path (i + 1) xs
    match hd with
    | Except.ok x' => (issues, x' :: rest)
    | Except.error e => (e ++ issues, rest)

/-- Parse every declared field of an object shape, collecting all issues; a
missing field is a violation unless the field's schema accepts `undefined`. -/
def zodFields (shape : List (Str × Schema)) (path : List Str)
    (fields : List (Str × Value)) : List Issue × List (Str × Value) :=
  match shape with
  | [] => ([], [])
  | (k, sch) :: rest =>
    let (issues, out) := zodFields rest path fields
    match objGet fields k with
    | none =>
      if acceptsUndefined sch then (issues, out)
      else (⟨path ++ [k], expectedMsg sch⟩ :: issues, out)
    | some v =>
      match zodParse sch (path ++ [k]) v with
      | Except.ok v' => (issues, (k, v') :: out)
      | Except.error e => (e ++ issues, out)

/-- Try union members in declaration order; the first success wins. -/
def zodUnion (opts : List Schema) (path : List Str) (v : Value) : Option Value :=
  match opts with
  | [] => none
  | s :: rest =>
    match zodParse s path v with
    | Except.ok v' => some v'
    | Except.error _ => zodUnion rest path v

end

/-! ### `src/lib/parse-advanced-args.ts` -/

namespace AdvancedArgs

/-- The `ParsedArgument.type` union of the source. -/
inductive ArgType : Type where
  | primitive
  | object
  | array
  | nested
deriving DecidableEq

/-- One parsed flag entry (`ParsedArgument` of the source). -/
structure ParsedArgument where
  key : Str
  value : Value
  original : Str
  type : ArgType

/-- `parsePrimitiveValue` of `parse-advanced-args.ts`: booleans, `null`,
`undefined`, finite numbers, otherwise the literal string (no JSON attempt in
this file's variant). -/
def parsePrimitiveValue (value : Str) : Value :=
  if value = str "true" ∨ value = str "false" then Value.vBool (value = str "true")
  else if value = str "null" then Value.vNull
  else if value = str "undefined" then Value.vUndef
  else
    match jsStrToNumber value with
    | some q => Value.vNum q
    | none => Value.vStr value

/-- Core of `setNestedValue`: walk the dot-path, materialising `{}` at a
segment whose current value is missing, `null` or not object-typed, and
assign the (possibly coerced) value at the last segment unconditionally.
A JavaScript array met at an intermediate segment keeps its identity in the
source (`typeof` is `'object'`) and receives named properties; such hybrid
array-with-properties values are not representable in `Value` and are reset
here — no schema of this development accepts them, and no claim exercises
them. -/
def setNestedCore (coerceLeaf : Value → Value) :
    List (Str × Value) → List Str → Value → List (Str × Value)
  | obj, [], _ => obj
  | obj, [k], v => objSet obj k (coerceLeaf v)
  | obj, k :: k2 :: ks, v =>
    let sub : List (Str × Value) :=
      match objGet obj k with
      | some (Value.vObj fields) => fields
      | _ => []
    objSet obj k (Value.vObj (setNestedCore coerceLeaf sub (k2 :: ks) v))

/-- Leaf coercion of this file's `setNestedValue`: the assigned value is always
a string here, and is always primitive-coerced. -/
def coerceLeaf (v : Value) : Value :=
  match v with
  | Value.vStr s => parsePrimitiveValue s
  | v => v

/-- `setNestedValue` of `parse-advanced-args.ts` (the assigned value is a string). -/
def setNestedValue (obj : List (Str × Value)) (path : Str) (value : Str) :
    List (Str × Value) :=
  setNestedCore coerceLeaf obj (splitOnChar '.' path) (Value.vStr value)

/-- The comma-chunk scanner inside `parseObjectValue`: each trimmed chunk with
an `=` and a nonempty key yields a `(keyPath, val)` pair, and the immediately
following chunks without an `=` are joined back onto `val` with commas (the
`j`/`i = j - 1` loop of the source); a chunk without `=`, or with an empty key,
is skipped. -/
def objPairsAux : ℕ → List Str → List (Str × Str)
  | 0, _ => []
  | _ + 1, [] => []
  | fuel + 1, c :: cs =>
    match splitFirst '=' (trimStr c) with
    | none => objPairsAux fuel cs
    | some (kp0, v0) =>
      let kp := trimStr kp0
      let v := trimStr v0
      if kp = [] then objPairsAux fuel cs
      else
        let extra := cs.takeWhile (fun p => ¬ p.contains '=')
        let rest := cs.dropWhile (fun p => ¬ p.contains '=')
        (kp, v ++ (extra.map (fun e => ',' :: e)).flatten) :: objPairsAux fuel rest

/-- The chunk scanner with enough fuel for its chunk list (every step consumes
at least one chunk). -/
def objPairs (parts : List Str) : List (Str × Str) :=
  objPairsAux (parts.length + 1) parts

/-- `parseObjectValue` of `parse-advanced-args.ts`: split on `,`, insert each
`key=value` pair by dot-path (values primitive-coerced by `setNestedValue`),
and report whether at least one valid pair produced a nonempty object. -/
def parseObjectValue (value : Str) : Bool × List (Str × Value) :=
  let pairs := objPairs (splitOnChar ',' value)
  let result := pairs.foldl (fun acc p => setNestedValue acc p.1 p.2) []
  (!pairs.isEmpty && !result.isEmpty, result)

/-- Whether the string is exactly brace- or bracket-delimited (the source's
`startsWith`/`endsWith` test that guards the `JSON.parse` attempt). -/
def bracketDelimited (value : Str) : Bool :=
  (value.head? = some '{' && value.getLast? = some '}') ||
  (value.head? = some '[' && value.getLast? = some ']')

/-- `parseAdvancedValue`: the value grammar of the advanced parser, in the
source's rule order (empty, JSON literal, object-like with `=`, comma list,
primitive). -/
def parseAdvancedValue (value : Str) : Value × ArgType :=
  if value = [] then (Value.vBool true, ArgType.primitive)
  else
    let jsonStep : Option (Value × ArgType) :=
      if bracketDelimited value then
        match jsonParse value with
        | some (Value.vArr xs) => some (Value.vArr xs, ArgType.array)
        | some parsed => some (parsed, ArgType.object)
        | none => none
      else none
    match jsonStep with
    | some r => r
    | none =>
      let objStep : Option (Value × ArgType) :=
        if value.contains '=' then
          match parseObjectValue value with
          | (true, result) => some (Value.vObj result, ArgType.object)
          | (false, _) => none
        else none
      match objStep with
      | some r => r
      | none =>
        let arrStep : Option (Value × ArgType) :=
          if value.contains ',' && ¬ value.contains '=' then
            let parts := ((splitOnChar ',' value).map trimStr).filter (fun p => p ≠ [])
            if 1 < parts.length then
              if parts.all (fun p => (jsStrToNumber p).isSome) then
                some (Value.vArr (parts.map (fun p => Value.vNum ((jsStrToNumber p).getD 0))),
                  ArgType.array)
              else some (Value.vArr (parts.map Value.vStr), ArgType.array)
            else none
          else none
        match arrStep with
        | some r => r
        | none => (parsePrimitiveValue value, ArgType.primitive)

/-- `parseAdvancedArgs`: scan every flag token (leading `-` or `--` stripped by
the `^--?` regex), emit a boolean entry when there is no `=`, otherwise split at
the first `=` and interpret the value. -/
def parseAdvancedArgs : List Str → List ParsedArgument
  | [] => []
  | arg :: rest =>
    if arg.head? = some '-' then
      let cleanArg :=
        if (str "--").isPrefixOf arg then arg.drop 2
        else arg.drop 1
      let entry : ParsedArgument :=
        match splitFirst '=' cleanArg with
        | none => ⟨cleanArg, Value.vBool true, arg, ArgType.primitive⟩
        | some (key, value) =>
          let parsed := parseAdvancedValue value
          ⟨key, parsed.1, arg, parsed.2⟩
      entry :: parseAdvancedArgs rest
    else parseAdvancedArgs rest

/-- `isArraySchemaAtPath` of `parse-advanced-args.ts`: walk the dot-segments
through object shapes; at the final node an array, or a union with an
array-kind member, counts. -/
def isArraySchemaAtPath (schema : Schema) (path : Str) : Bool :=
  go schema (splitOnChar '.' path)
where
  /-- Walk the remaining segments, then test the final node. -/
  go : Schema → List Str → Bool
    | s, [] =>
      match s with
      | Schema.sArray _ => true
      | Schema.sUnion opts =>
        opts.any (fun o => match o with | Schema.sArray _ => true | _ => false)
      | _ => false
    | Schema.sObject shape, seg :: rest =>
      match shape.lookup seg with
      | some s' => go s' rest
      | none => false
    | _, _ :: _ => false

/-- Keys in order of first occurrence (the iteration order of the source's
`groupedArgs` record). -/
def firstKeys : List Str → List Str
  | [] => []
  | k :: rest => k :: (firstKeys rest).filter (fun x => x ≠ k)

/-- How one key's group of values is resolved: a single occurrence is used
as-is; several occurrences become an ordered array when the schema expects an
array at that key, otherwise the last occurrence wins. -/
def groupValue (schema : Schema) (k : Str) : List Value → Value
  | [] => Value.vUndef
  | [v] => v
  | v :: v2 :: rest =>
    if isArraySchemaAtPath schema k then Value.vArr (v :: v2 :: rest)
    else (v2 :: rest).getLastD v

/-- The object assembled by `validateAdvancedArgs` before `safeParse`: one
property per distinct key, in first-occurrence order, resolved by `groupValue`.
Keys are used verbatim — a dotted key stays one flat property. -/
def assembleParsed (schema : Schema) (args : List ParsedArgument) :
    List (Str × Value) :=
  (firstKeys (args.map (fun a => a.key))).map
    (fun k => (k, groupValue schema k ((args.filter (fun a => a.key = k)).map (fun a => a.value))))

/-- `validateAdvancedArgs`: group, resolve and validate against the schema. -/
def validateAdvancedArgs (args : List ParsedArgument) (schema : Schema) :
    Except (List Issue) Value :=
  zodParse schema [] (Value.vObj (assembleParsed schema args))

end AdvancedArgs

/-! ### `src/lib/parse-options.ts`

The original basic parser. Its `parseObjectValue` chunk loop and `setNestedValue`
are verbatim copies of the ones in `parse-advanced-args.ts`, so the shared cores
`objPairs` and `setNestedCore` are reused; only `parsePrimitiveValue` differs
(this file's variant also attempts `JSON.parse` on brace/bracket-delimited
strings) and therefore the leaf coercion differs. -/

namespace ParseOptions

/-- `parsePrimitiveValue` of `parse-options.ts`: booleans, `null`, `undefined`,
finite numbers, then a `JSON.parse` attempt on brace/bracket-delimited strings,
otherwise the literal string. -/
def parsePrimitiveValue (value : Str) : Value :=
  if value = str "true" ∨ value = str "false" then Value.vBool (value = str "true")
  else if value = str "null" then Value.vNull
  else if value = str "undefined" then Value.vUndef
  else
    match jsStrToNumber value with
    | some q => Value.vNum q
    | none =>
      if AdvancedArgs.bracketDelimited value then
        match jsonParse value with
        | some v => v
        | none => Value.vStr value
      else Value.vStr value

/-- Leaf coercion of this file's `setNestedValue`: a string value is
primitive-coerced (with the JSON attempt), any other value is assigned as-is. -/
def coerceLeaf (v : Value) : Value :=
  match v with
  | Value.vStr s => parsePrimitiveValue s
  | v => v

/-- `setNestedValue` of `parse-options.ts`. -/
def setNestedValue (obj : List (Str × Value)) (path : Str) (value : Value) :
    List (Str × Value) :=
  AdvancedArgs.setNestedCore coerceLeaf obj (splitOnChar '.' path) value

/-- `parseObjectValue` of `parse-options.ts`: the same chunk scan, inserting
with this file's `setNestedValue`; with no valid pair the raw string comes back. -/
def parseObjectValue (value : Str) : Value :=
  let pairs := AdvancedArgs.objPairs (splitOnChar ',' value)
  let result := pairs.foldl (fun acc p => setNestedValue acc p.1 (Value.vStr p.2)) []
  if !pairs.isEmpty && !result.isEmpty then Value.vObj result else Value.vStr value

/-- `parseValue`: empty means a bare flag, no `=` stays an opaque string
(comma lists are NOT split here), otherwise try the object-literal parse. -/
def parseValue (value : Str) : Value :=
  if value = [] then Value.vBool true
  else if ¬ value.contains '=' then Value.vStr value
  else parseObjectValue value

/-- The `^--?` strip used by `countOptionOccurrences`. -/
def stripDashRegex (arg : Str) : Str :=
  match arg with
  | '-' :: '-' :: rest => rest
  | '-' :: rest => rest
  | a => a

/-- The key under which `countOptionOccurrences` counts a token: a flag token
with an `=` after dash-stripping; `none` otherwise. -/
def optKeyOf (arg : Str) : Option Str :=
  if arg.head? = some '-' then
    match splitFirst '=' (stripDashRegex arg) with
    | some (k, _) => some k
    | none => none
  else none

/-- `countOptionOccurrences` (as a counting function rather than a record). -/
def countOptionOccurrences (input : List Str) (k : Str) : ℕ :=
  (input.filter (fun a => optKeyOf a = some k)).length

/-- `isArraySchemaAtPath` of `parse-options.ts`: like the advanced one but the
final node must be an array outright (no union case). -/
def isArraySchemaAtPath (schema : Schema) (path : Str) : Bool :=
  go schema (splitOnChar '.' path)
where
  /-- Walk the remaining segments, then test the final node. -/
  go : Schema → List Str → Bool
    | Schema.sArray _, [] => true
    | _, [] => false
    | Schema.sObject shape, seg :: rest =>
      match shape.lookup seg with
      | some s' => go s' rest
      | none => false
    | _, _ :: _ => false

/-- JavaScript truthiness of the values the parser produces (`if (result[key])`). -/
def jsTruthy : Value → Bool
  | Value.vBool b => b
  | Value.vNum q => q ≠ 0
  | Value.vStr s => s ≠ []
  | Value.vNull => false
  | Value.vUndef => false
  | Value.vArr _ => true
  | Value.vObj _ => true

/-- The dash stripping of the main loop: `replace('--', '')` (first occurrence
anywhere), then `replace('-', '')` if the result still starts with a dash. -/
def cleanDashes (arg : Str) : Str :=
  let a := replaceFirst (str "--") arg
  if a.head? = some '-' then replaceFirst (str "-") a else a

/-- The regular (non-comma-split) assignment: dotted keys go through
`setNestedValue`; plain keys collect repeats into arrays, but only when the
existing value is truthy (`if (result[key])`), else they overwrite. -/
def assignRegular (result : List (Str × Value)) (key : Str) (pv : Value) :
    List (Str × Value) :=
  if key.contains '.' then setNestedValue result key pv
  else
    match objGet result key with
    | some old =>
      if jsTruthy old then
        match old with
        | Value.vArr xs => objSet result key (Value.vArr (xs ++ [pv]))
        | _ => objSet result key (Value.vArr [old, pv])
      else objSet result key pv
    | none => objSet result key pv

/-- One iteration of the `parseOptions` loop on one token. -/
def poStep (schema : Schema) (input : List Str) (result : List (Str × Value))
    (arg0 : Str) : List (Str × Value) :=
  if arg0.head? = some '-' then
    let arg := cleanDashes arg0
    match splitFirst '=' arg with
    | none => setNestedValue result arg (Value.vBool true)
    | some (key, value) =>
      let parsedValue := parseValue value
      let isArrayForKey := isArraySchemaAtPath schema key
      match parsedValue with
      | Value.vStr s =>
        if isArrayForKey ∧ countOptionOccurrences input key = 1 ∧ s.contains ',' then
          let splitValues :=
            (((splitOnChar ',' s).map trimStr).filter (fun p => p ≠ [])).map parsePrimitiveValue
          if key.contains '.' then setNestedValue result key (Value.vArr splitValues)
          else objSet result key (Value.vArr splitValues)
        else assignRegular result key (Value.vStr s)
      | pv => assignRegular result key pv
  else result

/-- The object assembled by `parseOptions` before `safeParse`. -/
def parseOptionsObj (schema : Schema) (input : List Str) : List (Str × Value) :=
  input.foldl (fun result arg => poStep schema input result arg) []

/-- `parseOptions`: assemble and validate. -/
def parseOptions (input : List Str) (schema : Schema) : Except (List Issue) Value :=
  zodParse schema [] (Value.vObj (parseOptionsObj schema input))

end ParseOptions

/-! ### `src/lib/parse-args.ts` and `src/lib/resolve-command.ts` -/

/-- `parseArgs`: the maximal leading run of non-flag (positional) tokens. -/
def parseArgs (input : List Str) : List Str :=
  input.takeWhile (fun arg => arg.head? ≠ some '-')

namespace ResolveCommand

/-- A registered command: its name and its declared child commands. The source
stores child constructors and instantiates them to read names; following the
spec's design note, children are modelled directly as commands. -/
inductive Cmd : Type where
  | mk (name : Str) (children : List Cmd)

/-- The command's name. -/
def Cmd.name : Cmd → Str
  | Cmd.mk n _ => n

/-- The command's declared children. -/
def Cmd.children : Cmd → List Cmd
  | Cmd.mk _ cs => cs

/-- The two resolution error kinds (`CommandNotFoundError`, `NoCommandSpecifiedError`). -/
inductive ResolveError : Type where
  | commandNotFound
  | noCommandSpecified
deriving DecidableEq

/-- `findNestedCommand`: walk the remaining positional tokens through the
children by exact name match. -/
def findNestedCommand : Cmd → List Str → Except ResolveError Cmd
  | currentCommand, [] => Except.ok currentCommand
  | currentCommand, nextArg :: rest =>
    match currentCommand.children.find? (fun child => child.name = nextArg) with
    | some child => findNestedCommand child rest
    | none => Except.error ResolveError.commandNotFound

/-- `resolveCommand`: the first token is looked up in the full registered set
(`container.resolveAll`), the rest through the child lists. -/
def resolveCommand (commands : List Cmd) (args : List Str) : Except ResolveError Cmd :=
  match args with
  | [] => Except.error ResolveError.noCommandSpecified
  | first :: rest =>
    match commands.find? (fun c => c.name = first) with
    | none => Except.error ResolveError.commandNotFound
    | some rootCommand =>
      if rest = [] then Except.ok rootCommand
      else findNestedCommand rootCommand rest

end ResolveCommand

/-! ### `src/execute.ts` (steps 3 and 4: options and dispatch)

The resolution steps 1-2 are `parseArgs`/`resolveCommand` above; the claims
about `execute` concern what happens after a command is resolved, which
`executeResolved` models: option parsing, the validation-failure report and
exit code, and handler dispatch. The handler is the command's own code and is
modelled as an opaque function returning an optional exit code (`void` is
`none`). -/

namespace Execute

/-- A resolved command as `execute` uses it. -/
structure ExecCommand where
  name : Str
  opts : Option Schema
  handler : Value → Option ℤ

/-- The observable outcome of steps 3-4: the returned exit code, the rendered
`* --path: message` lines of a validation failure, and whether the handler ran. -/
structure ExecOutcome where
  exitCode : ℤ
  reported : List (Str × Str)
  handlerInvoked : Bool
deriving DecidableEq

/-- Steps 3-4 of `execute`: advanced parsing + validation when the command
declares `opts`, the basic parser against `z.any()` otherwise; on failure print
every issue (`path.join('.')` with its message) and return 1 without invoking
the handler; on success return the handler's code (`exitCode || 0` is the
identity on integer codes, and `0` when the handler returns nothing). -/
def executeResolved (command : ExecCommand) (input : List Str) : ExecOutcome :=
  let options : Except (List Issue) Value :=
    match command.opts with
    | some schema =>
      AdvancedArgs.validateAdvancedArgs (AdvancedArgs.parseAdvancedArgs input) schema
    | none => ParseOptions.parseOptions input Schema.sAny
  match options with
  | Except.error issues =>
    ⟨1, issues.map (fun i => (joinWith '.' i.path, i.message)), false⟩
  | Except.ok data =>
    match command.handler data with
    | some code => ⟨code, [], true⟩
    | none => ⟨0, [], true⟩

end Execute

/-! ### Round-trip serialization (spec §8)

The repository has no serializer; spec §8's idempotence property speaks of
"the equivalent flags" for a validated result's data. The definitions in this
namespace are therefore modelled from the spec: data made of primitives, arrays
and nested objects is rendered into the flag syntax of §6 (`--key=value`,
comma-separated arrays, comma-separated dotted `key=value` chunks for objects —
the README's documented forms), to be fed back through the advanced pipeline. -/

namespace RoundTrip

/-- Decimal rendering of an integer. -/
def renderInt (n : ℤ) : Str :=
  if n < 0 then '-' :: renderNat n.natAbs else renderNat n.toNat

/-- Primitive data: integer-valued numbers, booleans, strings. -/
inductive SPrim : Type where
  | spInt (n : ℤ)
  | spBool (b : Bool)
  | spStr (s : Str)

/-- A nested-object tree with primitive leaves. -/
inductive PTree : Type where
  | leaf (p : SPrim)
  | node (fields : List (Str × PTree))

/-- A top-level field: a primitive, an integer array, or a nested object. -/
inductive SField : Type where
  | fPrim (p : SPrim)
  | fArr (elems : List ℤ)
  | fObj (fields : List (Str × PTree))

/-- A result's data: the top-level record. -/
abbrev SRecord := List (Str × SField)

/-- Modelled from the spec: the textual form of a primitive in a flag value
(`--key=value` renders numbers and booleans by their decimal/keyword form and
strings verbatim). -/
def renderPrim : SPrim → Str
  | SPrim.spInt n => renderInt n
  | SPrim.spBool b => if b then str "true" else str "false"
  | SPrim.spStr s => s

/-- The runtime value of a primitive. -/
def primVal : SPrim → Value
  | SPrim.spInt n => Value.vNum (n : ℚ)
  | SPrim.spBool b => Value.vBool b
  | SPrim.spStr s => Value.vStr s

/-- The schema node a primitive validates against. -/
def primSchema : SPrim → Schema
  | SPrim.spInt _ => Schema.sNumber
  | SPrim.spBool _ => Schema.sBoolean
  | SPrim.spStr _ => Schema.sString

mutual

/-- The runtime value of a tree. -/
def treeVal : PTree → Value
  | PTree.leaf p => primVal p
  | PTree.node fs => Value.vObj (fieldsVal fs)

/-- The runtime values of a field list. -/
def fieldsVal : List (Str × PTree) → List (Str × Value)
  | [] => []
  | (k, t) :: rest => (k, treeVal t) :: fieldsVal rest

end

mutual

/-- The schema of a tree. -/
def treeSchema : PTree → Schema
  | PTree.leaf p => primSchema p
  | PTree.node fs => Schema.sObject (fieldsSchema fs)

/-- The schema shape of a field list. -/
def fieldsSchema : List (Str × PTree) → List (Str × Schema)
  | [] => []
  | (k, t) :: rest => (k, treeSchema t) :: fieldsSchema rest

end

mutual

/-- The `(dot-path segments, rendered leaf)` pairs of a tree, in field order. -/
def flatSeg : PTree → List (List Str × Str)
  | PTree.leaf p => [([], renderPrim p)]
  | PTree.node fs => flatSegFields fs

/-- `flatSeg` over a field list, each leaf path extended by its field name. -/
def flatSegFields : List (Str × PTree) → List (List Str × Str)
  | [] => []
  | (k, t) :: rest => (flatSeg t).map (fun pr => (k :: pr.1, pr.2)) ++ flatSegFields rest

end

/-- Modelled from the spec: one flag token per top-level field — a primitive as
`--key=primitive`, an integer array as `--key=n1,n2,...` (§6 comma list), a
nested object as `--key=path1=leaf1,path2=leaf2,...` with dotted paths (§6
comma-object syntax). -/
def fieldToken (k : Str) (f : SField) : Str :=
  let v : Str :=
    match f with
    | SField.fPrim p => renderPrim p
    | SField.fArr ns => joinWith ',' (ns.map renderInt)
    | SField.fObj fs =>
      joinWith ',' ((flatSegFields fs).map (fun pr => joinWith '.' pr.1 ++ '=' :: pr.2))
  '-' :: '-' :: (k ++ '=' :: v)

/-- Modelled from the spec: the flag-token list serializing a record. -/
def serializeRecord (r : SRecord) : List Str :=
  r.map (fun p => fieldToken p.1 p.2)

/-- The runtime value of a top-level field. -/
def fieldVal : SField → Value
  | SField.fPrim p => primVal p
  | SField.fArr ns => Value.vArr (ns.map (fun n : ℤ => Value.vNum ((n : ℚ))))
  | SField.fObj fs => Value.vObj (fieldsVal fs)

/-- The data object of a record. -/
def recordVal (r : SRecord) : List (Str × Value) :=
  r.map (fun p => (p.1, fieldVal p.2))

/-- The schema of a top-level field. -/
def fieldSchema : SField → Schema
  | SField.fPrim p => primSchema p
  | SField.fArr _ => Schema.sArray Schema.sNumber
  | SField.fObj fs => Schema.sObject (fieldsSchema fs)

/-- The schema a record validates against. -/
def recordSchema (r : SRecord) : Schema :=
  Schema.sObject (r.map (fun p => (p.1, fieldSchema p.2)))

/-- A field name safe for the flag grammar: nonempty, and free of whitespace
and of the structural characters of the comma/dot/equals syntax and of the
JSON-literal guard. -/
def nameOK (s : Str) : Bool :=
  !s.isEmpty && s.all (fun c =>
    ¬ isWsChar c && c ≠ ',' && c ≠ '=' && c ≠ '.' && c ≠ '{' && c ≠ '[')

/-- A string value the value grammar leaves alone: nonempty, trim-stable, no
comma or equals sign, not a keyword literal, not numeric, not JSON-delimited. -/
def inertStr (s : Str) : Bool :=
  !s.isEmpty && trimStr s = s && !s.contains ',' && !s.contains '=' &&
  s ≠ str "true" && s ≠ str "false" && s ≠ str "null" && s ≠ str "undefined" &&
  (jsStrToNumber s).isNone && !AdvancedArgs.bracketDelimited s

/-- Primitives that survive the round trip: doubles are exact below `2^53`,
and strings must be inert. -/
def wfPrim : SPrim → Bool
  | SPrim.spInt n => n.natAbs < (1 <<< 53)
  | SPrim.spBool _ => true
  | SPrim.spStr s => inertStr s

mutual

/-- Well-formed tree: leaves well-formed, nodes nonempty with well-formed fields. -/
def wfTree : PTree → Bool
  | PTree.leaf p => wfPrim p
  | PTree.node fs => !fs.isEmpty && wfFields fs

/-- Well-formed field list: names safe and mutually distinct, subtrees well-formed. -/
def wfFields : List (Str × PTree) → Bool
  | [] => true
  | (k, t) :: rest =>
    nameOK k && wfTree t && rest.all (fun p => p.1 ≠ k) && wfFields rest

end

/-- Well-formed top-level field. -/
def wfField : SField → Bool
  | SField.fPrim p => wfPrim p
  | SField.fArr ns => 2 ≤ ns.length && ns.all (fun n => n.natAbs < (1 <<< 53))
  | SField.fObj fs => !fs.isEmpty && wfFields fs

/-- Well-formed record: names safe and mutually distinct, fields well-formed. -/
def wfRecord : SRecord → Bool
  | [] => true
  | (k, f) :: rest =>
    nameOK k && wfField f && rest.all (fun p => p.1 ≠ k) && wfRecord rest

end RoundTrip

/-! ### Concrete instances used in the theorems below -/

/-- The flag token `--key=value`. -/
def mkFlag (k v : Str) : Str :=
  '-' :: '-' :: (k ++ '=' :: v)

/-- The schema `z.object({ a: z.object({ b: z.number(), c: z.number() }) })`. -/
def c1Schema : Schema :=
  Schema.sObject [(str "a", Schema.sObject [(str "b", Schema.sNumber), (str "c", Schema.sNumber)])]

/-- The schema `z.object({ a: z.object({ b: z.string() }) })`. -/
def c3Schema : Schema :=
  Schema.sObject [(str "a", Schema.sObject [(str "b", Schema.sString)])]

/-- The schema `z.object({ tags: z.array(z.string()) })`. -/
def tagsArrSchema : Schema :=
  Schema.sObject [(str "tags", Schema.sArray Schema.sString)]

/-- The schema `z.object({ tags: z.string() })`. -/
def tagsStrSchema : Schema :=
  Schema.sObject [(str "tags", Schema.sString)]

/-- The schema `z.object({ to: z.string().or(z.array(z.string())) })` of the
repository's own union test. -/
def toUnionSchema : Schema :=
  Schema.sObject [(str "to", Schema.sUnion [Schema.sString, Schema.sArray Schema.sString])]

/-- The `child` command of the resolver tests. -/
def childCmd : ResolveCommand.Cmd :=
  ResolveCommand.Cmd.mk (str "child") []

/-- The `root` command of the resolver tests, owning `child`. -/
def rootCmd : ResolveCommand.Cmd :=
  ResolveCommand.Cmd.mk (str "root") [childCmd]

/-- A command with a numeric option whose handler returns nothing. -/
def demoCmdNone : Execute.ExecCommand :=
  ⟨str "demo", some (Schema.sObject [(str "age", Schema.sNumber)]), fun _ => none⟩

/-- A command with a numeric option whose handler returns exit code 3. -/
def demoCmdThree : Execute.ExecCommand :=
  ⟨str "demo", some (Schema.sObject [(str "age", Schema.sNumber)]), fun _ => some 3⟩

/-- A record exercising every serializable shape: primitives, an integer array
and a nested object. -/
def sampleRecord : RoundTrip.SRecord :=
  [(str "count", RoundTrip.SField.fPrim (RoundTrip.SPrim.spInt (-42))),
   (str "dry", RoundTrip.SField.fPrim (RoundTrip.SPrim.spBool true)),
   (str "name", RoundTrip.SField.fPrim (RoundTrip.SPrim.spStr (str "alice"))),
   (str "nums", RoundTrip.SField.fArr [3, 1, 2]),
   (str "db", RoundTrip.SField.fObj
     [(str "host", RoundTrip.PTree.leaf (RoundTrip.SPrim.spStr (str "localhost"))),
      (str "cred", RoundTrip.PTree.node
        [(str "user", RoundTrip.PTree.leaf (RoundTrip.SPrim.spStr (str "admin"))),
         (str "port", RoundTrip.PTree.leaf (RoundTrip.SPrim.spInt 5432))])])]

/-- A record whose only value is the string `"true"` (valid data for a string
field, but its serialized flag re-parses as a boolean). -/
def strTrueRecord : RoundTrip.SRecord :=
  [(str "mode", RoundTrip.SField.fPrim (RoundTrip.SPrim.spStr (str "true")))]

/-- The schema `z.object({ mode: z.string() })`. -/
def modeStrSchema : Schema :=
  Schema.sObject [(str "mode", Schema.sString)]

/-- The characters that can occur in a string `Number(...)` accepts: whitespace,
signs, the decimal point, decimal/hexadecimal digits (the latter cover `e`, `E`
and the letters of hex literals) and the radix markers. Used to show that
accepted strings contain no structural character of the flag grammar. -/
def numTokenChar (c : Char) : Bool :=
  isWsChar c || c = '+' || c = '-' || c = '.' ||
  (digitVal c).isSome || (hexVal c).isSome ||
  c = 'x' || c = 'X' || c = 'o' || c = 'O'

/-- The object stored under a key, when that key holds an object; the fresh
empty object otherwise (the `typeof current[key] !== 'object'` reset of
`setNestedValue`). -/
def childObj (obj : List (Str × Value)) (k : Str) : List (Str × Value) :=
  match objGet obj k with
  | some (Value.vObj fields) => fields
  | _ => []

/-- One `setNestedValue` step over a `(dot-path segments, raw leaf)` pair, with
the path already split: the folding step of `parseObjectValue`. -/
def snStep (acc : List (Str × Value)) (pr : List Str × Str) : List (Str × Value) :=
  AdvancedArgs.setNestedCore AdvancedArgs.coerceLeaf acc pr.1 (Value.vStr pr.2)

/-- The value part of a field's serialized flag token (everything after `=`). -/
def fieldBody : RoundTrip.SField → Str
  | RoundTrip.SField.fPrim p => RoundTrip.renderPrim p
  | RoundTrip.SField.fArr ns => joinWith ',' (ns.map RoundTrip.renderInt)
  | RoundTrip.SField.fObj fs =>
    joinWith ',' ((RoundTrip.flatSegFields fs).map
      (fun pr => joinWith '.' pr.1 ++ '=' :: pr.2))

/-- The `ParsedArgument.type` the advanced parser assigns to a field's token. -/
def fieldArgType : RoundTrip.SField → AdvancedArgs.ArgType
  | RoundTrip.SField.fPrim _ => AdvancedArgs.ArgType.primitive
  | RoundTrip.SField.fArr _ => AdvancedArgs.ArgType.array
  | RoundTrip.SField.fObj _ => AdvancedArgs.ArgType.object

/-- The `ParsedArgument` the advanced parser produces for a serialized field. -/
def fieldEntry (k : Str) (f : RoundTrip.SField) : AdvancedArgs.ParsedArgument :=
  ⟨k, RoundTrip.fieldVal f, RoundTrip.fieldToken k f, fieldArgType f⟩

/-! ## Theorems

Support lemmas first, then one theorem per claim (with its witness or
counterexample where required). -/

namespace ResolveCommand

/-- With pairwise-distinct names, the registry lookup finds exactly the member
with the sought name. -/
theorem find_mem_of_nodup (cmds : List Cmd) (c : Cmd)
    (hmem : c ∈ cmds) (hnodup : (cmds.map Cmd.name).Nodup) :
    cmds.find? (fun x => x.name = c.name) = some c := by
  induction cmds with
  | nil => cases hmem
  | cons d rest ih =>
    rcases List.mem_cons.mp hmem with rfl | hr
    · simp [List.find?]
    · have hd : d.name ≠ c.name := by
        intro he
        have : c.name ∈ rest.map Cmd.name := List.mem_map_of_mem Cmd.name hr
        rw [← he] at this
        exact (List.nodup_cons.mp hnodup).1 this
      have := ih hr (List.nodup_cons.mp hnodup).2
      simp [List.find?, hd, this]

end ResolveCommand

/-- C6: command resolution walks the positional tokens through the command
forest by exact name match: with a registered command found under the name
`root` whose children contain `child` and no command named `missing`, resolving
`["root", "child"]` returns the child, `["root", "missing"]` fails with the
CommandNotFound condition, and the empty token list fails with the distinct
NoCommandSpecified condition. -/
theorem C6_resolution_walk (cmds : List ResolveCommand.Cmd)
    (r ch : ResolveCommand.Cmd)
    (hroot : cmds.find? (fun c => c.name = str "root") = some r)
    (hchild : r.children.find? (fun c => c.name = str "child") = some ch)
    (hmiss : r.children.find? (fun c => c.name = str "missing") = none) :
    ResolveCommand.resolveCommand cmds [str "root", str "child"] = Except.ok ch ∧
    ResolveCommand.resolveCommand cmds [str "root", str "missing"] =
      Except.error ResolveCommand.ResolveError.commandNotFound ∧
    ResolveCommand.resolveCommand cmds [] =
      Except.error ResolveCommand.ResolveError.noCommandSpecified := by
  refine ⟨?_, ?_, rfl⟩ <;>
    simp [ResolveCommand.resolveCommand, hroot, ResolveCommand.findNestedCommand,
      hchild, hmiss]

/-- C6 witness: the concrete two-command forest of the repository's resolver
tests. -/
theorem C6_resolution_walk_witness :
    ResolveCommand.resolveCommand [rootCmd, childCmd] [str "root", str "child"]
      = Except.ok childCmd ∧
    ResolveCommand.resolveCommand [rootCmd, childCmd] [str "root", str "missing"]
      = Except.error ResolveCommand.ResolveError.commandNotFound ∧
    ResolveCommand.resolveCommand [rootCmd, childCmd] []
      = Except.error ResolveCommand.ResolveError.noCommandSpecified :=
  C6_resolution_walk [rootCmd, childCmd] rootCmd childCmd rfl rfl rfl

/-- C10: every registered command is resolvable at the root position by its
bare name — root resolution searches the full registered set, so a command
that also appears in another command's child list still resolves; names are
assumed pairwise distinct, as duplicate registered names make the first
registration shadow the rest. -/
theorem C10_bare_name_resolvable (cmds : List ResolveCommand.Cmd)
    (c : ResolveCommand.Cmd) (hmem : c ∈ cmds)
    (hnodup : (cmds.map ResolveCommand.Cmd.name).Nodup) :
    ResolveCommand.resolveCommand cmds [c.name] = Except.ok c := by
  simp [ResolveCommand.resolveCommand,
    ResolveCommand.find_mem_of_nodup cmds c hmem hnodup]

/-- C10 witness: `child` is a child of `root` and is registered; the single
token `child` resolves to it at the root position. -/
theorem C10_bare_name_resolvable_witness :
    ResolveCommand.resolveCommand [rootCmd, childCmd] [childCmd.name]
      = Except.ok childCmd :=
  C10_bare_name_resolvable [rootCmd, childCmd] childCmd (by simp)
    (by simp [rootCmd, childCmd, ResolveCommand.Cmd.name, str])

/-- Reading back the key just written. -/
theorem objGet_objSet_self (obj : List (Str × Value)) (k : Str) (v : Value) :
    objGet (objSet obj k v) k = some v := by
  induction obj with
  | nil => simp [objGet, objSet]
  | cons hd tl ih =>
    obtain ⟨k', v'⟩ := hd
    by_cases h : k' = k <;> simp [objGet, objSet, h, ih]

/-- Writing one key leaves every other key unchanged. -/
theorem objGet_objSet_other (obj : List (Str × Value)) (k k' : Str) (v : Value)
    (h : k ≠ k') : objGet (objSet obj k v) k' = objGet obj k' := by
  induction obj with
  | nil => simp [objGet, objSet, h]
  | cons hd tl ih =>
    obtain ⟨k0, v0⟩ := hd
    by_cases h0 : k0 = k <;> simp [objGet, objSet, h0, h, ih]

/-- C1: the claim says validation assembles dot-path keys into a nested object,
so that `--a.b=1 --a.c=2` against `a{b:number,c:number}` succeeds with
`{a:{b:1,c:2}}`. The code does not: `validateAdvancedArgs` stores each group
under its verbatim (dotted) key, so the assembled object keeps the flat
properties `a.b` and `a.c`, the declared field `a` is missing, and validation
fails — contradicting the spec and the README's documented dot-notation usage
(`parseOptions`, the basic parser, does implement dot-path assembly, marking
the omission in the advanced path as the slip). This theorem evaluates the
code on the claim's own example. -/
theorem C1_dot_paths_left_flat :
    AdvancedArgs.assembleParsed c1Schema
        (AdvancedArgs.parseAdvancedArgs [str "--a.b=1", str "--a.c=2"])
      = [(str "a.b", Value.vNum 1), (str "a.c", Value.vNum 2)] ∧
    AdvancedArgs.validateAdvancedArgs
        (AdvancedArgs.parseAdvancedArgs [str "--a.b=1", str "--a.c=2"]) c1Schema
      = Except.error [⟨[str "a"], str "expected object"⟩] := by
  constructor
  · rfl
  · have h1 : AdvancedArgs.assembleParsed c1Schema
        (AdvancedArgs.parseAdvancedArgs [str "--a.b=1", str "--a.c=2"])
        = [(str "a.b", Value.vNum 1), (str "a.c", Value.vNum 2)] := rfl
    unfold AdvancedArgs.validateAdvancedArgs
    rw [h1]
    simp +decide [zodParse, zodFields, c1Schema, objGet, acceptsUndefined, expectedMsg]

/-- C5 counterexample: the claim says a later scalar assignment at a
materialized sub-object's path (or a shorter prefix) never replaces the
sub-object. It does: after `a.b=1` materializes an object at `a`, the
assignment `a=2` stores the scalar `2` at `a` — `setNestedValue` writes the
final path segment unconditionally. -/
theorem C5_scalar_clobbers_subobject :
    getPath (Value.vObj (AdvancedArgs.setNestedValue [] (str "a.b") (str "1")))
        [str "a"]
      = some (Value.vObj [(str "b", Value.vNum 1)]) ∧
    getPath (Value.vObj (AdvancedArgs.setNestedValue
        (AdvancedArgs.setNestedValue [] (str "a.b") (str "1")) (str "a") (str "2")))
        [str "a"]
      = some (Value.vNum 2) ∧
    ∀ fields, some (Value.vNum 2) ≠ some (Value.vObj fields) := by
  refine ⟨rfl, rfl, ?_⟩
  intro fields h
  exact Value.noConfusion (Option.some.inj h)

/-- C5 amended: the overwrite happens only at the assignment's final segment.
Once a sub-object exists at a path `p`, any later assignment whose path
properly extends `p` (with either file's leaf coercion) descends into it and
keeps an object at `p`; an assignment at exactly `p`, or at a prefix of `p`,
overwrites it — last assignment wins. -/
theorem C5_proper_extension_preserves_subobject (coe : Value → Value)
    (p : List Str) : ∀ (obj : List (Str × Value)) (rest : List Str)
    (f : List (Str × Value)) (v : Value), rest ≠ [] →
    getPath (Value.vObj obj) p = some (Value.vObj f) →
    ∃ f', getPath (Value.vObj (AdvancedArgs.setNestedCore coe obj (p ++ rest) v)) p
      = some (Value.vObj f') := by
  induction p with
  | nil =>
    intro obj rest f v _ _
    exact ⟨AdvancedArgs.setNestedCore coe obj rest v, rfl⟩
  | cons k p' ih =>
    intro obj rest f v hrest hp
    have hget : ∃ w, objGet obj k = some w ∧ getPath w p' = some (Value.vObj f) := by
      simp only [getPath] at hp
      rcases hw : objGet obj k with _ | w
      · rw [hw] at hp; exact absurd hp (by simp)
      · rw [hw] at hp; exact ⟨w, rfl, hp⟩
    rcases hget with ⟨w, hw, hpw⟩
    have hcons : ∃ k2 ks, p' ++ rest = k2 :: ks := by
      cases hpr : p' ++ rest with
      | nil =>
        rcases List.append_eq_nil.mp hpr with ⟨_, h2⟩
        exact absurd h2 hrest
      | cons k2 ks => exact ⟨k2, ks, rfl⟩
    rcases hcons with ⟨k2, ks, hpr⟩
    have hstep : AdvancedArgs.setNestedCore coe obj ((k :: p') ++ rest) v
        = objSet obj k (Value.vObj (AdvancedArgs.setNestedCore coe
            (match objGet obj k with
              | some (Value.vObj fields) => fields
              | _ => []) (p' ++ rest) v)) := by
      show AdvancedArgs.setNestedCore coe obj (k :: (p' ++ rest)) v = _
      rw [hpr]
      rfl
    cases p' with
    | nil =>
      have hwf : w = Value.vObj f := by
        simpa [getPath] using hpw
      subst hwf
      refine ⟨AdvancedArgs.setNestedCore coe f rest v, ?_⟩
      rw [hstep]
      simp only [getPath, hw]
      rw [objGet_objSet_self]
      rfl
    | cons k2' ks' =>
      have hwf : ∃ subf, w = Value.vObj subf := by
        cases w with
        | vObj subf => exact ⟨subf, rfl⟩
        | vBool b => exact absurd hpw (by simp [getPath])
        | vNum q => exact absurd hpw (by simp [getPath])
        | vNull => exact absurd hpw (by simp [getPath])
        | vUndef => exact absurd hpw (by simp [getPath])
        | vStr s => exact absurd hpw (by simp [getPath])
        | vArr xs => exact absurd hpw (by simp [getPath])
      rcases hwf with ⟨subf, rfl⟩
      rcases ih subf rest f v hrest hpw with ⟨f', hf'⟩
      refine ⟨f', ?_⟩
      rw [hstep]
      simp only [getPath, hw]
      rw [objGet_objSet_self]
      exact hf'

/-- C5 amended witness: extending below `a` keeps an object at `a`. -/
theorem C5_proper_extension_witness :
    ∃ f', getPath (Value.vObj (AdvancedArgs.setNestedCore AdvancedArgs.coerceLeaf
        [(str "a", Value.vObj [(str "b", Value.vNum 1)])]
        ([str "a"] ++ [str "c"]) (Value.vNum 2))) [str "a"]
      = some (Value.vObj f') :=
  C5_proper_extension_preserves_subobject AdvancedArgs.coerceLeaf [str "a"]
    [(str "a", Value.vObj [(str "b", Value.vNum 1)])] [str "c"]
    [(str "b", Value.vNum 1)] (Value.vNum 2) (by simp) rfl

/-- C7: for a command with declared options, when schema validation of the
assembled object fails, `execute` reports every violation (each rendered with
its dotted field path and message), returns exit code 1 and never invokes the
handler; on success the exit code is the handler's returned code, defaulting
to 0 when the handler returns nothing. -/
theorem C7_validation_gates_handler (cmd : Execute.ExecCommand) (schema : Schema)
    (hopts : cmd.opts = some schema) (input : List Str) :
    (∀ issues,
      AdvancedArgs.validateAdvancedArgs (AdvancedArgs.parseAdvancedArgs input) schema
          = Except.error issues →
      Execute.executeResolved cmd input
          = ⟨1, issues.map (fun i => (joinWith '.' i.path, i.message)), false⟩) ∧
    (∀ data,
      AdvancedArgs.validateAdvancedArgs (AdvancedArgs.parseAdvancedArgs input) schema
          = Except.ok data →
      Execute.executeResolved cmd input = ⟨(cmd.handler data).getD 0, [], true⟩) := by
  have hexec : Execute.executeResolved cmd input
      = (match AdvancedArgs.validateAdvancedArgs
            (AdvancedArgs.parseAdvancedArgs input) schema with
        | Except.error issues =>
          (⟨1, issues.map (fun i => (joinWith '.' i.path, i.message)), false⟩ :
            Execute.ExecOutcome)
        | Except.ok data =>
          match cmd.handler data with
          | some code => ⟨code, [], true⟩
          | none => ⟨0, [], true⟩) := by
    unfold Execute.executeResolved
    rw [hopts]
  constructor
  · intro issues hval
    rw [hexec, hval]
  · intro data hval
    rw [hexec, hval]
    cases h : cmd.handler data <;> simp [h, Option.getD]

/-- C7 witness: a failing input reports the violation and exits 1 without the
handler; a passing input runs the handler (here returning nothing, so exit 0;
and a handler returning 3 propagates its code). -/
theorem C7_validation_gates_handler_witness :
    Execute.executeResolved demoCmdNone [str "--age=x"]
      = ⟨1, [(str "age", str "expected number")], false⟩ ∧
    Execute.executeResolved demoCmdNone [str "--age=7"] = ⟨0, [], true⟩ ∧
    Execute.executeResolved demoCmdThree [str "--age=7"] = ⟨3, [], true⟩ := by
  have hfail : AdvancedArgs.validateAdvancedArgs
      (AdvancedArgs.parseAdvancedArgs [str "--age=x"])
      (Schema.sObject [(str "age", Schema.sNumber)])
      = Except.error [⟨[str "age"], str "expected number"⟩] := by
    have h1 : AdvancedArgs.assembleParsed (Schema.sObject [(str "age", Schema.sNumber)])
        (AdvancedArgs.parseAdvancedArgs [str "--age=x"])
        = [(str "age", Value.vStr (str "x"))] := rfl
    unfold AdvancedArgs.validateAdvancedArgs
    rw [h1]
    simp +decide [zodParse, zodFields, objGet, acceptsUndefined, expectedMsg]
  have hok : AdvancedArgs.validateAdvancedArgs
      (AdvancedArgs.parseAdvancedArgs [str "--age=7"])
      (Schema.sObject [(str "age", Schema.sNumber)])
      = Except.ok (Value.vObj [(str "age", Value.vNum 7)]) := by
    have h1 : AdvancedArgs.assembleParsed (Schema.sObject [(str "age", Schema.sNumber)])
        (AdvancedArgs.parseAdvancedArgs [str "--age=7"])
        = [(str "age", Value.vNum 7)] := rfl
    unfold AdvancedArgs.validateAdvancedArgs
    rw [h1]
    simp +decide [zodParse, zodFields, objGet, acceptsUndefined, expectedMsg]
  refine ⟨?_, ?_, ?_⟩
  · have := (C7_validation_gates_handler demoCmdNone
      (Schema.sObject [(str "age", Schema.sNumber)]) rfl [str "--age=x"]).1
      [⟨[str "age"], str "expected number"⟩] hfail
    simpa [joinWith] using this
  · exact (C7_validation_gates_handler demoCmdNone
      (Schema.sObject [(str "age", Schema.sNumber)]) rfl [str "--age=7"]).2
      (Value.vObj [(str "age", Value.vNum 7)]) hok
  · exact (C7_validation_gates_handler demoCmdThree
      (Schema.sObject [(str "age", Schema.sNumber)]) rfl [str "--age=7"]).2
      (Value.vObj [(str "age", Value.vNum 7)]) hok

namespace AdvancedArgs

/-- `firstKeys` keeps exactly the keys of the list. -/
theorem mem_firstKeys (k : Str) : ∀ l : List Str, k ∈ firstKeys l ↔ k ∈ l := by
  intro l
  induction l with
  | nil => simp [firstKeys]
  | cons k' rest ih =>
    by_cases h : k = k'
    · subst h
      simp [firstKeys]
    · simp [firstKeys, h, ih]

/-- Looking up a key in an association list built over a key list by a
function: the first hit carries the function's value. -/
theorem objGet_map_over_keys (f : Str → Value) (k : Str) :
    ∀ ks : List Str, k ∈ ks →
    objGet (ks.map (fun k' => (k', f k'))) k = some (f k) := by
  intro ks
  induction ks with
  | nil => intro h; cases h
  | cons k' rest ih =>
    intro hmem
    by_cases h : k' = k
    · subst h
      simp [objGet]
    · have : k ∈ rest := by
        rcases List.mem_cons.mp hmem with h' | h'
        · exact absurd h'.symm h
        · exact h'
      simp [objGet, h, ih this]

end AdvancedArgs

/-- C2: for a key occurring in at least two flag entries, the object submitted
to validation holds, at that key: an array of all the occurrences' values in
encounter order (hence of length the number of occurrences) when the schema
node at the key is array-kind or a union with an array-kind member
(`isArraySchemaAtPath`); otherwise exactly the last occurrence's value — the
earlier ones are silently discarded, not an error. -/
theorem C2_repeated_key_grouping (schema : Schema)
    (args : List AdvancedArgs.ParsedArgument) (k : Str)
    (h2 : 2 ≤ ((args.filter (fun a => a.key = k)).map (fun a => a.value)).length) :
    objGet (AdvancedArgs.assembleParsed schema args) k =
      some (if AdvancedArgs.isArraySchemaAtPath schema k
        then Value.vArr ((args.filter (fun a => a.key = k)).map (fun a => a.value))
        else ((args.filter (fun a => a.key = k)).map (fun a => a.value)).getLastD
          Value.vUndef) := by
  have hmem : k ∈ args.map (fun a => a.key) := by
    rcases hg : (args.filter (fun a => a.key = k)).map (fun a => a.value) with _ | ⟨v, g'⟩
    · rw [hg] at h2; simp at h2
    · rcases hf : args.filter (fun a => a.key = k) with _ | ⟨a, rest⟩
      · rw [hf] at hg; simp at hg
      · have ha : a ∈ args.filter (fun a => a.key = k) := by rw [hf]; exact List.mem_cons_self a rest
        have hk : a.key = k := by simpa using (List.mem_filter.mp ha).2
        have : a ∈ args := (List.mem_filter.mp ha).1
        rw [← hk]
        exact List.mem_map_of_mem (fun a => a.key) this
  have hfk : k ∈ AdvancedArgs.firstKeys (args.map (fun a => a.key)) :=
    (AdvancedArgs.mem_firstKeys k _).mpr hmem
  unfold AdvancedArgs.assembleParsed
  rw [AdvancedArgs.objGet_map_over_keys _ k _ hfk]
  rcases hg : (args.filter (fun a => a.key = k)).map (fun a => a.value)
      with _ | ⟨v, _ | ⟨v2, rest⟩⟩
  · rw [hg] at h2; simp at h2
  · rw [hg] at h2; simp at h2
  · rw [hg]
    show some (AdvancedArgs.groupValue schema k (v :: v2 :: rest)) = _
    unfold AdvancedArgs.groupValue
    by_cases harr : AdvancedArgs.isArraySchemaAtPath schema k
    · simp [harr]
    · simp only [harr, if_false, Bool.false_eq_true, List.getLastD_cons]

/-- C2 witness: the repository's own union test — `--to=foo@bar.com
--to=hello@world.com` against `to: string | array<string>` groups into the
ordered two-element array; and against a plain string field, three entries for
one key resolve to the last value. -/
theorem C2_repeated_key_grouping_witness :
    objGet (AdvancedArgs.assembleParsed toUnionSchema
        (AdvancedArgs.parseAdvancedArgs [str "--to=foo@bar.com", str "--to=hello@world.com"]))
        (str "to")
      = some (Value.vArr [Value.vStr (str "foo@bar.com"), Value.vStr (str "hello@world.com")]) ∧
    objGet (AdvancedArgs.assembleParsed tagsStrSchema
        (AdvancedArgs.parseAdvancedArgs [str "--tags=a", str "--tags=b", str "--tags=c"]))
        (str "tags")
      = some (Value.vStr (str "c")) := by
  constructor
  · have := C2_repeated_key_grouping toUnionSchema
      (AdvancedArgs.parseAdvancedArgs [str "--to=foo@bar.com", str "--to=hello@world.com"])
      (str "to") (by decide)
    rw [this]
    rfl
  · have := C2_repeated_key_grouping tagsStrSchema
      (AdvancedArgs.parseAdvancedArgs [str "--tags=a", str "--tags=b", str "--tags=c"])
      (str "tags") (by decide)
    rw [this]
    rfl

/-- Every character of a string is whitespace or survives `trimLeft`. -/
theorem mem_trimLeft_of_mem (c : Char) :
    ∀ s : Str, c ∈ s → isWsChar c = true ∨ c ∈ trimLeft s := by
  intro s
  induction s with
  | nil => intro h; cases h
  | cons d rest ih =>
    intro hmem
    by_cases hd : isWsChar d
    · rcases List.mem_cons.mp hmem with rfl | hr
      · exact Or.inl hd
      · rcases ih hr with h | h
        · exact Or.inl h
        · right; simpa [trimLeft, hd] using h
    · right; simpa [trimLeft, hd] using hmem

/-- Every character of a string is whitespace or survives `trim`. -/
theorem mem_trimStr_of_mem (c : Char) (s : Str) (hmem : c ∈ s) :
    isWsChar c = true ∨ c ∈ trimStr s := by
  rcases mem_trimLeft_of_mem c s hmem with h | h
  · exact Or.inl h
  · have : c ∈ (trimLeft s).reverse := List.mem_reverse.mpr h
    rcases mem_trimLeft_of_mem c _ this with h2 | h2
    · exact Or.inl h2
    · right
      exact List.mem_reverse.mpr h2

/-- `takeDigits` decomposes its input. -/
theorem takeDigits_append : ∀ s : Str, (takeDigits s).1 ++ (takeDigits s).2 = s := by
  intro s
  induction s with
  | nil => rfl
  | cons c rest ih =>
    by_cases hd : (digitVal c).isSome <;> simp [takeDigits, hd, ih]

/-- The consumed part of `takeDigits` is all digits. -/
theorem takeDigits_digits (c : Char) :
    ∀ s : Str, c ∈ (takeDigits s).1 → (digitVal c).isSome := by
  intro s
  induction s with
  | nil => intro h; cases h
  | cons d rest ih =>
    by_cases hd : (digitVal d).isSome
    · intro hmem
      rw [show takeDigits (d :: rest) = (d :: (takeDigits rest).1, (takeDigits rest).2) by
        simp [takeDigits, hd]] at hmem
      rcases List.mem_cons.mp hmem with rfl | hr
      · exact hd
      · exact ih hr
    · intro hmem
      rw [show takeDigits (d :: rest) = ([], d :: rest) by simp [takeDigits, hd]] at hmem
      cases hmem

/-- A string accepted by the exponent-digits parser is all digits. -/
theorem expDigitsPart_chars (num den : ℕ) (neg : Bool) (body : Str) (q : ℚ)
    (h : expDigitsPart num den neg body = some q) :
    ∀ c ∈ body, numTokenChar c := by
  intro c hc
  unfold expDigitsPart at h
  rcases htd : takeDigits body with ⟨d, r⟩
  rw [htd] at h
  dsimp only at h
  by_cases hbad : d = [] ∨ r ≠ []
  · rw [if_pos hbad] at h; cases h
  · have hr : r = [] := by
      rcases not_or.mp hbad with ⟨_, h2⟩
      simpa using h2
    have hbody : body = d := by
      have := takeDigits_append body
      rw [htd] at this
      simpa [hr] using this.symm
    rw [hbody] at hc
    have : (digitVal c).isSome := by
      have := takeDigits_digits c body
      rw [htd] at this
      exact this hc
    simp [numTokenChar, this]

/-- A string accepted by the exponent-suffix parser holds only number characters. -/
theorem finishExp_chars (num den : ℕ) (s : Str) (q : ℚ)
    (h : finishExp num den s = some q) : ∀ c ∈ s, numTokenChar c := by
  cases s with
  | nil => intro c hc; cases hc
  | cons e cs =>
    intro c hc
    simp only [finishExp] at h
    by_cases he : e = 'e' ∨ e = 'E'
    · rw [if_pos he] at h
      have hee : numTokenChar e := by
        rcases he with rfl | rfl <;> decide
      rcases List.mem_cons.mp hc with rfl | hcs
      · exact hee
      · split at h
        · rcases List.mem_cons.mp hcs with rfl | hds
          · decide
          · exact expDigitsPart_chars _ _ _ _ _ h c hds
        · rcases List.mem_cons.mp hcs with rfl | hds
          · decide
          · exact expDigitsPart_chars _ _ _ _ _ h c hds
        · exact expDigitsPart_chars _ _ _ _ _ h c hcs
    · rw [if_neg he] at h
      cases h

/-- A string accepted by the decimal-literal parser holds only number characters. -/
theorem parseDecimal_chars (s : Str) (q : ℚ) (h : parseDecimal s = some q) :
    ∀ c ∈ s, numTokenChar c := by
  intro c hc
  unfold parseDecimal at h
  rcases htd : takeDigits s with ⟨ip, r1⟩
  rw [htd] at h
  dsimp only at h
  have hs : ip ++ r1 = s := by rw [← takeDigits_append s, htd]
  rw [← hs] at hc
  have hip : ∀ x ∈ ip, numTokenChar x := by
    intro x hx
    have hdig : (digitVal x).isSome := by
      have hh := takeDigits_digits x s
      rw [htd] at hh
      exact hh hx
    simp [numTokenChar, hdig]
  rcases List.mem_append.mp hc with hcip | hcr
  · exact hip c hcip
  · split at h
    · rename_i rest
      rcases htd2 : takeDigits rest with ⟨fp, r2⟩
      rw [htd2] at h
      dsimp only at h
      split at h
      · cases h
      · have hrest : fp ++ r2 = rest := by rw [← takeDigits_append rest, htd2]
        rcases List.mem_cons.mp hcr with rfl | hcrest
        · decide
        · rw [← hrest] at hcrest
          rcases List.mem_append.mp hcrest with hfp | hr2
          · have hdig : (digitVal c).isSome := by
              have hh := takeDigits_digits c rest
              rw [htd2] at hh
              exact hh hfp
            simp [numTokenChar, hdig]
          · exact finishExp_chars _ _ _ _ h c hr2
    · split at h
      · cases h
      · exact finishExp_chars _ _ _ _ h c hcr

/-- A string accepted by the optionally-signed decimal parser holds only number
characters. -/
theorem signedDec_chars (s : Str) (q : ℚ) (h : signedDec s = some q) :
    ∀ c ∈ s, numTokenChar c := by
  intro c hc
  unfold signedDec at h
  split at h
  · rename_i r
    rcases List.mem_cons.mp hc with rfl | hr
    · decide
    · exact parseDecimal_chars _ _ h c hr
  · rename_i r
    rcases hpd : parseDecimal r with _ | q'
    · rw [hpd] at h; cases h
    · rcases List.mem_cons.mp hc with rfl | hr
      · decide
      · exact parseDecimal_chars _ _ hpd c hr
  · exact parseDecimal_chars _ _ h c hc

/-- A string accepted by the radix-digit scanner is all digits of the radix. -/
theorem parseRadixAux_chars (digOf : Char → Option ℕ) (radix : ℕ) :
    ∀ (s : Str) (acc n : ℕ), parseRadixAux digOf radix s acc = some n →
    ∀ c ∈ s, (digOf c).isSome := by
  intro s
  induction s with
  | nil => intro acc n _ c hc; cases hc
  | cons d rest ih =>
    intro acc n h c hc
    unfold parseRadixAux at h
    rcases hd : digOf d with _ | dv
    · rw [hd] at h; cases h
    · rw [hd] at h
      rcases List.mem_cons.mp hc with rfl | hr
      · simp [hd]
      · exact ih _ _ h c hr

/-- An octal digit is a decimal digit. -/
theorem digitVal_of_octVal (c : Char) (h : (octVal c).isSome) : (digitVal c).isSome := by
  unfold octVal at h
  unfold digitVal
  split at h
  · rename_i hb
    have : '0' ≤ c ∧ c ≤ '9' := ⟨hb.1, le_trans hb.2 (by decide)⟩
    simp [this]
  · simp at h

/-- A binary digit is a decimal digit. -/
theorem digitVal_of_binVal (c : Char) (h : (binVal c).isSome) : (digitVal c).isSome := by
  unfold binVal at h
  by_cases h0 : c = '0'
  · subst h0; decide
  · by_cases h1 : c = '1'
    · subst h1; decide
    · simp [h0, h1] at h

/-- A string accepted by the numeric-body parser holds only number characters. -/
theorem numBody_chars (t : Str) (q : ℚ) (h : numBody t = some q) :
    ∀ c ∈ t, numTokenChar c := by
  intro c hc
  unfold numBody at h
  split at h
  · rename_i c2 rest
    by_cases hx : c2 = 'x' ∨ c2 = 'X'
    · rw [if_pos hx] at h
      unfold parseRadix at h
      split at h
      · cases h
      · rename_i d0 ds
        rcases haux : parseRadixAux hexVal 16 (d0 :: ds) 0 with _ | m
        · rw [haux] at h; simp at h
        · rcases List.mem_cons.mp hc with rfl | hc2
          · decide
          · rcases List.mem_cons.mp hc2 with rfl | hc3
            · rcases hx with rfl | rfl <;> decide
            · have hhex := parseRadixAux_chars hexVal 16 (d0 :: ds) 0 m haux c hc3
              simp [numTokenChar, hhex]
    · rw [if_neg hx] at h
      by_cases ho : c2 = 'o' ∨ c2 = 'O'
      · rw [if_pos ho] at h
        unfold parseRadix at h
        split at h
        · cases h
        · rename_i d0 ds
          rcases haux : parseRadixAux octVal 8 (d0 :: ds) 0 with _ | m
          · rw [haux] at h; simp at h
          · rcases List.mem_cons.mp hc with rfl | hc2
            · decide
            · rcases List.mem_cons.mp hc2 with rfl | hc3
              · rcases ho with rfl | rfl <;> decide
              · have hoct := parseRadixAux_chars octVal 8 (d0 :: ds) 0 m haux c hc3
                simp [numTokenChar, digitVal_of_octVal c hoct]
      · rw [if_neg ho] at h
        by_cases hb : c2 = 'b' ∨ c2 = 'B'
        · rw [if_pos hb] at h
          unfold parseRadix at h
          split at h
          · cases h
          · rename_i d0 ds
            rcases haux : parseRadixAux binVal 2 (d0 :: ds) 0 with _ | m
            · rw [haux] at h; simp at h
            · rcases List.mem_cons.mp hc with rfl | hc2
              · decide
              · rcases List.mem_cons.mp hc2 with rfl | hc3
                · rcases hb with rfl | rfl <;> decide
                · have hbin := parseRadixAux_chars binVal 2 (d0 :: ds) 0 m haux c hc3
                  simp [numTokenChar, digitVal_of_binVal c hbin]
        · rw [if_neg hb] at h
          exact signedDec_chars _ _ h c hc
  · exact signedDec_chars _ _ h c hc

/-- A string `Number(...)` accepts as a finite number holds only number
characters. -/
theorem jsStrToNumber_chars (s : Str) (q : ℚ) (h : jsStrToNumber s = some q) :
    ∀ c ∈ s, numTokenChar c := by
  intro c hc
  unfold jsStrToNumber at h
  dsimp only at h
  rcases mem_trimStr_of_mem c s hc with hws | hmem
  · simp [numTokenChar, hws]
  · by_cases ht : trimStr s = []
    · rw [ht] at hmem; cases hmem
    · rw [if_neg ht] at h
      rcases hb : numBody (trimStr s) with _ | q0
      · rw [hb] at h; cases h
      · exact numBody_chars _ _ hb c hmem

/-- A string containing a character outside the numeric alphabet is `NaN`. -/
theorem jsStrToNumber_none_of_bad (s : Str) (c : Char) (hc : c ∈ s)
    (hbad : numTokenChar c = false) : jsStrToNumber s = none := by
  rcases h : jsStrToNumber s with _ | q
  · rfl
  · have := jsStrToNumber_chars s q h c hc
    rw [hbad] at this
    cases this

/-- A numeric string is never brace- or bracket-delimited. -/
theorem bracketDelimited_false_of_num (v : Str) (q : ℚ)
    (h : jsStrToNumber v = some q) : AdvancedArgs.bracketDelimited v = false := by
  unfold AdvancedArgs.bracketDelimited
  cases v with
  | nil => rfl
  | cons c t =>
    have hc := jsStrToNumber_chars _ _ h c (List.mem_cons_self c t)
    have h1 : c ≠ '{' := by rintro rfl; revert hc; decide
    have h2 : c ≠ '[' := by rintro rfl; revert hc; decide
    simp [List.head?, h1, h2]

/-- `contains` agrees with membership (over characters). -/
theorem str_contains_iff (s : Str) (c : Char) : s.contains c = true ↔ c ∈ s :=
  List.elem_iff

/-- A finite-number string contains no `=`, no `,`, and is not JSON-delimited. -/
theorem jsNum_structural_free (v : Str) (q : ℚ) (h : jsStrToNumber v = some q) :
    v.contains '=' = false ∧ v.contains ',' = false ∧
    AdvancedArgs.bracketDelimited v = false := by
  refine ⟨?_, ?_, bracketDelimited_false_of_num v q h⟩
  · rcases hc : v.contains '=' with _ | _
    · rfl
    · have := jsStrToNumber_chars v q h '=' ((str_contains_iff v '=').mp hc)
      cases this
  · rcases hc : v.contains ',' with _ | _
    · rfl
    · have := jsStrToNumber_chars v q h ',' ((str_contains_iff v ',').mp hc)
      cases this

/-- A nonempty string accepted by `Number(...)` is interpreted by the advanced
value grammar as exactly that number, whatever the schema will say. -/
theorem parseAdvancedValue_num (v : Str) (q : ℚ)
    (hnum : jsStrToNumber v = some q) (hne : v ≠ []) :
    AdvancedArgs.parseAdvancedValue v = (Value.vNum q, AdvancedArgs.ArgType.primitive) := by
  rcases jsNum_structural_free v q hnum with ⟨heq, hcomma, hbr⟩
  have hprim : AdvancedArgs.parsePrimitiveValue v = Value.vNum q := by
    unfold AdvancedArgs.parsePrimitiveValue
    have ht : ¬ (v = str "true" ∨ v = str "false") := by
      rintro (rfl | rfl)
      · rw [show jsStrToNumber (str "true") = none from by decide] at hnum; cases hnum
      · rw [show jsStrToNumber (str "false") = none from by decide] at hnum; cases hnum
    have hn : v ≠ str "null" := by
      rintro rfl
      rw [show jsStrToNumber (str "null") = none from by decide] at hnum; cases hnum
    have hu : v ≠ str "undefined" := by
      rintro rfl
      rw [show jsStrToNumber (str "undefined") = none from by decide] at hnum; cases hnum
    rw [if_neg ht, if_neg hn, if_neg hu, hnum]
  unfold AdvancedArgs.parseAdvancedValue
  rw [if_neg hne]
  simp only [hbr, heq, hcomma, Bool.false_and, Bool.false_eq_true, if_false, hprim]

/-- C9 counterexample: the claim quantifies over every value string that
`Number(...)` parses as a finite number, and the empty string is one
(`Number('') = 0`), but an empty value is delivered as the boolean `true`
(bare-flag rule), not as the number 0. -/
theorem C9_empty_value_not_number :
    jsStrToNumber (str "") = some 0 ∧
    AdvancedArgs.parseAdvancedValue (str "")
      = (Value.vBool true, AdvancedArgs.ArgType.primitive) ∧
    (Value.vBool true : Value) ≠ Value.vNum 0 := by
  refine ⟨by decide, rfl, ?_⟩
  intro h
  cases h

/-- C9 amended: for every nonempty value string that `Number(...)` parses as a
finite number (including forms like `007` or `1e3`), the value delivered to
validation is that number regardless of the schema, so such an input fails
validation against a string-typed field rather than arriving as the original
string. -/
theorem C9_unconditional_numeric_coercion (k v orig : Str) (q : ℚ)
    (ty : AdvancedArgs.ArgType)
    (hnum : jsStrToNumber v = some q) (hne : v ≠ []) :
    AdvancedArgs.parseAdvancedValue v = (Value.vNum q, AdvancedArgs.ArgType.primitive) ∧
    AdvancedArgs.validateAdvancedArgs [⟨k, Value.vNum q, orig, ty⟩]
        (Schema.sObject [(k, Schema.sString)])
      = Except.error [⟨[k], str "expected string"⟩] := by
  refine ⟨parseAdvancedValue_num v q hnum hne, ?_⟩
  have hasm : AdvancedArgs.assembleParsed (Schema.sObject [(k, Schema.sString)])
      [⟨k, Value.vNum q, orig, ty⟩] = [(k, Value.vNum q)] := by
    simp [AdvancedArgs.assembleParsed, AdvancedArgs.firstKeys, AdvancedArgs.groupValue]
  unfold AdvancedArgs.validateAdvancedArgs
  rw [hasm]
  simp [zodParse, zodFields, objGet, acceptsUndefined, expectedMsg]

/-- C9 witness: `007` and `1e3` coerce to the numbers 7 and 1000 and fail
against a string-typed field `count`. -/
theorem C9_unconditional_numeric_coercion_witness :
    (AdvancedArgs.parseAdvancedValue (str "007")
        = (Value.vNum 7, AdvancedArgs.ArgType.primitive) ∧
      AdvancedArgs.validateAdvancedArgs
          [⟨str "count", Value.vNum 7, str "--count=007", AdvancedArgs.ArgType.primitive⟩]
          (Schema.sObject [(str "count", Schema.sString)])
        = Except.error [⟨[str "count"], str "expected string"⟩]) ∧
    (AdvancedArgs.parseAdvancedValue (str "1e3")
        = (Value.vNum 1000, AdvancedArgs.ArgType.primitive) ∧
      AdvancedArgs.validateAdvancedArgs
          [⟨str "1e3key", Value.vNum 1000, str "--1e3key=1e3", AdvancedArgs.ArgType.primitive⟩]
          (Schema.sObject [(str "1e3key", Schema.sString)])
        = Except.error [⟨[str "1e3key"], str "expected string"⟩]) := by
  constructor
  · exact C9_unconditional_numeric_coercion (str "count") (str "007") (str "--count=007")
      7 AdvancedArgs.ArgType.primitive (by decide) (by decide)
  · exact C9_unconditional_numeric_coercion (str "1e3key") (str "1e3") (str "--1e3key=1e3")
      1000 AdvancedArgs.ArgType.primitive (by decide) (by decide)


/-- C4 counterexample: the claim says non-numeric comma-list pieces are
primitive-coerced (`true`/`null` become the boolean and null). They are not:
the source returns the trimmed piece strings unchanged when any piece is
non-numeric, so `true,null` becomes an array of the two literal strings; and a
comma string with fewer than two nonempty pieces (`a,`) is not split into an
array at all. -/
theorem C4_pieces_stay_strings :
    AdvancedArgs.parseAdvancedValue (str "true,null")
      = (Value.vArr [Value.vStr (str "true"), Value.vStr (str "null")],
         AdvancedArgs.ArgType.array) ∧
    AdvancedArgs.parseAdvancedValue (str "true,null")
      ≠ (Value.vArr [Value.vBool true, Value.vNull], AdvancedArgs.ArgType.array) ∧
    AdvancedArgs.parseAdvancedValue (str "a,")
      = (Value.vStr (str "a,"), AdvancedArgs.ArgType.primitive) := by
  refine ⟨rfl, ?_, rfl⟩
  intro h
  rw [show AdvancedArgs.parseAdvancedValue (str "true,null")
      = (Value.vArr [Value.vStr (str "true"), Value.vStr (str "null")],
         AdvancedArgs.ArgType.array) from rfl] at h
  simp at h

/-- C4 amended: for a raw value containing `,`, with no `=` and not a parsed
JSON literal, the value is split on `,` into trimmed nonempty pieces; with at
least two pieces the result is an array — of numbers when every piece parses
as a finite number, otherwise of the piece strings verbatim (no primitive
coercion of non-numeric pieces) — and with fewer than two pieces the whole
string is primitive-coerced instead. -/
theorem C4_comma_rule (v : Str)
    (hvc : v.contains ',' = true) (hveq : v.contains '=' = false)
    (hjson : ¬ (AdvancedArgs.bracketDelimited v = true ∧ (jsonParse v).isSome = true)) :
    AdvancedArgs.parseAdvancedValue v =
      (if 1 < (((splitOnChar ',' v).map trimStr).filter (fun p => p ≠ [])).length then
        (if (((splitOnChar ',' v).map trimStr).filter (fun p => p ≠ [])).all
            (fun p => (jsStrToNumber p).isSome)
          then Value.vArr ((((splitOnChar ',' v).map trimStr).filter (fun p => p ≠ [])).map
            (fun p => Value.vNum ((jsStrToNumber p).getD 0)))
          else Value.vArr ((((splitOnChar ',' v).map trimStr).filter
            (fun p => p ≠ [])).map Value.vStr),
         AdvancedArgs.ArgType.array)
      else (AdvancedArgs.parsePrimitiveValue v, AdvancedArgs.ArgType.primitive)) := by
  have hne : v ≠ [] := by
    rintro rfl
    simp [List.contains] at hvc
  unfold AdvancedArgs.parseAdvancedValue
  rw [if_neg hne]
  have hjstep : (if AdvancedArgs.bracketDelimited v then
      match jsonParse v with
      | some (Value.vArr xs) => some (Value.vArr xs, AdvancedArgs.ArgType.array)
      | some parsed => some (parsed, AdvancedArgs.ArgType.object)
      | none => none
    else none) = (none : Option (Value × AdvancedArgs.ArgType)) := by
    by_cases hbd : AdvancedArgs.bracketDelimited v
    · have hjp : jsonParse v = none := by
        rcases hj : jsonParse v with _ | w
        · rfl
        · exact absurd ⟨hbd, by rw [hj]; rfl⟩ hjson
      simp [hbd, hjp]
    · simp [hbd]
  rw [hjstep]
  simp only [hveq, hvc, Bool.false_eq_true, if_false, Bool.not_false, Bool.and_self,
    Bool.true_and, if_true]
  by_cases hlen : 1 < (((splitOnChar ',' v).map trimStr).filter (fun p => p ≠ [])).length
  · rw [if_pos hlen, if_pos hlen]
    by_cases hall : (((splitOnChar ',' v).map trimStr).filter (fun p => p ≠ [])).all
        (fun p => (jsStrToNumber p).isSome)
    · rw [if_pos hall, if_pos hall]
      rfl
    · rw [if_neg hall, if_neg hall]
      rfl
  · rw [if_neg hlen, if_neg hlen]
    rfl

/-- C4 amended witness: `x,true` keeps both pieces as literal strings; `1,2`
becomes a numeric array. -/
theorem C4_comma_rule_witness :
    AdvancedArgs.parseAdvancedValue (str "x,true")
      = (Value.vArr [Value.vStr (str "x"), Value.vStr (str "true")],
         AdvancedArgs.ArgType.array) ∧
    AdvancedArgs.parseAdvancedValue (str "1,2")
      = (Value.vArr [Value.vNum 1, Value.vNum 2], AdvancedArgs.ArgType.array) := by
  constructor
  · rw [C4_comma_rule (str "x,true") (by decide) (by decide) (by decide)]
    rfl
  · rw [C4_comma_rule (str "1,2") (by decide) (by decide) (by decide)]
    rfl

/-- Splitting at the first separator of `a ++ sep :: b` with `sep` absent from
`a` yields `(a, b)`. -/
theorem splitFirst_append (sep : Char) (a b : Str) (h : sep ∉ a) :
    splitFirst sep (a ++ sep :: b) = some (a, b) := by
  induction a with
  | nil => simp [splitFirst]
  | cons c cs ih =>
    have hc : ¬ (c = sep) := by rintro rfl; exact h (List.mem_cons_self _ _)
    have h' : sep ∉ cs := fun hm => h (List.mem_cons_of_mem _ hm)
    simp [splitFirst, hc, ih h']

/-- `split` never returns an empty chunk list. -/
theorem splitOnChar_ne_nil (sep : Char) : ∀ s : Str, splitOnChar sep s ≠ [] := by
  intro s
  cases s with
  | nil => simp [splitOnChar]
  | cons c cs =>
    by_cases h : c = sep
    · simp [splitOnChar, h]
    · simp only [splitOnChar, h, if_false]
      rcases hs : splitOnChar sep cs with _ | ⟨p, ps⟩
      · simp
      · simp

/-- A string without the separator splits into just itself. -/
theorem splitOnChar_eq_self (sep : Char) :
    ∀ s : Str, s.contains sep = false → splitOnChar sep s = [s] := by
  intro s
  induction s with
  | nil => intro _; rfl
  | cons c cs ih =>
    intro h
    have hc : ¬ (c = sep) := by
      rintro rfl
      rw [show (c :: cs).contains c = true by simp [List.contains]] at h
      · cases h
    have hcs : cs.contains sep = false := by
      rcases hh : cs.contains sep with _ | _
      · rfl
      · have : sep ∈ c :: cs := List.mem_cons_of_mem _ ((str_contains_iff cs sep).mp hh)
        rw [(str_contains_iff _ sep).mpr this] at h
        cases h
    simp [splitOnChar, hc, ih hcs]

/-- Building into an empty object along a path and reading the same path back
gives the (leaf-coerced) assigned value. -/
theorem getPath_setNestedCore_nil (coe : Value → Value) :
    ∀ (segs : List Str) (v : Value), segs ≠ [] →
    getPath (Value.vObj (AdvancedArgs.setNestedCore coe [] segs v)) segs
      = some (coe v) := by
  intro segs
  induction segs with
  | nil => intro v h; exact absurd rfl h
  | cons k rest ih =>
    intro v _
    cases rest with
    | nil =>
      simp [AdvancedArgs.setNestedCore, objSet, getPath, objGet]
    | cons k2 ks =>
      simp only [AdvancedArgs.setNestedCore, objGet, objSet, getPath, if_true]
      simpa using ih v (by simp)

/-- The main-loop dash stripping on a well-formed `--key=value` token. -/
theorem cleanDashes_mkFlag (k v : Str) (hk : k ≠ []) (hd : k.head? ≠ some '-') :
    ParseOptions.cleanDashes (mkFlag k v) = k ++ '=' :: v := by
  unfold ParseOptions.cleanDashes mkFlag
  have h1 : replaceFirst (str "--") ('-' :: '-' :: (k ++ '=' :: v)) = k ++ '=' :: v := by
    unfold replaceFirst
    rw [if_pos (by simp [str, List.isPrefixOf])]
    rfl
  rw [h1]
  cases k with
  | nil => exact absurd rfl hk
  | cons kc kt =>
    have : kc ≠ '-' := by
      intro he
      exact hd (by simp [he])
    simp [List.head?, this]

/-- The occurrence counter keys a well-formed `--key=value` token by its key. -/
theorem optKeyOf_mkFlag (k v : Str) (hkeq : '=' ∉ k) :
    ParseOptions.optKeyOf (mkFlag k v) = some k := by
  unfold ParseOptions.optKeyOf mkFlag ParseOptions.stripDashRegex
  simp only [List.head?, if_pos rfl]
  rw [splitFirst_append '=' k v hkeq]
  rfl

/-- A single well-formed token counts as one occurrence of its key. -/
theorem countOccurrences_mkFlag (k v : Str) (hkeq : '=' ∉ k) :
    ParseOptions.countOptionOccurrences [mkFlag k v] k = 1 := by
  unfold ParseOptions.countOptionOccurrences
  rw [show List.filter (fun a => decide (ParseOptions.optKeyOf a = some k)) [mkFlag k v]
      = [mkFlag k v] by simp [List.filter, optKeyOf_mkFlag k v hkeq]]
  rfl

/-- The basic value interpreter leaves a nonempty `=`-free string opaque —
comma lists are not split here. -/
theorem parseValue_plainLeaf (v : Str) (hne : v ≠ []) (hveq : v.contains '=' = false) :
    ParseOptions.parseValue v = Value.vStr v := by
  unfold ParseOptions.parseValue
  rw [if_neg hne, if_pos (show ¬ (v.contains '=' = true) by rw [hveq]; simp)]

/-- A comma-containing string that is not JSON-delimited primitive-coerces to
itself (it is `NaN` and no keyword). -/
theorem poPrimitive_comma_str (v : Str) (hvc : v.contains ',' = true)
    (hnj : AdvancedArgs.bracketDelimited v = false) :
    ParseOptions.parsePrimitiveValue v = Value.vStr v := by
  have hmem : ',' ∈ v := (str_contains_iff v ',').mp hvc
  have hnum : jsStrToNumber v = none :=
    jsStrToNumber_none_of_bad v ',' hmem (by decide)
  unfold ParseOptions.parsePrimitiveValue
  have ht : ¬ (v = str "true" ∨ v = str "false") := by
    rintro (rfl | rfl) <;> revert hmem <;> decide
  have hn : v ≠ str "null" := by rintro rfl; revert hmem; decide
  have hu : v ≠ str "undefined" := by rintro rfl; revert hmem; decide
  rw [if_neg ht, if_neg hn, if_neg hu, hnum, hnj]
  simp

/-- C3 amended: in `parseOptions`, a single-occurrence key whose raw value
contains `,` and no `=` becomes a primitive-coerced array exactly when the
schema declares the key array-typed; otherwise the value stays the literal
comma-containing string — except for values that are brace/bracket-delimited
JSON literals under a dotted key (see the counterexample), which the dotted
assignment path JSON-parses regardless of schema, so those are excluded here. -/
theorem C3_schema_driven_comma_split (schema : Schema) (k v : Str)
    (hk : k ≠ []) (hkd : k.head? ≠ some '-') (hkeq : '=' ∉ k)
    (hvc : v.contains ',' = true) (hveq : v.contains '=' = false)
    (hnj : AdvancedArgs.bracketDelimited v = false) :
    getPath (Value.vObj (ParseOptions.parseOptionsObj schema [mkFlag k v]))
        (splitOnChar '.' k)
      = some (if ParseOptions.isArraySchemaAtPath schema k
          then Value.vArr ((((splitOnChar ',' v).map trimStr).filter (fun p => p ≠ [])).map
            ParseOptions.parsePrimitiveValue)
          else Value.vStr v) := by
  have hne : v ≠ [] := by rintro rfl; simp [List.contains] at hvc
  have hstep : ParseOptions.parseOptionsObj schema [mkFlag k v]
      = ParseOptions.poStep schema [mkFlag k v] [] (mkFlag k v) := rfl
  rw [hstep]
  unfold ParseOptions.poStep
  rw [if_pos (show (mkFlag k v).head? = some '-' from rfl)]
  rw [cleanDashes_mkFlag k v hk hkd]
  dsimp only
  rw [splitFirst_append '=' k v hkeq]
  dsimp only
  rw [parseValue_plainLeaf v hne hveq]
  dsimp only
  by_cases harr : ParseOptions.isArraySchemaAtPath schema k
  · rw [if_pos ⟨harr, countOccurrences_mkFlag k v hkeq, hvc⟩]
    by_cases hdot : k.contains '.'
    · rw [if_pos hdot]
      unfold ParseOptions.setNestedValue
      rw [getPath_setNestedCore_nil ParseOptions.coerceLeaf (splitOnChar '.' k) _
        (splitOnChar_ne_nil '.' k)]
      rw [if_pos harr]
      rfl
    · rw [if_neg hdot]
      rw [splitOnChar_eq_self '.' k (Bool.eq_false_iff.mpr hdot)]
      rw [if_pos harr]
      simp [objSet, getPath, objGet]
  · rw [if_neg (by rintro ⟨h1, _, _⟩; exact harr h1)]
    unfold ParseOptions.assignRegular
    by_cases hdot : k.contains '.'
    · rw [if_pos hdot]
      unfold ParseOptions.setNestedValue
      rw [getPath_setNestedCore_nil ParseOptions.coerceLeaf (splitOnChar '.' k) _
        (splitOnChar_ne_nil '.' k)]
      rw [if_neg harr]
      show some (ParseOptions.parsePrimitiveValue v) = _
      rw [poPrimitive_comma_str v hvc hnj]
    · rw [if_neg hdot]
      rw [splitOnChar_eq_self '.' k (Bool.eq_false_iff.mpr hdot)]
      rw [if_neg harr]
      simp [objGet, objSet, getPath]

/-- C3 counterexample: the claim says that when the schema does not declare the
key array-typed, a single-occurrence comma-containing `=`-free value stays the
literal string. Under a dotted key a bracket-delimited value such as `[1,2]`
(which contains `,` and no `=`) is JSON-parsed by the dotted-assignment leaf
coercion into an array although `isArraySchemaAtPath` is false. -/
theorem C3_dotted_json_counterexample :
    ParseOptions.isArraySchemaAtPath c3Schema (str "a.b") = false ∧
    ParseOptions.parseOptionsObj c3Schema [str "--a.b=[1,2]"]
      = [(str "a", Value.vObj [(str "b", Value.vArr [Value.vNum 1, Value.vNum 2])])] ∧
    (Value.vArr [Value.vNum 1, Value.vNum 2] : Value) ≠ Value.vStr (str "[1,2]") := by
  refine ⟨rfl, rfl, ?_⟩
  intro h
  cases h

/-- C3 amended witness: `--tags=x,y` splits into a coerced array when `tags` is
declared an array, and stays the literal string `x,y` when `tags` is declared
a string. -/
theorem C3_schema_driven_comma_split_witness :
    getPath (Value.vObj (ParseOptions.parseOptionsObj tagsArrSchema
        [mkFlag (str "tags") (str "x,y")])) (splitOnChar '.' (str "tags"))
      = some (Value.vArr [Value.vStr (str "x"), Value.vStr (str "y")]) ∧
    getPath (Value.vObj (ParseOptions.parseOptionsObj tagsStrSchema
        [mkFlag (str "tags") (str "x,y")])) (splitOnChar '.' (str "tags"))
      = some (Value.vStr (str "x,y")) := by
  constructor
  · rw [C3_schema_driven_comma_split tagsArrSchema (str "tags") (str "x,y")
      (by decide) (by decide) (by decide) (by decide) (by decide) (by decide)]
    rfl
  · rw [C3_schema_driven_comma_split tagsStrSchema (str "tags") (str "x,y")
      (by decide) (by decide) (by decide) (by decide) (by decide) (by decide)]
    rfl

/-- A decimal digit is not a whitespace character. -/
theorem digit_not_ws (c : Char) (h : (digitVal c).isSome) : isWsChar c = false := by
  unfold digitVal at h
  split at h
  · rename_i hb
    rcases hb with ⟨h1, h2⟩
    unfold isWsChar
    have e1 : ¬ (c = ' ') := by rintro rfl; exact absurd h1 (by decide)
    have e2 : ¬ (c = '\t') := by rintro rfl; exact absurd h1 (by decide)
    have e3 : ¬ (c = '\n') := by rintro rfl; exact absurd h1 (by decide)
    have e4 : ¬ (c = '\r') := by rintro rfl; exact absurd h1 (by decide)
    have e5 : ¬ (c = '\x0b') := by rintro rfl; exact absurd h1 (by decide)
    have e6 : ¬ (c = '\x0c') := by rintro rfl; exact absurd h1 (by decide)
    simp [e1, e2, e3, e4, e5, e6]
  · simp at h

/-- Left-trimming a string with no whitespace characters leaves it unchanged. -/
theorem trimLeft_eq_self_of_all (s : Str) (h : ∀ c ∈ s, isWsChar c = false) :
    trimLeft s = s := by
  cases s with
  | nil => rfl
  | cons c cs => simp [trimLeft, h c (List.mem_cons_self c cs)]

/-- Trimming a string with no whitespace characters leaves it unchanged. -/
theorem trimStr_eq_self_of_all (s : Str) (h : ∀ c ∈ s, isWsChar c = false) :
    trimStr s = s := by
  unfold trimStr
  rw [trimLeft_eq_self_of_all s h]
  rw [trimLeft_eq_self_of_all s.reverse (fun c hc => h c (List.mem_reverse.mp hc))]
  exact List.reverse_reverse s

/-- With enough fuel, the decimal rendering of a natural number is nonempty, consists of decimal digits, and reads back to the same number. -/
theorem renderNatAux_props : ∀ (fuel n : ℕ), n < fuel →
    renderNatAux fuel n ≠ [] ∧
    (∀ c ∈ renderNatAux fuel n, (digitVal c).isSome) ∧
    natOfDigits (renderNatAux fuel n) = n := by
  intro fuel
  induction fuel with
  | zero => intro n h; omega
  | succ fuel ih =>
    intro n hn
    by_cases h10 : n < 10
    · refine ⟨by simp [renderNatAux, h10], ?_, ?_⟩
      · intro c hc
        rw [show renderNatAux (fuel + 1) n = [digitToChar n] by simp [renderNatAux, h10]] at hc
        rcases List.mem_singleton.mp hc with rfl
        have hdd : ∀ m, m < 10 → (digitVal (digitToChar m)).isSome := by decide
        exact hdd n h10
      · rw [show renderNatAux (fuel + 1) n = [digitToChar n] by simp [renderNatAux, h10]]
        have : ∀ m, m < 10 → natOfDigits [digitToChar m] = m := by decide
        exact this n h10
    · have hrec : n / 10 < fuel := by
        have := Nat.div_lt_self (by omega : 0 < n) (by omega : 1 < 10)
        omega
      rcases ih (n / 10) hrec with ⟨hne, hdig, hval⟩
      have hform : renderNatAux (fuel + 1) n
          = renderNatAux fuel (n / 10) ++ [digitToChar (n % 10)] := by
        simp [renderNatAux, h10]
      refine ⟨by simp [hform], ?_, ?_⟩
      · intro c hc
        rw [hform] at hc
        rcases List.mem_append.mp hc with h | h
        · exact hdig c h
        · rcases List.mem_singleton.mp h with rfl
          have hlt : n % 10 < 10 := Nat.mod_lt _ (by omega)
          have : ∀ m, m < 10 → (digitVal (digitToChar m)).isSome := by decide
          exact this _ hlt
      · rw [hform]
        unfold natOfDigits
        rw [List.foldl_append]
        have hlt : n % 10 < 10 := Nat.mod_lt _ (by omega)
        have hdd : ∀ m, m < 10 → (digitVal (digitToChar m)).getD 0 = m := by decide
        show (natOfDigits (renderNatAux fuel (n / 10))) * 10 + _ = n
        rw [hval, hdd _ hlt]
        omega

/-- The decimal rendering of a nonzero natural number has no leading zero. -/
theorem renderNat_head_ne_zero : ∀ (fuel n : ℕ), n < fuel → n ≠ 0 →
    (renderNatAux fuel n).head? ≠ some '0' := by
  intro fuel
  induction fuel with
  | zero => intro n h; omega
  | succ fuel ih =>
    intro n hn hnz
    by_cases h10 : n < 10
    · rw [show renderNatAux (fuel + 1) n = [digitToChar n] by simp [renderNatAux, h10]]
      have : ∀ m, m < 10 → m ≠ 0 → digitToChar m ≠ '0' := by decide
      simp [List.head?]
      exact this n h10 hnz
    · have hrec : n / 10 < fuel := by
        have := Nat.div_lt_self (by omega : 0 < n) (by omega : 1 < 10)
        omega
      have hform : renderNatAux (fuel + 1) n
          = renderNatAux fuel (n / 10) ++ [digitToChar (n % 10)] := by
        simp [renderNatAux, h10]
      rw [hform]
      have hne := (renderNatAux_props fuel (n / 10) hrec).1
      have hz : n / 10 ≠ 0 := by omega
      have := ih (n / 10) hrec hz
      cases hh : renderNatAux fuel (n / 10) with
      | nil => exact absurd hh hne
      | cons c cs =>
        rw [hh] at this
        simpa [List.head?] using this

/-- An all-digit string is consumed whole by the leading-digit scanner. -/
theorem takeDigits_all (s : Str) (h : ∀ c ∈ s, (digitVal c).isSome) :
    takeDigits s = (s, []) := by
  induction s with
  | nil => rfl
  | cons c cs ih =>
    unfold takeDigits
    rw [if_pos (h c (List.mem_cons_self c cs))]
    rw [ih (fun d hd => h d (List.mem_cons_of_mem c hd))]

/-- An empty exponent suffix yields the bare mantissa fraction. -/
theorem finishExp_nil (num den : ℕ) : finishExp num den [] = some (mkRat num den) := rfl

/-- A nonempty all-digit string parses as the integer its digits denote. -/
theorem parseDecimal_digits (s : Str) (hne : s ≠ [])
    (h : ∀ c ∈ s, (digitVal c).isSome) :
    parseDecimal s = some (mkRat (natOfDigits s) 1) := by
  unfold parseDecimal
  rw [takeDigits_all s h]
  dsimp only
  rw [if_neg hne]
  rfl

/-- A nonempty all-digit string parses as an unsigned decimal integer. -/
theorem signedDec_digits (s : Str) (hne : s ≠ [])
    (h : ∀ c ∈ s, (digitVal c).isSome) :
    signedDec s = some (mkRat (natOfDigits s) 1) := by
  cases s with
  | nil => exact absurd rfl hne
  | cons c cs =>
    have hc := h c (List.mem_cons_self c cs)
    unfold signedDec
    split
    · rename_i r heq
      injection heq with h1 h2
      subst h1
      exact absurd hc (by decide)
    · rename_i r heq
      injection heq with h1 h2
      subst h1
      exact absurd hc (by decide)
    · rename_i heq h1 h2
      exact parseDecimal_digits _ hne h

/-- A string that does not start with a radix-prefix pattern is parsed as a signed decimal. -/
theorem numBody_digits (c : Char) (cs : Str)
    (hhead : c ≠ '0' ∨ cs = []) :
    numBody (c :: cs) = signedDec (c :: cs) := by
  unfold numBody
  split
  · rename_i c2 rest heq
    injection heq with h1 h2
    rcases hhead with hh | hh
    · exact absurd h1 hh
    · rw [hh] at h2; cases h2
  · rfl

/-- Number round trip for naturals: rendering a natural below the overflow bound and reading it back with the JavaScript conversion recovers the number. -/
theorem jsStrToNumber_renderNat (n : ℕ) (hb : n < 1 <<< 1024) :
    jsStrToNumber (renderNat n) = some ((n : ℚ)) := by
  obtain ⟨hne, hdig, hval⟩ := renderNatAux_props (n + 1) n (Nat.lt_succ_self n)
  rw [show renderNatAux (n + 1) n = renderNat n from rfl] at hne hdig hval
  have hws : ∀ c ∈ renderNat n, isWsChar c = false :=
    fun c hc => digit_not_ws c (hdig c hc)
  have hbody : numBody (renderNat n) = signedDec (renderNat n) := by
    cases hr : renderNat n with
    | nil => exact absurd hr hne
    | cons c cs =>
      apply numBody_digits
      by_cases hz : n = 0
      · subst hz
        right
        have : renderNat 0 = ['0'] := by decide
        rw [this] at hr
        injection hr with h1 h2
        exact h2.symm
      · left
        have := renderNat_head_ne_zero (n + 1) n (Nat.lt_succ_self n) hz
        rw [show renderNatAux (n + 1) n = renderNat n from rfl, hr] at this
        simp [List.head?] at this
        exact this
  have hq : (mkRat (natOfDigits (renderNat n)) 1 : ℚ) = (n : ℚ) := by
    rw [hval, Rat.mkRat_one, Int.cast_natCast]
  unfold jsStrToNumber
  rw [trimStr_eq_self_of_all _ hws, if_neg hne, hbody,
    signedDec_digits _ hne hdig, hq]
  show jsFinite (n : ℚ) = some (n : ℚ)
  unfold jsFinite
  rw [if_pos]
  rw [Rat.num_natCast, Rat.den_natCast, Int.natAbs_ofNat, Nat.mul_one]
  exact hb

/-- Number round trip for integers: rendering an integer of magnitude below the overflow bound and reading it back with the JavaScript conversion recovers the number. -/
theorem jsStrToNumber_renderInt (n : ℤ) (hb : n.natAbs < 1 <<< 1024) :
    jsStrToNumber (RoundTrip.renderInt n) = some ((n : ℚ)) := by
  by_cases hneg : n < 0
  · obtain ⟨hne, hdig, hval⟩ :=
      renderNatAux_props (n.natAbs + 1) n.natAbs (Nat.lt_succ_self _)
    rw [show renderNatAux (n.natAbs + 1) n.natAbs = renderNat n.natAbs from rfl]
      at hne hdig hval
    have hri : RoundTrip.renderInt n = '-' :: renderNat n.natAbs := by
      unfold RoundTrip.renderInt
      rw [if_pos hneg]
    have hws : ∀ c ∈ '-' :: renderNat n.natAbs, isWsChar c = false := by
      intro c hc
      rcases List.mem_cons.mp hc with rfl | hc
      · decide
      · exact digit_not_ws c (hdig c hc)
    have hnen : ('-' :: renderNat n.natAbs : Str) ≠ [] := by simp
    rw [hri]
    unfold jsStrToNumber
    rw [trimStr_eq_self_of_all _ hws, if_neg hnen]
    have hnb : numBody ('-' :: renderNat n.natAbs)
        = signedDec ('-' :: renderNat n.natAbs) := by
      cases hr : renderNat n.natAbs with
      | nil => exact absurd hr hne
      | cons c cs =>
        show numBody ('-' :: c :: cs) = signedDec ('-' :: c :: cs)
        rfl
    rw [hnb]
    show (signedDec ('-' :: renderNat n.natAbs)).bind jsFinite = some (n : ℚ)
    have hsd : signedDec ('-' :: renderNat n.natAbs)
        = (parseDecimal (renderNat n.natAbs)).map Rat.neg := rfl
    rw [hsd, parseDecimal_digits _ hne hdig, hval]
    show jsFinite (Rat.neg (mkRat (n.natAbs : ℤ) 1)) = some (n : ℚ)
    have hrn : Rat.neg (mkRat (n.natAbs : ℤ) 1) = (n : ℚ) := by
      show -(mkRat (n.natAbs : ℤ) 1) = (n : ℚ)
      rw [Rat.mkRat_one, ← Int.cast_neg]
      rw [show -((n.natAbs : ℤ)) = n from by omega]
    rw [hrn]
    unfold jsFinite
    rw [if_pos]
    · have h1 : ((n : ℚ)).num = n := Rat.num_intCast n
      have h2 : ((n : ℚ)).den = 1 := Rat.den_intCast n
      rw [h1, h2, Nat.mul_one]
      exact hb
  · push_neg at hneg
    have hri : RoundTrip.renderInt n = renderNat n.toNat := by
      unfold RoundTrip.renderInt
      rw [if_neg (by omega)]
    have hb2 : n.toNat < 1 <<< 1024 := by omega
    rw [hri, jsStrToNumber_renderNat n.toNat hb2]
    congr 1
    exact_mod_cast Int.toNat_of_nonneg hneg

/-- Every character of a joined string is the separator or comes from one of the chunks. -/
theorem mem_joinWith (sep : Char) (c : Char) :
    ∀ xs : List Str, c ∈ joinWith sep xs → c = sep ∨ ∃ x ∈ xs, c ∈ x := by
  intro xs
  induction xs with
  | nil => intro h; cases h
  | cons x rest ih =>
    cases rest with
    | nil =>
      intro h
      right
      exact ⟨x, List.mem_cons_self _ _, h⟩
    | cons y ys =>
      intro h
      rcases List.mem_append.mp h with h | h
      · right; exact ⟨x, List.mem_cons_self _ _, h⟩
      · rcases List.mem_cons.mp h with rfl | h
        · left; rfl
        · rcases ih h with h | ⟨z, hz, hcz⟩
          · left; exact h
          · right; exact ⟨z, List.mem_cons_of_mem _ hz, hcz⟩

/-- Joining at least two chunks puts the separator in the result. -/
theorem joinWith_contains_sep (sep : Char) (x y : Str) (ys : List Str) :
    (joinWith sep (x :: y :: ys)).contains sep = true := by
  apply (str_contains_iff _ _).mpr
  show sep ∈ x ++ sep :: joinWith sep (y :: ys)
  exact List.mem_append.mpr (Or.inr (List.mem_cons_self _ _))

/-- Splitting a string of the form chunk-separator-rest, with the separator absent from the chunk, peels off the chunk. -/
theorem splitOnChar_append_sep (sep : Char) (a b : Str) (h : a.contains sep = false) :
    splitOnChar sep (a ++ sep :: b) = a :: splitOnChar sep b := by
  induction a with
  | nil => simp [splitOnChar]
  | cons c cs ih =>
    have hc : ¬ (c = sep) := by
      rintro rfl
      rw [(str_contains_iff _ _).mpr (List.mem_cons_self c cs)] at h
      cases h
    have hcs : cs.contains sep = false := by
      rcases hh : cs.contains sep with _ | _
      · rfl
      · rw [(str_contains_iff _ _).mpr
          (List.mem_cons_of_mem c ((str_contains_iff cs sep).mp hh))] at h
        cases h
    rw [List.cons_append]
    rw [show splitOnChar sep (c :: (cs ++ sep :: b)) =
        if c = sep then [] :: splitOnChar sep (cs ++ sep :: b)
        else match splitOnChar sep (cs ++ sep :: b) with
          | [] => [[c]]
          | p :: ps => (c :: p) :: ps from rfl]
    rw [if_neg hc, ih hcs]

/-- Splitting a join on its separator recovers the chunks when no chunk contains the separator. -/
theorem splitOnChar_joinWith (sep : Char) :
    ∀ xs : List Str, xs ≠ [] → (∀ x ∈ xs, x.contains sep = false) →
    splitOnChar sep (joinWith sep xs) = xs := by
  intro xs
  induction xs with
  | nil => intro h; exact absurd rfl h
  | cons x rest ih =>
    intro _ hall
    cases rest with
    | nil => exact splitOnChar_eq_self sep x (hall x (List.mem_cons_self _ _))
    | cons y ys =>
      show splitOnChar sep (x ++ sep :: joinWith sep (y :: ys)) = _
      rw [splitOnChar_append_sep sep _ _ (hall x (List.mem_cons_self _ _))]
      rw [ih (by simp) (fun z hz => hall z (List.mem_cons_of_mem _ hz))]

/-- The head of a join is the head of its first chunk, when that chunk is nonempty. -/
theorem joinWith_head (sep : Char) (x : Str) (rest : List Str) (h : x ≠ []) :
    (joinWith sep (x :: rest)).head? = x.head? := by
  cases rest with
  | nil => rfl
  | cons y ys =>
    cases x with
    | nil => exact absurd rfl h
    | cons c cs => rfl

/-- Left-trimming a string whose first character is not whitespace leaves it unchanged. -/
theorem trimLeft_eq_self_of_head (s : Str) (c : Char)
    (h : s.head? = some c) (hws : isWsChar c = false) : trimLeft s = s := by
  cases s with
  | nil => cases h
  | cons d ds =>
    injection h with h
    subst h
    simp [trimLeft, hws]

/-- Trimming a string whose first and last characters are not whitespace leaves it unchanged. -/
theorem trimStr_eq_self_of_ends (s : Str) (c d : Char)
    (hh : s.head? = some c) (hwc : isWsChar c = false)
    (hl : s.getLast? = some d) (hwd : isWsChar d = false) : trimStr s = s := by
  unfold trimStr
  rw [trimLeft_eq_self_of_head s c hh hwc]
  rw [trimLeft_eq_self_of_head s.reverse d (by rw [List.head?_reverse]; exact hl) hwd]
  exact List.reverse_reverse s

/-- Left-trimming never lengthens a string. -/
theorem trimLeft_len_le : ∀ s : Str, (trimLeft s).length ≤ s.length := by
  intro s
  induction s with
  | nil => simp [trimLeft]
  | cons c cs ih =>
    by_cases h : isWsChar c
    · simp only [trimLeft, h, if_true]
      calc (trimLeft cs).length ≤ cs.length := ih
        _ ≤ (c :: cs).length := by simp
    · simp [trimLeft, h]

/-- Left-trimming that preserves the length changes nothing. -/
theorem trimLeft_of_length_eq (s : Str) (h : (trimLeft s).length = s.length) :
    trimLeft s = s := by
  cases s with
  | nil => rfl
  | cons c cs =>
    by_cases hw : isWsChar c
    · exfalso
      rw [show trimLeft (c :: cs) = trimLeft cs from by simp [trimLeft, hw]] at h
      have := trimLeft_len_le cs
      simp at h
      omega
    · simp [trimLeft, hw]

/-- The last character of a trim-stable string is not whitespace. -/
theorem trim_stable_last (s : Str) (d : Char) (hst : trimStr s = s)
    (hl : s.getLast? = some d) : isWsChar d = false := by
  rcases hw : isWsChar d with _ | _
  · rfl
  · exfalso
    have hlen : ((trimLeft (trimLeft s).reverse).reverse).length = s.length := by
      unfold trimStr at hst
      rw [hst]
    have h1 : (trimLeft (trimLeft s).reverse).length ≤ (trimLeft s).length := by
      have := trimLeft_len_le (trimLeft s).reverse
      simpa using this
    have h2 : (trimLeft s).length ≤ s.length := trimLeft_len_le s
    simp only [List.length_reverse] at hlen
    have htl : trimLeft s = s := trimLeft_of_length_eq s (by omega)
    have htr : trimLeft s.reverse = s.reverse := by
      apply trimLeft_of_length_eq
      rw [htl] at hlen h1
      simp only [List.length_reverse]
      omega
    have hrev : s.reverse.head? = some d := by rw [List.head?_reverse]; exact hl
    cases hs : s.reverse with
    | nil => rw [hs] at hrev; cases hrev
    | cons e es =>
      rw [hs] at hrev htr
      injection hrev with he
      rw [← he] at hw
      rw [show trimLeft (e :: es) = trimLeft es from by simp [trimLeft, hw]] at htr
      have hle := trimLeft_len_le es
      have hlen2 := congrArg List.length htr
      simp at hlen2
      omega

/-- A predicate false on every element takes nothing and drops nothing. -/
theorem takeWhile_nil_of_all (p : Str → Bool) :
    ∀ l : List Str, (∀ x ∈ l, p x = false) → l.takeWhile p = [] ∧ l.dropWhile p = l := by
  intro l h
  cases l with
  | nil => exact ⟨rfl, rfl⟩
  | cons x xs =>
    have := h x (List.mem_cons_self _ _)
    constructor
    · simp [List.takeWhile, this]
    · simp [List.dropWhile, this]

/-- The comma-chunk scanner on clean key-equals-value chunks (trim-stable, nonempty keys without an equals sign) returns exactly the pairs, with no chunk rejoining. -/
theorem objPairsAux_clean :
    ∀ (fuel : ℕ) (ps : List (Str × Str)), ps.length < fuel →
    (∀ pr ∈ ps, ('=' ∉ pr.1) ∧ pr.1 ≠ [] ∧ trimStr pr.1 = pr.1 ∧ trimStr pr.2 = pr.2 ∧
      trimStr (pr.1 ++ '=' :: pr.2) = pr.1 ++ '=' :: pr.2) →
    AdvancedArgs.objPairsAux fuel (ps.map (fun pr => pr.1 ++ '=' :: pr.2)) = ps := by
  intro fuel
  induction fuel with
  | zero => intro ps h; omega
  | succ fuel ih =>
    intro ps hlen hall
    cases ps with
    | nil => rfl
    | cons pr rest =>
      obtain ⟨hnotin, hne, htk, htv, htc⟩ := hall pr (List.mem_cons_self _ _)
      have hrest : ∀ q ∈ rest, ('=' ∉ q.1) ∧ q.1 ≠ [] ∧ trimStr q.1 = q.1 ∧
          trimStr q.2 = q.2 ∧ trimStr (q.1 ++ '=' :: q.2) = q.1 ++ '=' :: q.2 :=
        fun q hq => hall q (List.mem_cons_of_mem _ hq)
      have hmap : (pr :: rest).map (fun pr => pr.1 ++ '=' :: pr.2)
          = (pr.1 ++ '=' :: pr.2) :: rest.map (fun pr => pr.1 ++ '=' :: pr.2) := rfl
      rw [hmap]
      show AdvancedArgs.objPairsAux (fuel + 1) _ = _
      unfold AdvancedArgs.objPairsAux
      rw [htc, splitFirst_append '=' pr.1 pr.2 hnotin]
      dsimp only
      rw [htk, htv, if_neg hne]
      have hcontains : ∀ x ∈ rest.map (fun pr => pr.1 ++ '=' :: pr.2),
          (fun p : Str => decide (¬ (p.contains '=' = true))) x = false := by
        intro x hx
        rcases List.mem_map.mp hx with ⟨q, hq, rfl⟩
        have : ('=' : Char) ∈ q.1 ++ '=' :: q.2 :=
          List.mem_append.mpr (Or.inr (List.mem_cons_self _ _))
        simp [(str_contains_iff _ _).mpr this]
      obtain ⟨htw, hdw⟩ := takeWhile_nil_of_all _ _ hcontains
      rw [htw, hdw]
      have hrlen : rest.length < fuel := by
        have := hlen
        simp at this ⊢
        omega
      rw [ih rest hrlen hrest]
      simp

/-- Writing the same object key twice keeps only the second write. -/
theorem objSet_objSet (l : List (Str × Value)) (k : Str) (a b : Value) :
    objSet (objSet l k a) k b = objSet l k b := by
  induction l with
  | nil => simp [objSet]
  | cons p rest ih =>
    by_cases h : p.1 = k
    · simp [objSet, h]
    · simp [objSet, h, ih]

/-- Writing an absent key appends the property at the end (JavaScript insertion order). -/
theorem objSet_append_of_none (l : List (Str × Value)) (k : Str) (v : Value)
    (h : objGet l k = none) : objSet l k v = l ++ [(k, v)] := by
  induction l with
  | nil => rfl
  | cons p rest ih =>
    cases p with
    | mk k' v' =>
      by_cases hk : k' = k
      · rw [show objGet ((k', v') :: rest) k = some v' from by simp [objGet, hk]] at h
        cases h
      · have hrest : objGet rest k = none := by
          rw [show objGet ((k', v') :: rest) k = objGet rest k from by
            simp [objGet, hk]] at h
          exact h
        simp [objSet, hk, ih hrest]

/-- Looking up a key missing from the left part of a concatenation reads the right part. -/
theorem objGet_append_left_none (a b : List (Str × Value)) (k : Str)
    (h : objGet a k = none) : objGet (a ++ b) k = objGet b k := by
  induction a with
  | nil => rfl
  | cons p rest ih =>
    cases p with
    | mk k' v' =>
      by_cases hk : k' = k
      · rw [show objGet ((k', v') :: rest) k = some v' from by simp [objGet, hk]] at h
        cases h
      · rw [show objGet ((k', v') :: rest) k = objGet rest k from by simp [objGet, hk]] at h
        simp only [List.cons_append]
        rw [show objGet ((k', v') :: (rest ++ b)) k = objGet (rest ++ b) k from by
          simp [objGet, hk]]
        exact ih h

/-- Appending a property under a different key does not make a missing key present. -/
theorem objGet_append_singleton_ne (a : List (Str × Value)) (k k' : Str) (v : Value)
    (hne : k' ≠ k) (h : objGet a k' = none) : objGet (a ++ [(k, v)]) k' = none := by
  rw [objGet_append_left_none a _ k' h]
  show (if k = k' then some v else objGet [] k') = none
  rw [if_neg (fun hh => hne hh.symm)]
  rfl

/-- A string does not contain a character that is not among its characters. -/
theorem contains_eq_false_of_not_mem (s : Str) (c : Char) (h : c ∉ s) :
    s.contains c = false :=
  Bool.eq_false_iff.mpr (fun ht => absurd ((str_contains_iff _ _).mp ht) h)

/-- The decimal rendering of an integer consists of digits and at most a leading minus sign. -/
theorem renderInt_chars (n : ℤ) :
    ∀ c ∈ RoundTrip.renderInt n, (digitVal c).isSome ∨ c = '-' := by
  intro c hc
  unfold RoundTrip.renderInt at hc
  split at hc
  · rcases List.mem_cons.mp hc with rfl | hc
    · right; rfl
    · obtain ⟨_, hdig, _⟩ := renderNatAux_props (n.natAbs + 1) n.natAbs (Nat.lt_succ_self _)
      exact Or.inl (hdig c hc)
  · obtain ⟨_, hdig, _⟩ := renderNatAux_props (n.toNat + 1) n.toNat (Nat.lt_succ_self _)
    exact Or.inl (hdig c hc)

/-- The decimal rendering of an integer is nonempty. -/
theorem renderInt_ne_nil (n : ℤ) : RoundTrip.renderInt n ≠ [] := by
  unfold RoundTrip.renderInt
  split
  · simp
  · exact (renderNatAux_props (n.toNat + 1) n.toNat (Nat.lt_succ_self _)).1

/-- A character that is neither a digit nor a minus sign does not occur in a rendered integer. -/
theorem renderInt_not_mem (n : ℤ) (c : Char)
    (h1 : (digitVal c).isSome = false) (h2 : c ≠ '-') :
    c ∉ RoundTrip.renderInt n := by
  intro hc
  rcases renderInt_chars n c hc with h | h
  · rw [h1] at h; cases h
  · exact h2 h

/-- A rendered integer is trim-stable. -/
theorem renderInt_trim (n : ℤ) : trimStr (RoundTrip.renderInt n) = RoundTrip.renderInt n := by
  apply trimStr_eq_self_of_all
  intro c hc
  rcases renderInt_chars n c hc with h | h
  · exact digit_not_ws c h
  · subst h; decide

/-- A rendered integer never equals a string starting with a character that is neither a digit nor a minus sign. -/
theorem renderInt_ne_str (n : ℤ) (d : Char) (w : Str)
    (hd1 : (digitVal d).isSome = false) (hd2 : d ≠ '-') :
    RoundTrip.renderInt n ≠ d :: w := by
  intro h
  exact renderInt_not_mem n d hd1 hd2 (h ▸ List.mem_cons_self d w)

set_option exponentiation.threshold 2000 in
/-- The exact-double bound is below the overflow bound. -/
theorem shift53_le : (1 <<< 53 : ℕ) ≤ 1 <<< 1024 := by
  rw [Nat.shiftLeft_eq, Nat.shiftLeft_eq]
  simp only [Nat.one_mul]
  exact Nat.pow_le_pow_right (by omega) (by omega)

/-- Primitive coercion of a rendered integer below the exact-double bound yields that number. -/
theorem parsePrimitiveValue_renderInt (n : ℤ) (hb : n.natAbs < 1 <<< 53) :
    AdvancedArgs.parsePrimitiveValue (RoundTrip.renderInt n)
      = Value.vNum ((n : ℚ)) := by
  unfold AdvancedArgs.parsePrimitiveValue
  rw [if_neg, if_neg, if_neg]
  · rw [jsStrToNumber_renderInt n (lt_of_lt_of_le hb shift53_le)]
  · exact renderInt_ne_str n 'u' _ (by decide) (by decide)
  · exact renderInt_ne_str n 'n' _ (by decide) (by decide)
  · rintro (h | h)
    · exact renderInt_ne_str n 't' _ (by decide) (by decide) h
    · exact renderInt_ne_str n 'f' _ (by decide) (by decide) h

/-- The conjuncts of the inert-string predicate, unfolded. -/
theorem inertStr_parts (s : Str) (h : RoundTrip.inertStr s = true) :
    s ≠ [] ∧ trimStr s = s ∧ s.contains ',' = false ∧ s.contains '=' = false ∧
    s ≠ str "true" ∧ s ≠ str "false" ∧ s ≠ str "null" ∧ s ≠ str "undefined" ∧
    (jsStrToNumber s).isNone = true ∧ AdvancedArgs.bracketDelimited s = false := by
  unfold RoundTrip.inertStr at h
  simp only [Bool.and_eq_true, Bool.not_eq_true', decide_eq_true_eq] at h
  obtain ⟨⟨⟨⟨⟨⟨⟨⟨⟨h1, h2⟩, h3⟩, h4⟩, h5⟩, h6⟩, h7⟩, h8⟩, h9⟩, h10⟩ := h
  have h1' : s ≠ [] := by
    intro he
    rw [he] at h1
    cases h1
  exact ⟨h1', h2, h3, h4, h5, h6, h7, h8, h9, h10⟩

/-- Primitive coercion leaves an inert string as a string. -/
theorem parsePrimitiveValue_inert (s : Str) (h : RoundTrip.inertStr s = true) :
    AdvancedArgs.parsePrimitiveValue s = Value.vStr s := by
  obtain ⟨_, _, _, _, h5, h6, h7, h8, h9, _⟩ := inertStr_parts s h
  unfold AdvancedArgs.parsePrimitiveValue
  rw [if_neg, if_neg h7, if_neg h8]
  · rw [Option.isNone_iff_eq_none] at h9
    rw [h9]
  · rintro (hh | hh)
    · exact h5 hh
    · exact h6 hh

/-- A well-formed primitive's rendering is nonempty, free of commas and equals signs, trim-stable, and primitive-coerces back to the primitive's runtime value. -/
theorem renderPrim_facts (p : RoundTrip.SPrim) (hw : RoundTrip.wfPrim p = true) :
    RoundTrip.renderPrim p ≠ [] ∧
    (RoundTrip.renderPrim p).contains ',' = false ∧
    (RoundTrip.renderPrim p).contains '=' = false ∧
    trimStr (RoundTrip.renderPrim p) = RoundTrip.renderPrim p ∧
    AdvancedArgs.parsePrimitiveValue (RoundTrip.renderPrim p) = RoundTrip.primVal p := by
  cases p with
  | spInt n =>
    have hb : n.natAbs < 1 <<< 53 := by
      unfold RoundTrip.wfPrim at hw
      exact of_decide_eq_true hw
    refine ⟨renderInt_ne_nil n, ?_, ?_, renderInt_trim n, parsePrimitiveValue_renderInt n hb⟩
    · exact contains_eq_false_of_not_mem _ _ (renderInt_not_mem n ',' (by decide) (by decide))
    · exact contains_eq_false_of_not_mem _ _ (renderInt_not_mem n '=' (by decide) (by decide))
  | spBool b =>
    cases b
    · exact ⟨by decide, by decide, by decide, by decide, rfl⟩
    · exact ⟨by decide, by decide, by decide, by decide, rfl⟩
  | spStr s =>
    obtain ⟨h1, h2, h3, h4, _, _, _, _, _, _⟩ := inertStr_parts s hw
    exact ⟨h1, h3, h4, h2, parsePrimitiveValue_inert s hw⟩

/-- The conjuncts of the safe-field-name predicate, unfolded. -/
theorem nameOK_parts (s : Str) (h : RoundTrip.nameOK s = true) :
    s ≠ [] ∧ ∀ c ∈ s, isWsChar c = false ∧ c ≠ ',' ∧ c ≠ '=' ∧ c ≠ '.' ∧
      c ≠ '{' ∧ c ≠ '[' := by
  unfold RoundTrip.nameOK at h
  simp only [Bool.and_eq_true, List.all_eq_true, Bool.not_eq_true',
    decide_eq_true_eq] at h
  obtain ⟨h1, h2⟩ := h
  constructor
  · intro he
    rw [he] at h1
    cases h1
  · intro c hc
    have := h2 c hc
    simp only [Bool.and_eq_true, Bool.not_eq_true', decide_eq_true_eq] at this
    obtain ⟨⟨⟨⟨⟨ha, hb⟩, hc'⟩, hd⟩, he⟩, hf⟩ := this
    exact ⟨Bool.eq_false_iff.mpr ha, hb, hc', hd, he, hf⟩

/-- Every flattened pair of a field list has a nonempty segment path. -/
theorem flatSegFields_paths_ne_nil :
    ∀ fs : List (Str × RoundTrip.PTree),
    ∀ pr ∈ RoundTrip.flatSegFields fs, pr.1 ≠ [] := by
  intro fs
  induction fs with
  | nil => intro pr hpr; cases hpr
  | cons f rest ih =>
    intro pr hpr
    cases f with
    | mk k t =>
      rw [show RoundTrip.flatSegFields ((k, t) :: rest)
          = (RoundTrip.flatSeg t).map (fun pr => (k :: pr.1, pr.2))
            ++ RoundTrip.flatSegFields rest from rfl] at hpr
      rcases List.mem_append.mp hpr with h | h
      · rcases List.mem_map.mp h with ⟨q, _, rfl⟩
        simp
      · exact ih pr h

/- Flattening a well-formed tree, or a well-formed nonempty field list, yields at least one pair. -/
mutual

theorem flatSeg_ne_nil : ∀ (t : RoundTrip.PTree), RoundTrip.wfTree t = true →
    RoundTrip.flatSeg t ≠ []
  | RoundTrip.PTree.leaf p => by
    intro _
    simp [RoundTrip.flatSeg]
  | RoundTrip.PTree.node fs => by
    intro hw
    have h : ¬ fs.isEmpty ∧ RoundTrip.wfFields fs = true := by
      unfold RoundTrip.wfTree at hw
      simp only [Bool.and_eq_true, Bool.not_eq_true'] at hw
      exact ⟨by simp [hw.1], hw.2⟩
    show RoundTrip.flatSegFields fs ≠ []
    cases fs with
    | nil => simp [List.isEmpty] at h
    | cons f rest => exact flatSegFields_ne_nil f rest h.2

theorem flatSegFields_ne_nil : ∀ (f : Str × RoundTrip.PTree)
    (rest : List (Str × RoundTrip.PTree)),
    RoundTrip.wfFields (f :: rest) = true →
    RoundTrip.flatSegFields (f :: rest) ≠ []
  | (k, t), rest => by
    intro hw
    have hwt : RoundTrip.wfTree t = true := by
      unfold RoundTrip.wfFields at hw
      simp only [Bool.and_eq_true] at hw
      exact hw.1.1.2
    rw [show RoundTrip.flatSegFields ((k, t) :: rest)
        = (RoundTrip.flatSeg t).map (fun pr => (k :: pr.1, pr.2))
          ++ RoundTrip.flatSegFields rest from rfl]
    intro hemp
    rcases List.append_eq_nil.mp hemp with ⟨h1, _⟩
    exact flatSeg_ne_nil t hwt (List.map_eq_nil_iff.mp h1)

end

/- Every flattened pair of a well-formed tree or field list has safe path segments and a well-formed rendered primitive as its leaf. -/
mutual

theorem flatSeg_wf : ∀ (t : RoundTrip.PTree), RoundTrip.wfTree t = true →
    ∀ pr ∈ RoundTrip.flatSeg t,
    (∀ seg ∈ pr.1, RoundTrip.nameOK seg = true) ∧
    ∃ p, RoundTrip.wfPrim p = true ∧ pr.2 = RoundTrip.renderPrim p
  | RoundTrip.PTree.leaf p => by
    intro hw pr hpr
    rw [show RoundTrip.flatSeg (RoundTrip.PTree.leaf p)
        = [([], RoundTrip.renderPrim p)] from rfl] at hpr
    rcases List.mem_singleton.mp hpr with rfl
    exact ⟨fun seg hseg => absurd hseg (List.not_mem_nil seg), p, hw, rfl⟩
  | RoundTrip.PTree.node fs => by
    intro hw pr hpr
    have hwf : RoundTrip.wfFields fs = true := by
      unfold RoundTrip.wfTree at hw
      simp only [Bool.and_eq_true] at hw
      exact hw.2
    exact flatSegFields_wf fs hwf pr hpr

theorem flatSegFields_wf : ∀ (fs : List (Str × RoundTrip.PTree)),
    RoundTrip.wfFields fs = true →
    ∀ pr ∈ RoundTrip.flatSegFields fs,
    (∀ seg ∈ pr.1, RoundTrip.nameOK seg = true) ∧
    ∃ p, RoundTrip.wfPrim p = true ∧ pr.2 = RoundTrip.renderPrim p
  | [] => by
    intro _ pr hpr
    cases hpr
  | (k, t) :: rest => by
    intro hw pr hpr
    have hws : RoundTrip.nameOK k = true ∧ RoundTrip.wfTree t = true ∧
        RoundTrip.wfFields rest = true := by
      unfold RoundTrip.wfFields at hw
      simp only [Bool.and_eq_true] at hw
      exact ⟨hw.1.1.1, hw.1.1.2, hw.2⟩
    rw [show RoundTrip.flatSegFields ((k, t) :: rest)
        = (RoundTrip.flatSeg t).map (fun pr => (k :: pr.1, pr.2))
          ++ RoundTrip.flatSegFields rest from rfl] at hpr
    rcases List.mem_append.mp hpr with h | h
    · rcases List.mem_map.mp h with ⟨q, hq, rfl⟩
      obtain ⟨hsegs, hleaf⟩ := flatSeg_wf t hws.2.1 q hq
      refine ⟨?_, hleaf⟩
      intro seg hseg
      rcases List.mem_cons.mp hseg with rfl | hseg
      · exact hws.1
      · exact hsegs seg hseg
    · exact flatSegFields_wf rest hws.2.2 pr h

end

/-- The descent step of the nested write: a two-or-more-segment path writes the recursively updated sub-object under the first segment. -/
theorem setNestedCore_cons (obj : List (Str × Value)) (k k2 : Str) (ks : List Str)
    (v : Value) :
    AdvancedArgs.setNestedCore AdvancedArgs.coerceLeaf obj (k :: k2 :: ks) v
      = objSet obj k (Value.vObj
          (AdvancedArgs.setNestedCore AdvancedArgs.coerceLeaf (childObj obj k) (k2 :: ks) v)) := by
  rfl

/-- Reading the sub-object just written under a key gives that sub-object back. -/
theorem childObj_objSet_self (acc : List (Str × Value)) (k : Str)
    (fields : List (Str × Value)) :
    childObj (objSet acc k (Value.vObj fields)) k = fields := by
  unfold childObj
  rw [objGet_objSet_self]

/-- Descending into an absent key starts from the empty object. -/
theorem childObj_of_none (acc : List (Str × Value)) (k : Str)
    (h : objGet acc k = none) : childObj acc k = [] := by
  unfold childObj
  rw [h]

/-- Folding nested writes whose paths all share a first segment equals one write of the folded sub-object under that segment. -/
theorem foldl_snStep_descend :
    ∀ (pairs : List (List Str × Str)), pairs ≠ [] → (∀ pr ∈ pairs, pr.1 ≠ []) →
    ∀ (k : Str) (acc : List (Str × Value)),
    List.foldl snStep acc (pairs.map (fun pr => (k :: pr.1, pr.2)))
      = objSet acc k (Value.vObj (List.foldl snStep (childObj acc k) pairs)) := by
  intro pairs
  induction pairs with
  | nil => intro h; exact absurd rfl h
  | cons pr rest ih =>
    intro _ hp k acc
    obtain ⟨k2, ks, hk2⟩ : ∃ k2 ks, pr.1 = k2 :: ks := by
      cases hh : pr.1 with
      | nil => exact absurd hh (hp pr (List.mem_cons_self _ _))
      | cons a b => exact ⟨a, b, rfl⟩
    have hstep : snStep acc (k :: pr.1, pr.2)
        = objSet acc k (Value.vObj (snStep (childObj acc k) pr)) := by
      show AdvancedArgs.setNestedCore AdvancedArgs.coerceLeaf acc (k :: pr.1) (Value.vStr pr.2)
        = _
      rw [hk2, setNestedCore_cons]
      rw [show snStep (childObj acc k) pr
        = AdvancedArgs.setNestedCore AdvancedArgs.coerceLeaf (childObj acc k) pr.1
            (Value.vStr pr.2) from rfl, hk2]
    cases rest with
    | nil =>
      rw [List.map_singleton, List.foldl_cons, List.foldl_nil, List.foldl_cons,
        List.foldl_nil]
      exact hstep
    | cons q qs =>
      rw [List.map_cons, List.foldl_cons, hstep]
      rw [ih (by simp) (fun z hz => hp z (List.mem_cons_of_mem _ hz)) k _]
      rw [childObj_objSet_self, objSet_objSet]
      rfl

/- Rebuild lemma: folding the nested writes of a well-formed tree under a fresh key appends exactly the tree's runtime value, and folding those of a well-formed field list onto fresh keys appends exactly the field list's runtime values. -/
mutual

theorem foldl_snStep_tree : ∀ (t : RoundTrip.PTree), RoundTrip.wfTree t = true →
    ∀ (k : Str) (acc : List (Str × Value)), objGet acc k = none →
    List.foldl snStep acc ((RoundTrip.flatSeg t).map (fun pr => (k :: pr.1, pr.2)))
      = acc ++ [(k, RoundTrip.treeVal t)]
  | RoundTrip.PTree.leaf p => by
    intro hw k acc hfresh
    rw [show RoundTrip.flatSeg (RoundTrip.PTree.leaf p)
        = [([], RoundTrip.renderPrim p)] from rfl]
    rw [List.map_singleton, List.foldl_cons, List.foldl_nil]
    show AdvancedArgs.setNestedCore AdvancedArgs.coerceLeaf acc [k]
        (Value.vStr (RoundTrip.renderPrim p)) = _
    rw [show AdvancedArgs.setNestedCore AdvancedArgs.coerceLeaf acc [k]
        (Value.vStr (RoundTrip.renderPrim p))
      = objSet acc k (AdvancedArgs.coerceLeaf (Value.vStr (RoundTrip.renderPrim p))) from rfl]
    rw [show AdvancedArgs.coerceLeaf (Value.vStr (RoundTrip.renderPrim p))
      = AdvancedArgs.parsePrimitiveValue (RoundTrip.renderPrim p) from rfl]
    rw [(renderPrim_facts p hw).2.2.2.2]
    rw [objSet_append_of_none acc k _ hfresh]
    rfl
  | RoundTrip.PTree.node fs => by
    intro hw k acc hfresh
    have h : ¬ fs.isEmpty ∧ RoundTrip.wfFields fs = true := by
      unfold RoundTrip.wfTree at hw
      simp only [Bool.and_eq_true, Bool.not_eq_true'] at hw
      exact ⟨by simp [hw.1], hw.2⟩
    have hne : RoundTrip.flatSegFields fs ≠ [] := by
      cases fs with
      | nil => simp [List.isEmpty] at h
      | cons f rest => exact flatSegFields_ne_nil f rest h.2
    rw [show RoundTrip.flatSeg (RoundTrip.PTree.node fs)
        = RoundTrip.flatSegFields fs from rfl]
    rw [foldl_snStep_descend (RoundTrip.flatSegFields fs) hne
      (flatSegFields_paths_ne_nil fs) k acc]
    rw [childObj_of_none acc k hfresh]
    rw [foldl_snStep_fields fs h.2 [] (fun kt _ => rfl)]
    rw [List.nil_append]
    rw [objSet_append_of_none acc k _ hfresh]
    rfl

theorem foldl_snStep_fields : ∀ (fs : List (Str × RoundTrip.PTree)),
    RoundTrip.wfFields fs = true →
    ∀ (acc : List (Str × Value)), (∀ kt ∈ fs, objGet acc kt.1 = none) →
    List.foldl snStep acc (RoundTrip.flatSegFields fs)
      = acc ++ RoundTrip.fieldsVal fs
  | [] => by
    intro _ acc _
    rw [show RoundTrip.flatSegFields [] = [] from rfl, List.foldl_nil,
      show RoundTrip.fieldsVal [] = [] from rfl, List.append_nil]
  | (k, t) :: rest => by
    intro hw acc hfresh
    have hws : RoundTrip.nameOK k = true ∧ RoundTrip.wfTree t = true ∧
        (∀ q ∈ rest, q.1 ≠ k) ∧ RoundTrip.wfFields rest = true := by
      unfold RoundTrip.wfFields at hw
      simp only [Bool.and_eq_true, List.all_eq_true, decide_eq_true_eq] at hw
      exact ⟨hw.1.1.1, hw.1.1.2, hw.1.2, hw.2⟩
    rw [show RoundTrip.flatSegFields ((k, t) :: rest)
        = (RoundTrip.flatSeg t).map (fun pr => (k :: pr.1, pr.2))
          ++ RoundTrip.flatSegFields rest from rfl]
    rw [List.foldl_append]
    rw [foldl_snStep_tree t hws.2.1 k acc (hfresh (k, t) (List.mem_cons_self _ _))]
    rw [foldl_snStep_fields rest hws.2.2.2 (acc ++ [(k, RoundTrip.treeVal t)]) ?hfr]
    case hfr =>
      intro kt hkt
      exact objGet_append_singleton_ne acc k kt.1 (RoundTrip.treeVal t)
        (hws.2.2.1 kt hkt) (hfresh kt (List.mem_cons_of_mem _ hkt))
    rw [List.append_assoc]
    rfl

end

/-- A join whose first chunk is nonempty is nonempty. -/
theorem joinWith_ne_nil (sep : Char) (x : Str) (rest : List Str) (hx : x ≠ []) :
    joinWith sep (x :: rest) ≠ [] := by
  intro h
  have := joinWith_head sep x rest hx
  rw [h] at this
  cases x with
  | nil => exact hx rfl
  | cons c cs => cases this

/-- A character of the first chunk occurs in the join. -/
theorem mem_joinWith_left (sep : Char) (c : Char) (x : Str) (rest : List Str)
    (h : c ∈ x) : c ∈ joinWith sep (x :: rest) := by
  cases rest with
  | nil => exact h
  | cons y ys => exact List.mem_append.mpr (Or.inl h)

/-- A nonempty field list has a nonempty runtime value list. -/
theorem fieldsVal_ne_nil (fs : List (Str × RoundTrip.PTree)) (h : fs ≠ []) :
    RoundTrip.fieldsVal fs ≠ [] := by
  cases fs with
  | nil => exact absurd rfl h
  | cons f rest =>
    cases f with
    | mk k t =>
      rw [show RoundTrip.fieldsVal ((k, t) :: rest)
          = (k, RoundTrip.treeVal t) :: RoundTrip.fieldsVal rest from rfl]
      simp

/-- Folds of functions that agree on the list's members agree. -/
theorem foldl_ext_mem {α β : Type} (f g : β → α → β) :
    ∀ (l : List α), (∀ x ∈ l, ∀ b, f b x = g b x) →
    ∀ b, l.foldl f b = l.foldl g b := by
  intro l
  induction l with
  | nil => intro _ b; rfl
  | cons x xs ih =>
    intro h b
    rw [List.foldl_cons, List.foldl_cons, h x (List.mem_cons_self _ _) b]
    exact ih (fun z hz => h z (List.mem_cons_of_mem _ hz)) _

/-- A serialized object chunk is comma-free; its dotted path is nonempty, equals-free and trim-stable; its leaf and the whole chunk are trim-stable. -/
theorem chunk_facts (fs : List (Str × RoundTrip.PTree))
    (hw : RoundTrip.wfFields fs = true) (pr : List Str × Str)
    (hpr : pr ∈ RoundTrip.flatSegFields fs) :
    (joinWith '.' pr.1 ++ '=' :: pr.2).contains ',' = false ∧
    ('=' ∉ joinWith '.' pr.1) ∧ joinWith '.' pr.1 ≠ [] ∧
    trimStr (joinWith '.' pr.1) = joinWith '.' pr.1 ∧ trimStr pr.2 = pr.2 ∧
    trimStr (joinWith '.' pr.1 ++ '=' :: pr.2) = joinWith '.' pr.1 ++ '=' :: pr.2 := by
  obtain ⟨hsegs, p, hwp, hleaf⟩ := flatSegFields_wf fs hw pr hpr
  obtain ⟨hpne, hpnc, hpne2, hptrim, _⟩ := renderPrim_facts p hwp
  have hpathchars : ∀ c ∈ joinWith '.' pr.1, c = '.' ∨ ∃ seg ∈ pr.1, c ∈ seg :=
    fun c hc => mem_joinWith '.' c pr.1 hc
  have hsegchars : ∀ c, (∃ seg ∈ pr.1, c ∈ seg) →
      isWsChar c = false ∧ c ≠ ',' ∧ c ≠ '=' ∧ c ≠ '.' ∧ c ≠ '{' ∧ c ≠ '[' := by
    rintro c ⟨seg, hseg, hcm⟩
    exact (nameOK_parts seg (hsegs seg hseg)).2 c hcm
  have hpathne : pr.1 ≠ [] := flatSegFields_paths_ne_nil fs pr hpr
  obtain ⟨seg0, segrest, hp1⟩ : ∃ s0 sr, pr.1 = s0 :: sr := by
    cases hh : pr.1 with
    | nil => exact absurd hh hpathne
    | cons a b => exact ⟨a, b, rfl⟩
  have hseg0ne : seg0 ≠ [] :=
    (nameOK_parts seg0 (hsegs seg0 (by rw [hp1]; exact List.mem_cons_self _ _))).1
  have hjoinne : joinWith '.' pr.1 ≠ [] := by
    rw [hp1]
    exact joinWith_ne_nil '.' seg0 segrest hseg0ne
  have hnocomma : (joinWith '.' pr.1 ++ '=' :: pr.2).contains ',' = false := by
    apply contains_eq_false_of_not_mem
    intro hmem
    rcases List.mem_append.mp hmem with h | h
    · rcases hpathchars ',' h with h | h
      · cases h
      · exact (hsegchars ',' h).2.1 rfl
    · rcases List.mem_cons.mp h with h | h
      · cases h
      · rw [hleaf] at h
        exact absurd ((str_contains_iff _ _).mpr h) (by rw [hpnc]; simp)
  have hnoeq : ('=' : Char) ∉ joinWith '.' pr.1 := by
    intro hmem
    rcases hpathchars '=' hmem with h | h
    · cases h
    · exact (hsegchars '=' h).2.2.1 rfl
  have hptrim2 : trimStr (joinWith '.' pr.1) = joinWith '.' pr.1 := by
    apply trimStr_eq_self_of_all
    intro c hc
    rcases hpathchars c hc with rfl | h
    · decide
    · exact (hsegchars c h).1
  have hltrim : trimStr pr.2 = pr.2 := by rw [hleaf, hptrim]
  refine ⟨hnocomma, hnoeq, hjoinne, hptrim2, hltrim, ?_⟩
  obtain ⟨c0, hc0⟩ : ∃ c0, (joinWith '.' pr.1).head? = some c0 := by
    cases hh : joinWith '.' pr.1 with
    | nil => exact absurd hh hjoinne
    | cons a b => exact ⟨a, rfl⟩
  have hc0ws : isWsChar c0 = false := by
    have hmem : c0 ∈ joinWith '.' pr.1 := List.mem_of_mem_head? hc0
    rcases hpathchars c0 hmem with rfl | h
    · decide
    · exact (hsegchars c0 h).1
  obtain ⟨d, hd⟩ : ∃ d, pr.2.getLast? = some d := by
    cases hg : pr.2.getLast? with
    | none =>
      exfalso
      have h0 := List.getLast?_eq_none_iff.mp hg
      rw [hleaf] at h0
      exact hpne h0
    | some x => exact ⟨x, rfl⟩
  have hdws : isWsChar d = false := trim_stable_last pr.2 d hltrim hd
  apply trimStr_eq_self_of_ends _ c0 d
  · cases hh : joinWith '.' pr.1 with
    | nil => exact absurd hh hjoinne
    | cons a b =>
      rw [hh] at hc0
      injection hc0 with h
      rw [List.cons_append]
      show some a = some c0
      rw [h]
  · exact hc0ws
  · rw [List.getLast?_append_of_ne_nil _ (by simp)]
    have hlne : pr.2 ≠ [] := by rw [hleaf]; exact hpne
    cases hh : pr.2 with
    | nil => exact absurd hh hlne
    | cons a b =>
      rw [show (('=' : Char) :: a :: b).getLast? = (a :: b).getLast? from
        List.getLast?_cons_cons]
      rw [hh] at hd
      exact hd
  · exact hdws

/-- Parsing the serialized comma-object body of a well-formed nonempty field list succeeds and rebuilds exactly the field list's runtime values. -/
theorem parseObjectValue_fields (fs : List (Str × RoundTrip.PTree))
    (hw : RoundTrip.wfFields fs = true) (hne : fs ≠ []) :
    AdvancedArgs.parseObjectValue
      (joinWith ',' ((RoundTrip.flatSegFields fs).map
        (fun pr => joinWith '.' pr.1 ++ '=' :: pr.2)))
      = (true, RoundTrip.fieldsVal fs) := by
  have hsfne : RoundTrip.flatSegFields fs ≠ [] := by
    cases fs with
    | nil => exact absurd rfl hne
    | cons f rest => exact flatSegFields_ne_nil f rest hw
  have hchne : (RoundTrip.flatSegFields fs).map
      (fun pr => joinWith '.' pr.1 ++ '=' :: pr.2) ≠ [] := by
    simpa using hsfne
  have hsplit : splitOnChar ','
      (joinWith ',' ((RoundTrip.flatSegFields fs).map
        (fun pr => joinWith '.' pr.1 ++ '=' :: pr.2)))
      = (RoundTrip.flatSegFields fs).map (fun pr => joinWith '.' pr.1 ++ '=' :: pr.2) := by
    apply splitOnChar_joinWith ',' _ hchne
    intro x hx
    rcases List.mem_map.mp hx with ⟨pr, hpr, rfl⟩
    exact (chunk_facts fs hw pr hpr).1
  have hrwmap : (RoundTrip.flatSegFields fs).map (fun pr => joinWith '.' pr.1 ++ '=' :: pr.2)
      = ((RoundTrip.flatSegFields fs).map (fun pr => (joinWith '.' pr.1, pr.2))).map
          (fun q => q.1 ++ '=' :: q.2) := by
    rw [List.map_map]
    rfl
  have hpairs : AdvancedArgs.objPairs
      ((RoundTrip.flatSegFields fs).map (fun pr => joinWith '.' pr.1 ++ '=' :: pr.2))
      = (RoundTrip.flatSegFields fs).map (fun pr => (joinWith '.' pr.1, pr.2)) := by
    unfold AdvancedArgs.objPairs
    rw [hrwmap]
    apply objPairsAux_clean
    · simp
    · intro q hq
      rcases List.mem_map.mp hq with ⟨pr, hpr, rfl⟩
      obtain ⟨_, h2, h3, h4, h5, h6⟩ := chunk_facts fs hw pr hpr
      exact ⟨h2, h3, h4, h5, h6⟩
  have hext : ∀ pr ∈ RoundTrip.flatSegFields fs,
      ∀ acc : List (Str × Value),
      AdvancedArgs.setNestedValue acc (joinWith '.' pr.1) pr.2 = snStep acc pr := by
    intro pr hpr acc
    unfold AdvancedArgs.setNestedValue
    rw [splitOnChar_joinWith '.' pr.1 (flatSegFields_paths_ne_nil fs pr hpr) ?hseg]
    · rfl
    case hseg =>
      intro seg hseg
      obtain ⟨hsegs, _⟩ := flatSegFields_wf fs hw pr hpr
      have hnp := (nameOK_parts seg (hsegs seg hseg)).2
      apply contains_eq_false_of_not_mem
      intro hm
      exact (hnp '.' hm).2.2.2.1 rfl
  have hfold : ((RoundTrip.flatSegFields fs).map (fun pr => (joinWith '.' pr.1, pr.2))).foldl
      (fun acc p => AdvancedArgs.setNestedValue acc p.1 p.2) []
      = RoundTrip.fieldsVal fs := by
    rw [List.foldl_map]
    have hext2 := foldl_ext_mem
      (fun (acc : List (Str × Value)) (pr : List Str × Str) =>
        AdvancedArgs.setNestedValue acc (joinWith '.' pr.1) pr.2)
      snStep (RoundTrip.flatSegFields fs)
      (fun pr hpr acc => hext pr hpr acc) []
    rw [show (fun (x : List (Str × Value)) (y : List Str × Str) =>
        AdvancedArgs.setNestedValue x ((fun pr => (joinWith '.' pr.1, pr.2)) y).1
          ((fun pr => (joinWith '.' pr.1, pr.2)) y).2)
      = (fun (acc : List (Str × Value)) (pr : List Str × Str) =>
        AdvancedArgs.setNestedValue acc (joinWith '.' pr.1) pr.2) from rfl]
    rw [hext2]
    rw [foldl_snStep_fields fs hw [] (fun _ _ => rfl)]
    rfl
  have hb1 : (((RoundTrip.flatSegFields fs).map
      (fun pr => (joinWith '.' pr.1, pr.2))).isEmpty) = false := by
    cases hh : RoundTrip.flatSegFields fs with
    | nil => exact absurd hh hsfne
    | cons a b => rfl
  have hb2 : (RoundTrip.fieldsVal fs).isEmpty = false := by
    cases hh : RoundTrip.fieldsVal fs with
    | nil => exact absurd hh (fieldsVal_ne_nil fs hne)
    | cons a b => rfl
  unfold AdvancedArgs.parseObjectValue
  dsimp only
  rw [hsplit, hpairs, hfold, hb1, hb2]
  rfl

/-- A string whose first character opens neither a brace nor a bracket is not JSON-delimited. -/
theorem bracketDelimited_false_of_head (s : Str) (c : Char) (h : s.head? = some c)
    (h1 : c ≠ '{') (h2 : c ≠ '[') : AdvancedArgs.bracketDelimited s = false := by
  unfold AdvancedArgs.bracketDelimited
  rw [h]
  have e1 : (some c = some '{') = False := by
    simp only [Option.some.injEq, eq_iff_iff, iff_false]
    exact h1
  have e2 : (some c = some '[') = False := by
    simp only [Option.some.injEq, eq_iff_iff, iff_false]
    exact h2
  simp [e1, e2]

/-- The head of a concatenation is the head of its nonempty left part. -/
theorem head?_append_of_ne_nil (a b : Str) (h : a ≠ []) :
    (a ++ b).head? = a.head? := by
  cases a with
  | nil => exact absurd rfl h
  | cons c cs => rfl

/-- A nonempty value with no JSON delimiters, equals signs or commas falls through to primitive coercion. -/
theorem parseAdvancedValue_plain (v : Str) (hne : v ≠ [])
    (hbd : AdvancedArgs.bracketDelimited v = false)
    (heq : v.contains '=' = false) (hcm : v.contains ',' = false) :
    AdvancedArgs.parseAdvancedValue v
      = (AdvancedArgs.parsePrimitiveValue v, AdvancedArgs.ArgType.primitive) := by
  unfold AdvancedArgs.parseAdvancedValue
  rw [if_neg hne]
  simp only [hbd, heq, hcm, Bool.false_eq_true, if_false, Bool.false_and, Bool.and_false]

/-- A rendered integer below the exact-double bound is numeric. -/
theorem jsStrToNumber_renderInt_isSome (n : ℤ) (hb : n.natAbs < 1 <<< 53) :
    (jsStrToNumber (RoundTrip.renderInt n)).isSome = true := by
  rw [jsStrToNumber_renderInt n (lt_of_lt_of_le hb shift53_le)]
  rfl

/-- A rendered integer does not start with a brace or bracket. -/
theorem renderInt_head_not_bracket (n : ℤ) :
    ∀ c, (RoundTrip.renderInt n).head? = some c → c ≠ '{' ∧ c ≠ '[' := by
  intro c hc
  have hmem : c ∈ RoundTrip.renderInt n := List.mem_of_mem_head? hc
  rcases renderInt_chars n c hmem with h | h
  · constructor
    · rintro rfl; rw [show (digitVal '{').isSome = false from by decide] at h; cases h
    · rintro rfl; rw [show (digitVal '[').isSome = false from by decide] at h; cases h
  · subst h
    exact ⟨by decide, by decide⟩

/-- The serialized comma list of at least two exactly-representable integers parses as the numeric array of those integers. -/
theorem parseAdvancedValue_arr (ns : List ℤ) (hlen : 2 ≤ ns.length)
    (hb : ∀ n ∈ ns, n.natAbs < 1 <<< 53) :
    AdvancedArgs.parseAdvancedValue (joinWith ',' (ns.map RoundTrip.renderInt))
      = (Value.vArr (ns.map (fun n : ℤ => Value.vNum ((n : ℚ)))),
         AdvancedArgs.ArgType.array) := by
  obtain ⟨n0, n1, rest, rfl⟩ : ∃ a b r, ns = a :: b :: r := by
    cases ns with
    | nil => simp at hlen
    | cons a t =>
      cases t with
      | nil => simp at hlen
      | cons b r => exact ⟨a, b, r, rfl⟩
  have hmaps : (n0 :: n1 :: rest).map RoundTrip.renderInt
      = RoundTrip.renderInt n0 :: RoundTrip.renderInt n1 :: rest.map RoundTrip.renderInt :=
    rfl
  have hne : joinWith ',' ((n0 :: n1 :: rest).map RoundTrip.renderInt) ≠ [] := by
    rw [hmaps]
    exact joinWith_ne_nil ',' _ _ (renderInt_ne_nil n0)
  have hnomem : ∀ c : Char, (digitVal c).isSome = false → c ≠ '-' → c ≠ ',' →
      c ∉ joinWith ',' ((n0 :: n1 :: rest).map RoundTrip.renderInt) := by
    intro c hc1 hc2 hc3 hmem
    rcases mem_joinWith ',' c _ hmem with h | ⟨x, hx, hcx⟩
    · exact hc3 h
    · rcases List.mem_map.mp hx with ⟨m, _, rfl⟩
      exact renderInt_not_mem m c hc1 hc2 hcx
  have heq : (joinWith ',' ((n0 :: n1 :: rest).map RoundTrip.renderInt)).contains '='
      = false :=
    contains_eq_false_of_not_mem _ _ (hnomem '=' (by decide) (by decide) (by decide))
  have hcm : (joinWith ',' ((n0 :: n1 :: rest).map RoundTrip.renderInt)).contains ','
      = true := by
    rw [hmaps]
    exact joinWith_contains_sep ',' _ _ _
  have hbd : AdvancedArgs.bracketDelimited
      (joinWith ',' ((n0 :: n1 :: rest).map RoundTrip.renderInt)) = false := by
    obtain ⟨c0, hc0⟩ : ∃ c0, (RoundTrip.renderInt n0).head? = some c0 := by
      cases hh : RoundTrip.renderInt n0 with
      | nil => exact absurd hh (renderInt_ne_nil n0)
      | cons a b => exact ⟨a, rfl⟩
    have hh : (joinWith ',' ((n0 :: n1 :: rest).map RoundTrip.renderInt)).head?
        = some c0 := by
      rw [hmaps, joinWith_head ',' _ _ (renderInt_ne_nil n0)]
      exact hc0
    obtain ⟨hb1, hb2⟩ := renderInt_head_not_bracket n0 c0 hc0
    exact bracketDelimited_false_of_head _ c0 hh hb1 hb2
  have hsplit : splitOnChar ',' (joinWith ',' ((n0 :: n1 :: rest).map RoundTrip.renderInt))
      = (n0 :: n1 :: rest).map RoundTrip.renderInt := by
    apply splitOnChar_joinWith
    · simp
    · intro x hx
      rcases List.mem_map.mp hx with ⟨m, _, rfl⟩
      exact contains_eq_false_of_not_mem _ _ (renderInt_not_mem m ',' (by decide) (by decide))
  have htrim : ((n0 :: n1 :: rest).map RoundTrip.renderInt).map trimStr
      = (n0 :: n1 :: rest).map RoundTrip.renderInt := by
    rw [List.map_map]
    apply List.map_congr_left
    intro m _
    exact renderInt_trim m
  have hfilter : ((n0 :: n1 :: rest).map RoundTrip.renderInt).filter
      (fun p : Str => !decide (p = []))
      = (n0 :: n1 :: rest).map RoundTrip.renderInt := by
    apply List.filter_eq_self.mpr
    intro x hx
    rcases List.mem_map.mp hx with ⟨m, _, rfl⟩
    simp [renderInt_ne_nil m]
  have hall : ((n0 :: n1 :: rest).map RoundTrip.renderInt).all
      (fun p => (jsStrToNumber p).isSome) = true := by
    apply List.all_eq_true.mpr
    intro x hx
    rcases List.mem_map.mp hx with ⟨m, hm, rfl⟩
    simp [jsStrToNumber_renderInt_isSome m (hb m hm)]
  have hvals : ((n0 :: n1 :: rest).map RoundTrip.renderInt).map
      (fun p => Value.vNum ((jsStrToNumber p).getD 0))
      = (n0 :: n1 :: rest).map (fun n : ℤ => Value.vNum ((n : ℚ))) := by
    rw [List.map_map]
    apply List.map_congr_left
    intro m hm
    show Value.vNum ((jsStrToNumber (RoundTrip.renderInt m)).getD 0) = _
    rw [jsStrToNumber_renderInt m (lt_of_lt_of_le (hb m hm) shift53_le)]
    rfl
  unfold AdvancedArgs.parseAdvancedValue
  rw [if_neg hne]
  simp only [hbd, heq, hcm, Bool.false_eq_true, if_false, Bool.true_and,
    decide_not, Bool.not_false, if_true, decide_False, eq_self_iff_true]
  rw [hsplit, htrim, hfilter]
  rw [if_pos (show 1 < ((n0 :: n1 :: rest).map RoundTrip.renderInt).length by
    simp)]
  rw [hall]
  simp only [if_true]
  rw [hvals]

/-- The serialized comma-object body of a well-formed nonempty field list parses as the object of the field list's runtime values. -/
theorem parseAdvancedValue_obj (fs : List (Str × RoundTrip.PTree))
    (hw : RoundTrip.wfFields fs = true) (hne : fs ≠ []) :
    AdvancedArgs.parseAdvancedValue
      (joinWith ',' ((RoundTrip.flatSegFields fs).map
        (fun pr => joinWith '.' pr.1 ++ '=' :: pr.2)))
      = (Value.vObj (RoundTrip.fieldsVal fs), AdvancedArgs.ArgType.object) := by
  obtain ⟨pr0, prs, hsp⟩ : ∃ pr0 prs, RoundTrip.flatSegFields fs = pr0 :: prs := by
    cases hh : RoundTrip.flatSegFields fs with
    | nil =>
      exfalso
      cases fs with
      | nil => exact hne rfl
      | cons f rest => exact flatSegFields_ne_nil f rest hw hh
    | cons a b => exact ⟨a, b, rfl⟩
  have hpr0 : pr0 ∈ RoundTrip.flatSegFields fs := by
    rw [hsp]; exact List.mem_cons_self _ _
  obtain ⟨_, _, hjne, _, _, _⟩ := chunk_facts fs hw pr0 hpr0
  have hchunk0ne : joinWith '.' pr0.1 ++ '=' :: pr0.2 ≠ [] := by simp
  have hmapc : (RoundTrip.flatSegFields fs).map (fun pr => joinWith '.' pr.1 ++ '=' :: pr.2)
      = (joinWith '.' pr0.1 ++ '=' :: pr0.2)
        :: prs.map (fun pr => joinWith '.' pr.1 ++ '=' :: pr.2) := by
    rw [hsp]
    rfl
  have hbody_ne : joinWith ',' ((RoundTrip.flatSegFields fs).map
      (fun pr => joinWith '.' pr.1 ++ '=' :: pr.2)) ≠ [] := by
    rw [hmapc]
    exact joinWith_ne_nil ',' _ _ hchunk0ne
  obtain ⟨c0, hc0⟩ : ∃ c0, (joinWith '.' pr0.1).head? = some c0 := by
    cases hh : joinWith '.' pr0.1 with
    | nil => exact absurd hh hjne
    | cons a b => exact ⟨a, rfl⟩
  have hc0props : c0 ≠ '{' ∧ c0 ≠ '[' := by
    have hmem : c0 ∈ joinWith '.' pr0.1 := List.mem_of_mem_head? hc0
    obtain ⟨hsegs, _⟩ := flatSegFields_wf fs hw pr0 hpr0
    rcases mem_joinWith '.' c0 pr0.1 hmem with rfl | ⟨seg, hseg, hcs⟩
    · exact ⟨by decide, by decide⟩
    · have := (nameOK_parts seg (hsegs seg hseg)).2 c0 hcs
      exact ⟨this.2.2.2.2.1, this.2.2.2.2.2⟩
  have hheadbody : (joinWith ',' ((RoundTrip.flatSegFields fs).map
      (fun pr => joinWith '.' pr.1 ++ '=' :: pr.2))).head? = some c0 := by
    rw [hmapc, joinWith_head ',' _ _ hchunk0ne,
      head?_append_of_ne_nil _ _ hjne]
    exact hc0
  have hbd : AdvancedArgs.bracketDelimited (joinWith ','
      ((RoundTrip.flatSegFields fs).map (fun pr => joinWith '.' pr.1 ++ '=' :: pr.2)))
      = false :=
    bracketDelimited_false_of_head _ c0 hheadbody hc0props.1 hc0props.2
  have hceq : (joinWith ',' ((RoundTrip.flatSegFields fs).map
      (fun pr => joinWith '.' pr.1 ++ '=' :: pr.2))).contains '=' = true := by
    apply (str_contains_iff _ _).mpr
    rw [hmapc]
    apply mem_joinWith_left
    exact List.mem_append.mpr (Or.inr (List.mem_cons_self _ _))
  unfold AdvancedArgs.parseAdvancedValue
  rw [if_neg hbody_ne]
  simp only [hbd, hceq, Bool.false_eq_true, if_false, if_true]
  rw [parseObjectValue_fields fs hw hne]

/-- A well-formed primitive's rendering is not JSON-delimited. -/
theorem bracketDelimited_renderPrim (p : RoundTrip.SPrim)
    (hw : RoundTrip.wfPrim p = true) :
    AdvancedArgs.bracketDelimited (RoundTrip.renderPrim p) = false := by
  cases p with
  | spInt n =>
    obtain ⟨c0, hc0⟩ : ∃ c0, (RoundTrip.renderInt n).head? = some c0 := by
      cases hh : RoundTrip.renderInt n with
      | nil => exact absurd hh (renderInt_ne_nil n)
      | cons a b => exact ⟨a, rfl⟩
    obtain ⟨h1, h2⟩ := renderInt_head_not_bracket n c0 hc0
    exact bracketDelimited_false_of_head _ c0 hc0 h1 h2
  | spBool b => cases b <;> decide
  | spStr s => exact (inertStr_parts s hw).2.2.2.2.2.2.2.2.2

/-- A field's flag token is the double-dash, the key, an equals sign and the field body. -/
theorem fieldToken_eq (k : Str) (f : RoundTrip.SField) :
    RoundTrip.fieldToken k f = '-' :: '-' :: (k ++ '=' :: fieldBody f) := by
  cases f <;> rfl

/-- The conjuncts of the well-formed-field predicate, per constructor. -/
theorem wfField_parts (f : RoundTrip.SField) (hw : RoundTrip.wfField f = true) :
    (∀ p, f = RoundTrip.SField.fPrim p → RoundTrip.wfPrim p = true) ∧
    (∀ ns, f = RoundTrip.SField.fArr ns →
      2 ≤ ns.length ∧ ∀ n ∈ ns, n.natAbs < 1 <<< 53) ∧
    (∀ fs, f = RoundTrip.SField.fObj fs →
      fs ≠ [] ∧ RoundTrip.wfFields fs = true) := by
  refine ⟨?_, ?_, ?_⟩
  · rintro p rfl
    exact hw
  · rintro ns rfl
    unfold RoundTrip.wfField at hw
    simp only [Bool.and_eq_true, decide_eq_true_eq, List.all_eq_true] at hw
    exact ⟨hw.1, hw.2⟩
  · rintro fs rfl
    unfold RoundTrip.wfField at hw
    simp only [Bool.and_eq_true, Bool.not_eq_true'] at hw
    refine ⟨?_, hw.2⟩
    intro he
    rw [he] at hw
    cases hw.1
  
/-- The serialized body of a well-formed field parses to the field's runtime value with the field's argument type. -/
theorem parseAdvancedValue_fieldBody (f : RoundTrip.SField)
    (hw : RoundTrip.wfField f = true) :
    AdvancedArgs.parseAdvancedValue (fieldBody f)
      = (RoundTrip.fieldVal f, fieldArgType f) := by
  obtain ⟨hp, ha, ho⟩ := wfField_parts f hw
  cases f with
  | fPrim p =>
    have hwp := hp p rfl
    obtain ⟨h1, h2, h3, _, h5⟩ := renderPrim_facts p hwp
    rw [show fieldBody (RoundTrip.SField.fPrim p) = RoundTrip.renderPrim p from rfl]
    rw [parseAdvancedValue_plain _ h1 (bracketDelimited_renderPrim p hwp) h3 h2, h5]
    rfl
  | fArr ns =>
    obtain ⟨hlen, hb⟩ := ha ns rfl
    rw [show fieldBody (RoundTrip.SField.fArr ns)
        = joinWith ',' (ns.map RoundTrip.renderInt) from rfl]
    rw [parseAdvancedValue_arr ns hlen hb]
    rfl
  | fObj fs =>
    obtain ⟨hne, hwf⟩ := ho fs rfl
    rw [show fieldBody (RoundTrip.SField.fObj fs)
        = joinWith ',' ((RoundTrip.flatSegFields fs).map
          (fun pr => joinWith '.' pr.1 ++ '=' :: pr.2)) from rfl]
    rw [parseAdvancedValue_obj fs hwf hne]
    rfl

/-- The conjuncts of the well-formed-record predicate at a cons. -/
theorem wfRecord_parts (k : Str) (f : RoundTrip.SField) (rest : RoundTrip.SRecord)
    (hw : RoundTrip.wfRecord ((k, f) :: rest) = true) :
    RoundTrip.nameOK k = true ∧ RoundTrip.wfField f = true ∧
    (∀ q ∈ rest, q.1 ≠ k) ∧ RoundTrip.wfRecord rest = true := by
  unfold RoundTrip.wfRecord at hw
  simp only [Bool.and_eq_true, List.all_eq_true, decide_eq_true_eq] at hw
  exact ⟨hw.1.1.1, hw.1.1.2, hw.1.2, hw.2⟩

/-- Scanning the serialized flag tokens of a well-formed record yields one parsed entry per field, in order, carrying the field's runtime value. -/
theorem parseAdvancedArgs_serialize :
    ∀ r : RoundTrip.SRecord, RoundTrip.wfRecord r = true →
    AdvancedArgs.parseAdvancedArgs (RoundTrip.serializeRecord r)
      = r.map (fun q => fieldEntry q.1 q.2) := by
  intro r
  induction r with
  | nil => intro _; rfl
  | cons q rest ih =>
    intro hw
    cases q with
    | mk k f =>
      obtain ⟨hk, hf, _, hr⟩ := wfRecord_parts k f rest hw
      have hkeq : ('=' : Char) ∉ k := by
        intro hm
        exact ((nameOK_parts k hk).2 '=' hm).2.2.1 rfl
      rw [show RoundTrip.serializeRecord ((k, f) :: rest)
          = RoundTrip.fieldToken k f :: RoundTrip.serializeRecord rest from rfl]
      rw [fieldToken_eq]
      unfold AdvancedArgs.parseAdvancedArgs
      rw [if_pos (show (('-' :: '-' :: (k ++ '=' :: fieldBody f)).head? = some '-') from rfl)]
      dsimp only
      rw [if_pos (show (str "--").isPrefixOf ('-' :: '-' :: (k ++ '=' :: fieldBody f))
          = true by simp [str, List.isPrefixOf])]
      rw [show ('-' :: '-' :: (k ++ '=' :: fieldBody f)).drop 2 = k ++ '=' :: fieldBody f
        from rfl]
      rw [splitFirst_append '=' k (fieldBody f) hkeq]
      dsimp only
      rw [parseAdvancedValue_fieldBody f hf]
      rw [ih hr]
      rw [← fieldToken_eq]
      rfl

/-- With pairwise-distinct keys, grouping degenerates: the assembled object lists each entry's key and value in order. -/
theorem assembleParsed_distinct (schema : Schema) :
    ∀ args : List AdvancedArgs.ParsedArgument,
    List.Pairwise (fun x y => y.key ≠ x.key) args →
    AdvancedArgs.assembleParsed schema args
      = args.map (fun a => (a.key, a.value)) := by
  intro args
  induction args with
  | nil => intro _; rfl
  | cons a rest ih =>
    intro hpw
    rcases List.pairwise_cons.mp hpw with ⟨hhead, hrest⟩
    unfold AdvancedArgs.assembleParsed
    rw [show (a :: rest).map (fun x => x.key) = a.key :: rest.map (fun x => x.key)
      from rfl]
    rw [show AdvancedArgs.firstKeys (a.key :: rest.map (fun x => x.key))
        = a.key :: (AdvancedArgs.firstKeys (rest.map (fun x => x.key))).filter
            (fun x => x ≠ a.key) from rfl]
    have hfilt : (AdvancedArgs.firstKeys (rest.map (fun x => x.key))).filter
        (fun x => x ≠ a.key) = AdvancedArgs.firstKeys (rest.map (fun x => x.key)) := by
      apply List.filter_eq_self.mpr
      intro x hx
      rcases List.mem_map.mp ((AdvancedArgs.mem_firstKeys x _).mp hx) with ⟨y, hy, rfl⟩
      simp only [decide_eq_true_eq]
      exact hhead y hy
    rw [hfilt, List.map_cons, List.map_cons]
    congr 1
    · have hf : (a :: rest).filter (fun b => b.key = a.key) = [a] := by
        rw [List.filter_cons, if_pos (by simp)]
        rw [List.filter_eq_nil_iff.mpr ?hnil]
        case hnil =>
          intro y hy
          simp only [decide_eq_true_eq]
          exact hhead y hy
      rw [hf]
      rfl
    · have hpt : ∀ k ∈ AdvancedArgs.firstKeys (rest.map (fun x => x.key)),
          (k, AdvancedArgs.groupValue schema k
            (((a :: rest).filter (fun b => b.key = k)).map (fun b => b.value)))
          = (k, AdvancedArgs.groupValue schema k
            ((rest.filter (fun b => b.key = k)).map (fun b => b.value))) := by
        intro k hk
        rcases List.mem_map.mp ((AdvancedArgs.mem_firstKeys k _).mp hk) with ⟨y, hy, rfl⟩
        have hne : (a :: rest).filter (fun b => b.key = y.key)
            = rest.filter (fun b => b.key = y.key) := by
          rw [List.filter_cons, if_neg]
          simp only [decide_eq_true_eq]
          intro hk2
          exact hhead y hy hk2.symm
        rw [hne]
      rw [List.map_congr_left hpt]
      exact ih hrest

/-- One unfolding step of the shape-field walker at a cons. -/
theorem zodFields_cons (k : Str) (sch : Schema) (rest : List (Str × Schema))
    (path : List Str) (fields : List (Str × Value)) :
    zodFields ((k, sch) :: rest) path fields
      = (match zodFields rest path fields with
         | (issues, out) =>
           match objGet fields k with
           | none =>
             if acceptsUndefined sch then (issues, out)
             else (⟨path ++ [k], expectedMsg sch⟩ :: issues, out)
           | some v =>
             match zodParse sch (path ++ [k]) v with
             | Except.ok v' => (issues, (k, v') :: out)
             | Except.error e => (e ++ issues, out)) := by
  conv_lhs => rw [zodFields]

/-- One unfolding step of the validator at an object schema and object value. -/
theorem zodParse_sObject (shape : List (Str × Schema)) (path : List Str)
    (fields : List (Str × Value)) :
    zodParse (Schema.sObject shape) path (Value.vObj fields)
      = (match zodFields shape path fields with
         | (issues, fields') =>
           if issues = [] then Except.ok (Value.vObj fields') else Except.error issues) := by
  conv_lhs => rw [zodParse]

/-- In a well-formed field list, looking up a field's name in the runtime values finds that field's runtime value. -/
theorem objGet_fieldsVal : ∀ (fs : List (Str × RoundTrip.PTree)),
    RoundTrip.wfFields fs = true →
    ∀ kt ∈ fs, objGet (RoundTrip.fieldsVal fs) kt.1 = some (RoundTrip.treeVal kt.2) := by
  intro fs
  induction fs with
  | nil => intro _ kt hkt; cases hkt
  | cons f rest ih =>
    intro hw kt hkt
    cases f with
    | mk k t =>
      have hws : RoundTrip.wfTree t = true ∧ (∀ q ∈ rest, q.1 ≠ k) ∧
          RoundTrip.wfFields rest = true := by
        unfold RoundTrip.wfFields at hw
        simp only [Bool.and_eq_true, List.all_eq_true, decide_eq_true_eq] at hw
        exact ⟨hw.1.1.2, hw.1.2, hw.2⟩
      rw [show RoundTrip.fieldsVal ((k, t) :: rest)
          = (k, RoundTrip.treeVal t) :: RoundTrip.fieldsVal rest from rfl]
      rcases List.mem_cons.mp hkt with rfl | hkt2
      · simp [objGet]
      · rw [show objGet ((k, RoundTrip.treeVal t) :: RoundTrip.fieldsVal rest) kt.1
            = if k = kt.1 then some (RoundTrip.treeVal t)
              else objGet (RoundTrip.fieldsVal rest) kt.1 from rfl]
        rw [if_neg (fun hh => hws.2.1 kt hkt2 hh.symm)]
        exact ih hws.2.2 kt hkt2

/- Validation identity on trees: a well-formed tree's runtime value validates against the tree's schema unchanged, and the shape of a well-formed field list validates issue-free against any object that holds every field's value. -/
mutual

theorem zodParse_treeVal : ∀ (t : RoundTrip.PTree), RoundTrip.wfTree t = true →
    ∀ path : List Str,
    zodParse (RoundTrip.treeSchema t) path (RoundTrip.treeVal t)
      = Except.ok (RoundTrip.treeVal t)
  | RoundTrip.PTree.leaf p => by
    intro _ path
    rw [show RoundTrip.treeSchema (RoundTrip.PTree.leaf p) = RoundTrip.primSchema p
      from rfl]
    rw [show RoundTrip.treeVal (RoundTrip.PTree.leaf p) = RoundTrip.primVal p from rfl]
    cases p <;> simp [RoundTrip.primSchema, RoundTrip.primVal, zodParse]
  | RoundTrip.PTree.node fs => by
    intro hw path
    have hwf : RoundTrip.wfFields fs = true := by
      unfold RoundTrip.wfTree at hw
      simp only [Bool.and_eq_true] at hw
      exact hw.2
    rw [show RoundTrip.treeSchema (RoundTrip.PTree.node fs)
        = Schema.sObject (RoundTrip.fieldsSchema fs) from rfl]
    rw [show RoundTrip.treeVal (RoundTrip.PTree.node fs)
        = Value.vObj (RoundTrip.fieldsVal fs) from rfl]
    rw [zodParse_sObject]
    rw [zodFields_fieldsVal fs hwf path (RoundTrip.fieldsVal fs) (objGet_fieldsVal fs hwf)]
    rfl

theorem zodFields_fieldsVal : ∀ (fs : List (Str × RoundTrip.PTree)),
    RoundTrip.wfFields fs = true →
    ∀ (path : List Str) (full : List (Str × Value)),
    (∀ kt ∈ fs, objGet full kt.1 = some (RoundTrip.treeVal kt.2)) →
    zodFields (RoundTrip.fieldsSchema fs) path full = ([], RoundTrip.fieldsVal fs)
  | [] => by
    intro _ path full _
    rw [show RoundTrip.fieldsSchema [] = ([] : List (Str × Schema)) from rfl]
    conv_lhs => rw [zodFields]
    rfl
  | (k, t) :: rest => by
    intro hw path full hlook
    have hws : RoundTrip.wfTree t = true ∧ RoundTrip.wfFields rest = true := by
      unfold RoundTrip.wfFields at hw
      simp only [Bool.and_eq_true] at hw
      exact ⟨hw.1.1.2, hw.2⟩
    rw [show RoundTrip.fieldsSchema ((k, t) :: rest)
        = (k, RoundTrip.treeSchema t) :: RoundTrip.fieldsSchema rest from rfl]
    rw [zodFields_cons]
    rw [zodFields_fieldsVal rest hws.2 path full
      (fun kt hkt => hlook kt (List.mem_cons_of_mem _ hkt))]
    rw [hlook (k, t) (List.mem_cons_self _ _)]
    dsimp only
    rw [zodParse_treeVal t hws.1 (path ++ [k])]
    rfl

end

/-- A list of numeric runtime values passes element validation against the number schema unchanged. -/
theorem zodItems_numList (path : List Str) :
    ∀ (l : List ℤ) (i : ℕ),
    zodItems Schema.sNumber path i (l.map (fun n : ℤ => Value.vNum ((n : ℚ))))
      = ([], l.map (fun n : ℤ => Value.vNum ((n : ℚ)))) := by
  intro l
  induction l with
  | nil =>
    intro i
    rw [List.map_nil]
    conv_lhs => rw [zodItems]
  | cons n ns ih =>
    intro i
    rw [List.map_cons]
    have hnum : zodParse Schema.sNumber (path ++ [renderNat i]) (Value.vNum ((n : ℚ)))
        = Except.ok (Value.vNum ((n : ℚ))) := by
      conv_lhs => rw [zodParse]
    conv_lhs => rw [zodItems]
    rw [hnum, ih (i + 1)]

/-- A well-formed field's runtime value validates against the field's schema unchanged. -/
theorem zodParse_fieldVal (f : RoundTrip.SField) (hw : RoundTrip.wfField f = true)
    (path : List Str) :
    zodParse (RoundTrip.fieldSchema f) path (RoundTrip.fieldVal f)
      = Except.ok (RoundTrip.fieldVal f) := by
  obtain ⟨hp, ha, ho⟩ := wfField_parts f hw
  cases f with
  | fPrim p =>
    rw [show RoundTrip.fieldSchema (RoundTrip.SField.fPrim p) = RoundTrip.primSchema p
      from rfl]
    rw [show RoundTrip.fieldVal (RoundTrip.SField.fPrim p) = RoundTrip.primVal p
      from rfl]
    cases p <;> simp [RoundTrip.primSchema, RoundTrip.primVal, zodParse]
  | fArr ns =>
    rw [show RoundTrip.fieldSchema (RoundTrip.SField.fArr ns)
        = Schema.sArray Schema.sNumber from rfl]
    rw [show RoundTrip.fieldVal (RoundTrip.SField.fArr ns)
        = Value.vArr (ns.map (fun n : ℤ => Value.vNum ((n : ℚ)))) from rfl]
    conv_lhs => rw [zodParse]
    rw [zodItems_numList path ns 0]
    rfl
  | fObj fs =>
    obtain ⟨hne, hwf⟩ := ho fs rfl
    rw [show RoundTrip.fieldSchema (RoundTrip.SField.fObj fs)
        = Schema.sObject (RoundTrip.fieldsSchema fs) from rfl]
    rw [show RoundTrip.fieldVal (RoundTrip.SField.fObj fs)
        = Value.vObj (RoundTrip.fieldsVal fs) from rfl]
    rw [zodParse_sObject]
    rw [zodFields_fieldsVal fs hwf path _ (objGet_fieldsVal fs hwf)]
    rfl

/-- In a well-formed record, looking up a field's name in the record's data finds that field's runtime value. -/
theorem objGet_recordVal : ∀ r : RoundTrip.SRecord, RoundTrip.wfRecord r = true →
    ∀ q ∈ r, objGet (RoundTrip.recordVal r) q.1 = some (RoundTrip.fieldVal q.2) := by
  intro r
  induction r with
  | nil => intro _ q hq; cases hq
  | cons a rest ih =>
    intro hw q hq
    cases a with
    | mk k f =>
      obtain ⟨_, _, hdist, hr⟩ := wfRecord_parts k f rest hw
      rw [show RoundTrip.recordVal ((k, f) :: rest)
          = (k, RoundTrip.fieldVal f) :: RoundTrip.recordVal rest from rfl]
      rcases List.mem_cons.mp hq with rfl | hq2
      · simp [objGet]
      · rw [show objGet ((k, RoundTrip.fieldVal f) :: RoundTrip.recordVal rest) q.1
            = if k = q.1 then some (RoundTrip.fieldVal f)
              else objGet (RoundTrip.recordVal rest) q.1 from rfl]
        rw [if_neg (fun hh => hdist q hq2 hh.symm)]
        exact ih hr q hq2

/-- The shape of a well-formed record validates issue-free against any object that holds every field's value. -/
theorem zodFields_recordVal : ∀ (r : RoundTrip.SRecord),
    RoundTrip.wfRecord r = true →
    ∀ (path : List Str) (full : List (Str × Value)),
    (∀ q ∈ r, objGet full q.1 = some (RoundTrip.fieldVal q.2)) →
    zodFields (r.map (fun p => (p.1, RoundTrip.fieldSchema p.2))) path full
      = ([], RoundTrip.recordVal r) := by
  intro r
  induction r with
  | nil =>
    intro _ path full _
    rw [List.map_nil]
    conv_lhs => rw [zodFields]
    rfl
  | cons a rest ih =>
    intro hw path full hlook
    cases a with
    | mk k f =>
      obtain ⟨_, hf, _, hr⟩ := wfRecord_parts k f rest hw
      rw [List.map_cons]
      rw [zodFields_cons]
      rw [ih hr path full (fun q hq => hlook q (List.mem_cons_of_mem _ hq))]
      rw [hlook (k, f) (List.mem_cons_self _ _)]
      dsimp only
      rw [zodParse_fieldVal f hf (path ++ [k])]
      rfl

/-- A well-formed record's data validates against the record's schema unchanged. -/
theorem zodParse_recordVal (r : RoundTrip.SRecord)
    (hw : RoundTrip.wfRecord r = true) :
    zodParse (RoundTrip.recordSchema r) [] (Value.vObj (RoundTrip.recordVal r))
      = Except.ok (Value.vObj (RoundTrip.recordVal r)) := by
  rw [show RoundTrip.recordSchema r
      = Schema.sObject (r.map (fun p => (p.1, RoundTrip.fieldSchema p.2))) from rfl]
  rw [zodParse_sObject]
  rw [zodFields_recordVal r hw [] _ (objGet_recordVal r hw)]
  rfl

/-- The parsed entries of a well-formed record have pairwise-distinct keys. -/
theorem wfRecord_pairwise : ∀ r : RoundTrip.SRecord, RoundTrip.wfRecord r = true →
    List.Pairwise (fun x y : AdvancedArgs.ParsedArgument => y.key ≠ x.key)
      (r.map (fun q => fieldEntry q.1 q.2)) := by
  intro r
  induction r with
  | nil => intro _; exact List.Pairwise.nil
  | cons a rest ih =>
    intro hw
    cases a with
    | mk k f =>
      obtain ⟨_, _, hdist, hr⟩ := wfRecord_parts k f rest hw
      rw [List.map_cons]
      apply List.pairwise_cons.mpr
      refine ⟨?_, ih hr⟩
      intro b hb
      rcases List.mem_map.mp hb with ⟨q, hq, rfl⟩
      exact hdist q hq

/-- C8 (amended): for every well-formed record — safe distinct field names;
integer values exactly representable as doubles; string leaves inert; arrays
of length at least two; nonempty objects with well-formed nested fields —
serializing the record to flag tokens, re-parsing them with
`parseAdvancedArgs` and validating against the record's schema succeeds and
returns exactly the record's data object. -/
theorem C8_wf_roundtrip (r : RoundTrip.SRecord)
    (hw : RoundTrip.wfRecord r = true) :
    AdvancedArgs.validateAdvancedArgs
      (AdvancedArgs.parseAdvancedArgs (RoundTrip.serializeRecord r))
      (RoundTrip.recordSchema r)
      = Except.ok (Value.vObj (RoundTrip.recordVal r)) := by
  rw [parseAdvancedArgs_serialize r hw]
  unfold AdvancedArgs.validateAdvancedArgs
  rw [assembleParsed_distinct _ _ (wfRecord_pairwise r hw)]
  have hmm : (r.map (fun q => fieldEntry q.1 q.2)).map (fun a => (a.key, a.value))
      = RoundTrip.recordVal r := by
    rw [List.map_map]
    rfl
  rw [hmm]
  exact zodParse_recordVal r hw

/-- C8 counterexample: the record mapping `mode` to the string `"true"` is
valid result data for the schema `z.object({ mode: z.string() })` (validating
the entry with the string value succeeds), and serializes to `--mode=true`;
but re-parsing that flag primitive-coerces the value to boolean `true`, so
validation of the round-tripped arguments fails with `expected string` —
refuting the claim's universal round trip. -/
theorem C8_str_true_counterexample :
    RoundTrip.serializeRecord strTrueRecord = [str "--mode=true"] ∧
    AdvancedArgs.validateAdvancedArgs
      [⟨str "mode", Value.vStr (str "true"), str "--mode=true",
        AdvancedArgs.ArgType.primitive⟩]
      modeStrSchema = Except.ok (Value.vObj [(str "mode", Value.vStr (str "true"))]) ∧
    AdvancedArgs.validateAdvancedArgs
      (AdvancedArgs.parseAdvancedArgs (RoundTrip.serializeRecord strTrueRecord))
      modeStrSchema
      = Except.error [⟨[str "mode"], str "expected string"⟩] := by
  refine ⟨rfl, ?_, ?_⟩
  · simp +decide [AdvancedArgs.validateAdvancedArgs, AdvancedArgs.assembleParsed,
      AdvancedArgs.firstKeys, AdvancedArgs.groupValue, modeStrSchema, zodParse,
      zodFields, objGet, acceptsUndefined, expectedMsg]
  · have hparse : AdvancedArgs.parseAdvancedArgs (RoundTrip.serializeRecord strTrueRecord)
        = [⟨str "mode", Value.vBool true, str "--mode=true",
            AdvancedArgs.ArgType.primitive⟩] := by
      rfl
    rw [hparse]
    simp +decide [AdvancedArgs.validateAdvancedArgs, AdvancedArgs.assembleParsed,
      AdvancedArgs.firstKeys, AdvancedArgs.groupValue, modeStrSchema, zodParse,
      zodFields, objGet, acceptsUndefined, expectedMsg]

/-- Witness for C8_wf_roundtrip: the sample record (an integer, a boolean,
an inert string, an integer array and a two-level nested object) is
well-formed and round-trips to exactly its data object. -/
theorem C8_wf_roundtrip_witness :
    RoundTrip.wfRecord sampleRecord = true ∧
    AdvancedArgs.validateAdvancedArgs
      (AdvancedArgs.parseAdvancedArgs (RoundTrip.serializeRecord sampleRecord))
      (RoundTrip.recordSchema sampleRecord)
      = Except.ok (Value.vObj (RoundTrip.recordVal sampleRecord)) :=
  ⟨by decide, C8_wf_roundtrip sampleRecord (by decide)⟩

